import Mathlib

set_option maxRecDepth 10000

/-!
Verification of the ASL (Amazon States Language) local validator
(`scripts/validate_asl.py`).

The embedding models parsed JSON documents (`JVal`), the dynamic Python
operations the validator performs on them (`in`, subscription, `.get`,
`.items()`, iteration, truthiness), each validation stage of
`ASLValidator.validate`, the report renderer and the batch driver's
strict-mode pass condition.  Operations that can raise a Python exception
(`TypeError`, `AttributeError`, `KeyError`) return `Except PyErr`.
-/

namespace ASLV

/-- A parsed JSON value, as produced by a successful `json.load`.  Objects
keep their key insertion order (Python dicts preserve it); keys of an object
parsed from JSON are unique.  JSON numbers are modelled as integers: the
validator never computes with numbers, they only pass through membership
tests, truthiness and serialization, and no claim involves non-integer
numbers. -/
inductive JVal where
  | null
  | bool (b : Bool)
  | num (n : Int)
  | str (s : String)
  | arr (elems : List JVal)
  | obj (fields : List (String × JVal))

/-- First-match association-list lookup: indexing a parsed JSON object by key
(keys are unique after `json.load`, so first match is the match). -/
def alookup (k : String) : List (String × JVal) → Option JVal
  | [] => none
  | p :: rest => if p.1 = k then some p.2 else alookup k rest

/-- Python truthiness of a JSON value (`bool(v)`). -/
def pyTruthy : JVal → Bool
  | .null => false
  | .bool b => b
  | .num n => n ≠ 0
  | .str s => s ≠ ""
  | .arr xs => !xs.isEmpty
  | .obj fs => !fs.isEmpty

mutual

/-- Python `repr` of a parsed JSON value, as f-strings render containers and
`None`/`True`/`False`.  The `repr` of a string is approximated as the string
between single quotes (Python additionally escapes and may switch quote
characters; no claim depends on that corner). -/
def pyRepr : JVal → String
  | .null => "None"
  | .bool true => "True"
  | .bool false => "False"
  | .num n => toString n
  | .str s => "'" ++ s ++ "'"
  | .arr xs => "[" ++ pyReprList xs ++ "]"
  | .obj fs => "\x7b" ++ pyReprFields fs ++ "\x7d"

/-- Comma-separated `repr`s of list elements. -/
def pyReprList : List JVal → String
  | [] => ""
  | [x] => pyRepr x
  | x :: y :: rest => pyRepr x ++ ", " ++ pyReprList (y :: rest)

/-- Comma-separated `'key': repr(value)` renderings of dict items. -/
def pyReprFields : List (String × JVal) → String
  | [] => ""
  | [p] => "'" ++ p.1 ++ "': " ++ pyRepr p.2
  | p :: q :: rest => "'" ++ p.1 ++ "': " ++ pyRepr p.2 ++ ", " ++ pyReprFields (q :: rest)

end

/-- Python `str` of a value interpolated into an f-string. -/
def pyStr : JVal → String
  | .str s => s
  | v => pyRepr v

mutual

/-- Python `==` on parsed JSON values.  `True == 1` and `False == 0` hold in
Python, hence the bool/int coercion.  Python compares dicts by key set rather
than order; this model compares fields in order, which coincides for the
documents the validator ever compares (dict-against-dict comparison is only
reachable through degenerate documents that crash immediately afterwards). -/
def pyEq : JVal → JVal → Bool
  | .null, .null => true
  | .bool a, .bool b => a == b
  | .bool a, .num m => (if a then (1 : Int) else 0) == m
  | .num n, .bool b => n == (if b then (1 : Int) else 0)
  | .num a, .num b => a == b
  | .str a, .str b => a == b
  | .arr a, .arr b => pyEqList a b
  | .obj a, .obj b => pyEqFields a b
  | _, _ => false

/-- Elementwise Python `==` on lists. -/
def pyEqList : List JVal → List JVal → Bool
  | [], [] => true
  | a :: as, b :: bs => pyEq a b && pyEqList as bs
  | _, _ => false

/-- Itemwise Python `==` on dict items. -/
def pyEqFields : List (String × JVal) → List (String × JVal) → Bool
  | [], [] => true
  | a :: as, b :: bs => a.1 == b.1 && pyEq a.2 b.2 && pyEqFields as bs
  | _, _ => false

end

/-- Python errors the validator can raise after a successful parse. -/
inductive PyErr where
  | typeError
  | attributeError
  | keyError
deriving DecidableEq, Repr

/-- Whether a value is hashable (usable in `x in some_set` / as a dict probe):
lists and dicts are unhashable and raise `TypeError`. -/
def hashableB : JVal → Bool
  | .arr _ => false
  | .obj _ => false
  | _ => true

/-- Substring test: Python `needle in hay` for strings. -/
def strIn (needle hay : String) : Bool :=
  (List.range (hay.length + 1)).any (fun i => needle.isPrefixOf (hay.drop i))

/-- Python `x in container` for an arbitrary container value: dicts test key
membership (after hashing `x`), lists test elementwise equality, strings test
substring containment (both operands must be strings), anything else raises
`TypeError`. -/
def pyIn (x : JVal) : JVal → Except PyErr Bool
  | .obj fs =>
      if hashableB x then
        .ok (match x with
             | .str s => fs.any (fun p => p.1 == s)
             | _ => false)
      else .error .typeError
  | .arr xs => .ok (xs.any (fun v => pyEq x v))
  | .str hay =>
      match x with
      | .str s => .ok (strIn s hay)
      | _ => .error .typeError
  | _ => .error .typeError

/-- Python `x in s` for a set `s` of strings (the validator's `reachable` and
`valid_states` sets): `x` must be hashable; only a string can be a member. -/
def pySetIn (x : JVal) (s : List String) : Except PyErr Bool :=
  if hashableB x then
    .ok (match x with
         | .str t => s.contains t
         | _ => false)
  else .error .typeError

/-- Python `v.get(k, default)`: only dicts have `.get`; anything else raises
`AttributeError`. -/
def pyGet (v : JVal) (k : String) (d : JVal) : Except PyErr JVal :=
  match v with
  | .obj fs => .ok ((alookup k fs).getD d)
  | _ => .error .attributeError

/-- Python `v[k]` for a string key `k`: dict lookup (`KeyError` when absent);
lists and strings need integer indices (`TypeError`); the rest is not
subscriptable (`TypeError`). -/
def pySub (v : JVal) (k : String) : Except PyErr JVal :=
  match v with
  | .obj fs =>
      match alookup k fs with
      | some x => .ok x
      | none => .error .keyError
  | _ => .error .typeError

/-- Python `states[current]` for an arbitrary key value: dict keys must be
hashable; a hashable non-string key misses every string key (`KeyError`);
non-dict containers reject string keys (`TypeError`). -/
def pySubV (v k : JVal) : Except PyErr JVal :=
  match v with
  | .obj fs =>
      match k with
      | .arr _ => .error .typeError
      | .obj _ => .error .typeError
      | .str s =>
          (match alookup s fs with
           | some x => .ok x
           | none => .error .keyError)
      | _ => .error .keyError
  | _ => .error .typeError

/-- Python `v.items()`: only dicts have it. -/
def pyItems (v : JVal) : Except PyErr (List (String × JVal)) :=
  match v with
  | .obj fs => .ok fs
  | _ => .error .attributeError

/-- Python `v.keys()`: only dicts have it. -/
def pyKeys (v : JVal) : Except PyErr (List String) :=
  match v with
  | .obj fs => .ok (fs.map Prod.fst)
  | _ => .error .attributeError

/-- Python iteration (`for x in v`): lists yield elements, dicts yield keys,
strings yield one-character strings; other values are not iterable. -/
def pyIterList (v : JVal) : Except PyErr (List JVal) :=
  match v with
  | .arr xs => .ok xs
  | .obj fs => .ok (fs.map (fun p => JVal.str p.1))
  | .str s => .ok (s.toList.map (fun c => JVal.str (String.singleton c)))
  | _ => .error .typeError

/-- `state_def.get("Type") == "Choice"`-style comparison of an optional value
against a string literal: in Python only an equal string compares equal. -/
def isStrEq (v : Option JVal) (s : String) : Bool :=
  match v with
  | some (.str t) => t == s
  | _ => false

/-! ## The validator's class constants -/

def VALID_STATE_TYPES : List String :=
  ["Task", "Pass", "Choice", "Wait", "Succeed", "Fail", "Parallel", "Map"]

def TERMINAL_STATE_TYPES : List String := ["Succeed", "Fail"]

def NO_TRANSITION_TYPES : List String := ["Choice", "Succeed", "Fail"]

/-! ## Structural validation stages -/

/-- `_validate_required_fields`: `StartAt` and `States` must be present,
`States` must be a non-empty object. -/
def validate_required_fields (doc : JVal) : Except PyErr (List String) := do
  let hasStartAt ← pyIn (.str "StartAt") doc
  let errs1 : List String :=
    if hasStartAt then [] else ["Missing required field: 'StartAt'"]
  let hasStates ← pyIn (.str "States") doc
  if !hasStates then
    pure (errs1 ++ ["Missing required field: 'States'"])
  else do
    let states ← pySub doc "States"
    match states with
    | .obj fs =>
        if fs.isEmpty then pure (errs1 ++ ["'States' cannot be empty"])
        else pure errs1
    | _ => pure (errs1 ++ ["'States' must be an object"])

/-- `_validate_start_at`: when both fields are present, `StartAt` must be a
member of `States`. -/
def validate_start_at (doc : JVal) : Except PyErr (List String) := do
  let hasStartAt ← pyIn (.str "StartAt") doc
  if !hasStartAt then pure [] else do
  let hasStates ← pyIn (.str "States") doc
  if !hasStates then pure [] else do
  let startAt ← pySub doc "StartAt"
  let states ← pyGet doc "States" (.obj [])
  let mem ← pyIn startAt states
  if mem then pure []
  else pure ["'StartAt' references non-existent state: '" ++ pyStr startAt ++ "'"]

/-- `x in self.VALID_STATE_TYPES` on a `Type` value: the value is hashed
(so a list or dict raises `TypeError`); only one of the 8 tag strings is a
member.  Returns the tag when the value is a valid tag. -/
def typeInValid (v : JVal) : Except PyErr (Option String) :=
  match v with
  | .arr _ => .error .typeError
  | .obj _ => .error .typeError
  | .str s => .ok (if VALID_STATE_TYPES.contains s then some s else none)
  | _ => .ok none

/-- `_validate_choice_state`: errors on the first component, the missing
`Default` warning on the second. -/
def choiceNextFieldErrs (name : String) : List JVal → Nat → Except PyErr (List String)
  | [], _ => .ok []
  | c :: rest, i => do
      let hasNext ← pyIn (.str "Next") c
      let tl ← choiceNextFieldErrs name rest (i + 1)
      .ok ((if hasNext then []
            else ["Choice state '" ++ name ++ "' choice[" ++ toString i ++
                  "] missing 'Next' field"]) ++ tl)

def validate_choice_state (name : String) (sd : List (String × JVal)) :
    Except PyErr (List String × List String) :=
  match alookup "Choices" sd with
  | none =>
      .ok (["Choice state '" ++ name ++ "' missing required 'Choices' field"], [])
  | some choices =>
      match choices with
      | .arr cs => do
          let emptyErr : List String :=
            if cs.isEmpty then
              ["Choice state '" ++ name ++ "': 'Choices' array cannot be empty"]
            else []
          let nextErrs ← choiceNextFieldErrs name cs 0
          let defWarn : List String :=
            if (alookup "Default" sd).isSome then []
            else ["Choice state '" ++ name ++
                  "' has no 'Default' - may fail at runtime if no choice matches"]
          .ok (emptyErr ++ nextErrs, defWarn)
      | _ => .ok (["Choice state '" ++ name ++ "': 'Choices' must be an array"], [])

/-- `_validate_task_state`. -/
def validate_task_state (name : String) (sd : List (String × JVal)) :
    List String × List String :=
  let errs :=
    if (alookup "Resource" sd).isSome then []
    else ["Task state '" ++ name ++ "' missing required 'Resource' field"]
  let warns :=
    if (alookup "Catch" sd).isSome || (alookup "Retry" sd).isSome then []
    else ["Task state '" ++ name ++ "' has no error handling (Catch/Retry)"]
  (errs, warns)

/-- `_validate_wait_state`. -/
def validate_wait_state (name : String) (sd : List (String × JVal)) : List String :=
  if ["Seconds", "SecondsPath", "Timestamp", "TimestampPath"].any
       (fun f => (alookup f sd).isSome) then []
  else ["Wait state '" ++ name ++
        "' must have one of: Seconds, SecondsPath, Timestamp, TimestampPath"]

/-- `_validate_map_state`. -/
def validate_map_state (name : String) (sd : List (String × JVal)) : List String :=
  if (alookup "ItemProcessor" sd).isSome || (alookup "Iterator" sd).isSome then []
  else ["Map state '" ++ name ++ "' missing 'ItemProcessor' or 'Iterator'"]

/-- `_validate_parallel_state`. -/
def validate_parallel_state (name : String) (sd : List (String × JVal)) : List String :=
  match alookup "Branches" sd with
  | none => ["Parallel state '" ++ name ++ "' missing required 'Branches' field"]
  | some (.arr bs) =>
      if bs.isEmpty then
        ["Parallel state '" ++ name ++ "': 'Branches' must be a non-empty array"]
      else []
  | some _ => ["Parallel state '" ++ name ++ "': 'Branches' must be a non-empty array"]

/-- One iteration of the `_validate_states` loop: the diagnostics produced for
one `(state_name, state_def)` item. -/
def validate_one_state (name : String) (v : JVal) :
    Except PyErr (List String × List String) :=
  match v with
  | .obj sd =>
      let stype := (alookup "Type" sd).getD .null
      if !(pyTruthy stype) then
        .ok (["State '" ++ name ++ "' missing 'Type' field"], [])
      else do
        let validTag ← typeInValid stype
        match validTag with
        | none =>
            .ok (["State '" ++ name ++ "' has invalid type: '" ++ pyStr stype ++ "'"], [])
        | some t =>
            let transErr : List String :=
              if !(NO_TRANSITION_TYPES.contains t) then
                let hasEnd := pyTruthy ((alookup "End" sd).getD (.bool false))
                let hasNext := (alookup "Next" sd).isSome
                if !hasEnd && !hasNext then
                  ["State '" ++ name ++ "' (Type: " ++ t ++
                   ") must have 'End: true' or 'Next'"]
                else []
              else []
            if t == "Choice" then do
              let (ce, cw) ← validate_choice_state name sd
              .ok (transErr ++ ce, cw)
            else if t == "Task" then
              let (te, tw) := validate_task_state name sd
              .ok (transErr ++ te, tw)
            else if t == "Wait" then
              .ok (transErr ++ validate_wait_state name sd, [])
            else if t == "Map" then
              .ok (transErr ++ validate_map_state name sd, [])
            else if t == "Parallel" then
              .ok (transErr ++ validate_parallel_state name sd, [])
            else
              .ok (transErr, [])
  | _ => .ok (["State '" ++ name ++ "' must be an object"], [])

/-- The `_validate_states` loop over all items. -/
def statesLoop : List (String × JVal) → Except PyErr (List String × List String)
  | [] => .ok ([], [])
  | (name, v) :: rest => do
      let (e, w) ← validate_one_state name v
      let (re, rw) ← statesLoop rest
      .ok (e ++ re, w ++ rw)

/-- `_validate_states`. -/
def validate_states (doc : JVal) : Except PyErr (List String × List String) := do
  let states ← pyGet doc "States" (.obj [])
  let fields ← pyItems states
  statesLoop fields

/-! ## Reference graph stage -/

/-- The `Choices` loop of `_validate_state_references`. -/
def refChoiceErrs (valid : List String) (name : String) :
    List JVal → Nat → Except PyErr (List String)
  | [], _ => .ok []
  | c :: rest, i => do
      let hasNext ← pyIn (.str "Next") c
      let hd ←
        if hasNext then do
          let nx ← pySub c "Next"
          let mem ← pySetIn nx valid
          if mem then pure []
          else
            pure ["Choice state '" ++ name ++ "' choice[" ++ toString i ++
                  "] references non-existent state: '" ++ pyStr nx ++ "'"]
        else pure []
      let tl ← refChoiceErrs valid name rest (i + 1)
      .ok (hd ++ tl)

/-- The `Catch` loop of `_validate_state_references`. -/
def refCatchErrs (valid : List String) (name : String) :
    List JVal → Nat → Except PyErr (List String)
  | [], _ => .ok []
  | c :: rest, i => do
      let hasNext ← pyIn (.str "Next") c
      let hd ←
        if hasNext then do
          let nx ← pySub c "Next"
          let mem ← pySetIn nx valid
          if mem then pure []
          else
            pure ["State '" ++ name ++ "' Catch[" ++ toString i ++
                  "] references non-existent state: '" ++ pyStr nx ++ "'"]
        else pure []
      let tl ← refCatchErrs valid name rest (i + 1)
      .ok (hd ++ tl)

/-- The `Next` check of `_validate_state_references` for one state object. -/
def refNextErrs (valid : List String) (name : String) (sd : List (String × JVal)) :
    Except PyErr (List String) :=
  match alookup "Next" sd with
  | some nx => do
      let mem ← pySetIn nx valid
      if mem then pure []
      else
        pure ["State '" ++ name ++ "' 'Next' references non-existent state: '" ++
              pyStr nx ++ "'"]
  | none => pure []

/-- The `Choice` transition checks of `_validate_state_references`
(`Choices[i].Next`, then `Default`), run only for `Choice`-typed states. -/
def refChoicePart (valid : List String) (name : String) (sd : List (String × JVal)) :
    Except PyErr (List String) :=
  if isStrEq (alookup "Type" sd) "Choice" then do
    let choices ← pyIterList ((alookup "Choices" sd).getD (.arr []))
    let ce ← refChoiceErrs valid name choices 0
    let de ←
      match alookup "Default" sd with
      | some d => do
          let mem ← pySetIn d valid
          if mem then pure ([] : List String)
          else
            pure ["Choice state '" ++ name ++
                  "' 'Default' references non-existent state: '" ++ pyStr d ++ "'"]
      | none => pure []
    pure (ce ++ de)
  else pure []

/-- The `Catch` checks of `_validate_state_references`, run for every
state. -/
def refCatchPart (valid : List String) (name : String) (sd : List (String × JVal)) :
    Except PyErr (List String) := do
  let catches ← pyIterList ((alookup "Catch" sd).getD (.arr []))
  refCatchErrs valid name catches 0

/-- One iteration of the `_validate_state_references` loop. -/
def refErrsOne (valid : List String) (name : String) (v : JVal) :
    Except PyErr (List String) :=
  match v with
  | .obj sd => do
      let nextErrs ← refNextErrs valid name sd
      let choiceErrs ← refChoicePart valid name sd
      let catchErrs ← refCatchPart valid name sd
      pure (nextErrs ++ choiceErrs ++ catchErrs)
  | _ => pure []

/-- The `_validate_state_references` loop over all items. -/
def refErrsLoop (valid : List String) : List (String × JVal) → Except PyErr (List String)
  | [] => .ok []
  | (name, v) :: rest => do
      let e ← refErrsOne valid name v
      let re ← refErrsLoop valid rest
      .ok (e ++ re)

/-- `_validate_state_references`. -/
def validate_state_references (doc : JVal) : Except PyErr (List String) := do
  let states ← pyGet doc "States" (.obj [])
  let valid ← pyKeys states
  let fields ← pyItems states
  refErrsLoop valid fields

/-! ## Terminal state stage -/

/-- The collection loop of `_validate_terminal_states`: the names appended to
`terminal_states`. -/
def terminalsLoop : List (String × JVal) → Except PyErr (List String)
  | [] => .ok []
  | (name, v) :: rest =>
      match v with
      | .obj sd => do
          let st := (alookup "Type" sd).getD (.str "")
          let isTerm ←
            match st with
            | .arr _ => .error PyErr.typeError
            | .obj _ => .error PyErr.typeError
            | .str s =>
                pure (TERMINAL_STATE_TYPES.contains s ||
                      pyTruthy ((alookup "End" sd).getD (.bool false)))
            | _ => pure (pyTruthy ((alookup "End" sd).getD (.bool false)))
          let tl ← terminalsLoop rest
          .ok ((if isTerm then [name] else []) ++ tl)
      | _ => terminalsLoop rest

/-- `_validate_terminal_states`. -/
def validate_terminal_states (doc : JVal) : Except PyErr (List String) := do
  let states ← pyGet doc "States" (.obj [])
  let fields ← pyItems states
  let terms ← terminalsLoop fields
  if terms.isEmpty then
    .ok ["No terminal state found - workflow will never complete (need 'End: true', 'Succeed', or 'Fail' state)"]
  else .ok []

/-! ## Reachability stage -/

/-- The shared shape of the `Choices` and `Catch` collection loops in
`_detect_unreachable_states`: the `Next` value of every element containing
one. -/
def collectNexts : List JVal → Except PyErr (List JVal)
  | [] => .ok []
  | c :: rest => do
      let hasNext ← pyIn (.str "Next") c
      let hd ← if hasNext then do
          let nx ← pySub c "Next"
          pure [nx]
        else pure ([] : List JVal)
      let tl ← collectNexts rest
      pure (hd ++ tl)

/-- The `next_states` collected for one visited state in
`_detect_unreachable_states`: `Next`, then each `Choices[i].Next` and
`Default` for `Choice`-typed states, then each `Catch[i].Next`.  The
`Branches` loop appends nothing (branch states live in their own namespace)
but still iterates, so a non-iterable `Branches` value raises. -/
def succsOfState (sd : List (String × JVal)) : Except PyErr (List JVal) := do
  let n1 : List JVal :=
    match alookup "Next" sd with
    | some nx => [nx]
    | none => []
  let n2 ←
    if isStrEq (alookup "Type" sd) "Choice" then do
      let choices ← pyIterList ((alookup "Choices" sd).getD (.arr []))
      let cn ← collectNexts choices
      let dn : List JVal :=
        match alookup "Default" sd with
        | some d => [d]
        | none => []
      pure (cn ++ dn)
    else pure []
  let catches ← pyIterList ((alookup "Catch" sd).getD (.arr []))
  let n3 ← collectNexts catches
  let _ ← pyIterList ((alookup "Branches" sd).getD (.arr []))
  pure (n1 ++ n2 ++ n3)

/-- The BFS work-list loop of `_detect_unreachable_states`.  `fuel` exists
only to satisfy Lean's termination checker; every entry point passes enough
fuel for the loop to drain its queue (each iteration pops one element, and an
element is pushed only when a state is newly marked reachable), which the
fuel-adequacy lemmas below make precise.  Only strings are ever added to
`reachable`: a value is added right before `states[current]` is subscripted,
which succeeds only when `states` is a dict and `current` a string key (any
other combination raises before the next iteration observes `reachable`). -/
def bfsLoop (states : JVal) : Nat → List JVal → List String → Except PyErr (List String)
  | _, [], reach => .ok reach
  | 0, _ :: _, reach => .ok reach
  | fuel + 1, cur :: queue, reach => do
      let inReach ← pySetIn cur reach
      let skip ←
        if inReach then pure true
        else do
          let inStates ← pyIn cur states
          pure (!inStates)
      if skip then bfsLoop states fuel queue reach
      else do
        let reach' := reach ++ (match cur with | .str s => [s] | _ => [])
        let sdv ← pySubV states cur
        match sdv with
        | .obj sd => do
            let nexts ← succsOfState sd
            bfsLoop states fuel (queue ++ nexts) reach'
        | _ => bfsLoop states fuel queue reach'

/-- An upper bound on the number of successors one state value can enqueue. -/
def succBound (v : JVal) : Nat :=
  match v with
  | .obj sd =>
      let cLen :=
        match alookup "Choices" sd with
        | some (.arr xs) => xs.length
        | some (.obj fs) => fs.length
        | some (.str s) => s.length
        | _ => 0
      let kLen :=
        match alookup "Catch" sd with
        | some (.arr xs) => xs.length
        | some (.obj fs) => fs.length
        | some (.str s) => s.length
        | _ => 0
      2 + cLen + kLen
  | _ => 0

/-- Fuel passed to `bfsLoop`: one unit for the initial queue entry plus, for
every state, one unit for its own visit and room for everything it can
enqueue. -/
def bfsFuel (states : JVal) : Nat :=
  match states with
  | .obj fs => 1 + (fs.map (fun p => 1 + succBound p.2)).sum
  | _ => 1

/-- `_detect_unreachable_states`.  Python iterates the set difference
`set(states.keys()) - reachable` in an implementation-defined order; the model
determinizes that order to key insertion order. -/
def detect_unreachable_states (doc : JVal) : Except PyErr (List String) := do
  let states ← pyGet doc "States" (.obj [])
  let startAt ← pyGet doc "StartAt" .null
  if !(pyTruthy states) || !(pyTruthy startAt) then pure [] else do
  let reach ← bfsLoop states (bfsFuel states) [startAt] []
  let keys ← pyKeys states
  pure ((keys.filter (fun k => !(reach.contains k))).map
        (fun s => "State '" ++ s ++ "' is unreachable from StartAt"))

/-! ## Pattern check stages -/

/-- The loop of `_check_cross_account_patterns`: the number of states with a
`Credentials` attribute, and the missing-`RoleArn` warnings. -/
def crossAccountLoop : List (String × JVal) → Except PyErr (Nat × List String)
  | [] => .ok (0, [])
  | (name, v) :: rest =>
      match v with
      | .obj sd =>
          match alookup "Credentials" sd with
          | some creds => do
              let hasR1 ← pyIn (.str "RoleArn") creds
              let warn ←
                if !hasR1 then do
                  let hasR2 ← pyIn (.str "RoleArn.$") creds
                  pure (if !hasR2 then
                          ["State '" ++ name ++ "' has Credentials but no RoleArn"]
                        else [])
                else pure []
              let (rc, rw) ← crossAccountLoop rest
              .ok (rc + 1, warn ++ rw)
          | none => crossAccountLoop rest
      | _ => crossAccountLoop rest

/-- `_check_cross_account_patterns`: warnings and the info line. -/
def check_cross_account_patterns (doc : JVal) :
    Except PyErr (List String × List String) := do
  let states ← pyGet doc "States" (.obj [])
  let fields ← pyItems states
  let (count, warns) ← crossAccountLoop fields
  let info : List String :=
    if count > 0 then
      ["Cross-account pattern detected: " ++ toString count ++ " states with Credentials"]
    else []
  pure (warns, info)

/-! ## `json.dumps` (default settings: `ensure_ascii=True`, separators
`", "` and `": "`) -/

/-- Lowercase hex digit. -/
def hexDigitChar (n : Nat) : Char :=
  if n < 10 then Char.ofNat (48 + n) else Char.ofNat (87 + n)

/-- Four lowercase hex digits. -/
def hex4 (n : Nat) : String :=
  String.mk [hexDigitChar (n / 4096 % 16), hexDigitChar (n / 256 % 16),
             hexDigitChar (n / 16 % 16), hexDigitChar (n % 16)]

/-- `json.dumps` escaping of one character with `ensure_ascii=True`: short
escapes for the usual control characters, `\uXXXX` for other characters
outside `0x20`–`0x7e`, surrogate pairs beyond the BMP. -/
def escChar (c : Char) : String :=
  if c = '"' then "\\\""
  else if c = '\\' then "\\\\"
  else if c = '\n' then "\\n"
  else if c = '\r' then "\\r"
  else if c = '\t' then "\\t"
  else if c.toNat = 8 then "\\b"
  else if c.toNat = 12 then "\\f"
  else if c.toNat < 32 then "\\u" ++ hex4 c.toNat
  else if c.toNat ≤ 126 then String.singleton c
  else if c.toNat ≤ 65535 then "\\u" ++ hex4 c.toNat
  else
    let v := c.toNat - 65536
    "\\u" ++ hex4 (55296 + v / 1024) ++ "\\u" ++ hex4 (56320 + v % 1024)

/-- `json.dumps` of a string. -/
def dumpsStr (s : String) : String :=
  "\"" ++ String.join (s.toList.map escChar) ++ "\""

mutual

/-- `json.dumps(v)` with default arguments. -/
def dumps : JVal → String
  | .null => "null"
  | .bool true => "true"
  | .bool false => "false"
  | .num n => toString n
  | .str s => dumpsStr s
  | .arr xs => "[" ++ dumpsList xs ++ "]"
  | .obj fs => "\x7b" ++ dumpsFields fs ++ "\x7d"

/-- Comma-separated serializations of array elements. -/
def dumpsList : List JVal → String
  | [] => ""
  | [x] => dumps x
  | x :: y :: rest => dumps x ++ ", " ++ dumpsList (y :: rest)

/-- Comma-separated `"key": value` serializations of object items. -/
def dumpsFields : List (String × JVal) → String
  | [] => ""
  | [p] => dumpsStr p.1 ++ ": " ++ dumps p.2
  | p :: q :: rest => dumpsStr p.1 ++ ": " ++ dumps p.2 ++ ", " ++ dumpsFields (q :: rest)

end

/-! ## The hardcoded-ARN scan:
`re.findall(r'arn:aws:[a-z0-9-]+:[a-z0-9-]*:(\d{12}):', content)` -/

/-- Membership in the character class `[a-z0-9-]`. -/
def isArnBodyChar (c : Char) : Bool :=
  ('a' ≤ c && c ≤ 'z') || ('0' ≤ c && c ≤ '9') || c == '-'

/-- Membership in `\d` over the ASCII-only output of
`json.dumps(..., ensure_ascii=True)`: the digits `0`–`9`. -/
def isDigitChar (c : Char) : Bool := '0' ≤ c && c ≤ '9'

/-- Consume an exact literal prefix. -/
def dropLit : List Char → List Char → Option (List Char)
  | [], rest => some rest
  | l :: ls, c :: cs => if c = l then dropLit ls cs else none
  | _ :: _, [] => none

/-- Consume one `':'`. -/
def expectColon : List Char → Option (List Char)
  | ':' :: rest => some rest
  | _ => none

/-- One attempt of the account-id pattern anchored at the start of `s`:
literal `arn:aws:`, a non-empty run of `[a-z0-9-]`, `:`, a possibly empty run
of `[a-z0-9-]`, `:`, exactly 12 digits (the capture), `:`.  The character
classes exclude `:` and the `{12}` counter is fixed, so the regex engine's
greedy matching is deterministic and needs no backtracking here.  Returns the
captured group and the rest of the input after the match. -/
def matchArnAt (s : List Char) : Option (String × List Char) := do
  let r1 ← dropLit "arn:aws:".toList s
  if (r1.takeWhile isArnBodyChar).isEmpty then none else do
  let r2 ← expectColon (r1.dropWhile isArnBodyChar)
  let r3 ← expectColon (r2.dropWhile isArnBodyChar)
  let digits := r3.take 12
  if digits.length = 12 && digits.all isDigitChar then do
    let r4 ← expectColon (r3.drop 12)
    some (String.mk digits, r4)
  else none

theorem length_dropWhile_le (p : Char → Bool) (l : List Char) :
    (l.dropWhile p).length ≤ l.length := by
  induction l with
  | nil => simp [List.dropWhile]
  | cons a as ih => by_cases h : p a <;> simp [List.dropWhile, h] <;> omega

theorem dropLit_length {l s r : List Char} (h : dropLit l s = some r) :
    r.length + l.length = s.length := by
  induction l generalizing s with
  | nil => simp [dropLit] at h; simp [h]
  | cons c cs ih =>
      cases s with
      | nil => simp [dropLit] at h
      | cons d ds =>
          simp only [dropLit] at h
          split at h
          · have := ih h
            simp only [List.length_cons]
            omega
          · exact absurd h (by simp)

theorem expectColon_length {s r : List Char} (h : expectColon s = some r) :
    r.length + 1 = s.length := by
  cases s with
  | nil => simp [expectColon] at h
  | cons c cs =>
      by_cases hc : c = ':'
      · subst hc; simp [expectColon] at h; simp [h]
      · cases c <;> simp_all [expectColon]

/-- A successful match consumes at least one character. -/
theorem matchArnAt_length {s : List Char} {a : String} {r : List Char}
    (h : matchArnAt s = some (a, r)) : r.length < s.length := by
  simp only [matchArnAt, Option.bind_eq_bind, Option.bind_eq_some] at h
  obtain ⟨r1, h1, h⟩ := h
  split at h
  · exact absurd h (by simp)
  · simp only [Option.bind_eq_some] at h
    obtain ⟨r2, h2, h⟩ := h
    obtain ⟨r3, h3, h⟩ := h
    split at h
    · simp only [Option.bind_eq_some] at h
      obtain ⟨r4, h4, h⟩ := h
      simp only [Option.some.injEq, Prod.mk.injEq] at h
      obtain ⟨-, hr⟩ := h
      subst hr
      have e1 := dropLit_length h1
      have e2 := expectColon_length h2
      have e3 := expectColon_length h3
      have e4 := expectColon_length h4
      have d1 := length_dropWhile_le isArnBodyChar r1
      have d2 := length_dropWhile_le isArnBodyChar r2
      have d3 : (r3.drop 12).length ≤ r3.length := by
        simp [List.length_drop]
      have hlit : ("arn:aws:".toList).length = 8 := rfl
      omega
    · exact absurd h (by simp)

/-- `re.findall` of the account-id pattern: scan left to right; at a match,
record the capture and continue after the match's end (matches do not
overlap); otherwise advance one character.  The fuel argument only lets the
recursion be structural; with fuel `s.length` it never runs out, because every
step consumes at least one character (`matchArnAt_length`), which
`findallArnAux_fuel` makes precise. -/
def findallArnAux : Nat → List Char → List String
  | _, [] => []
  | 0, _ :: _ => []
  | fuel + 1, c :: rest =>
      match matchArnAt (c :: rest) with
      | some (acc, r) => acc :: findallArnAux fuel r
      | none => findallArnAux fuel rest

def findallArn (s : List Char) : List String := findallArnAux s.length s

/-- Any fuel of at least `s.length` computes `findallArn s`: the fuel is a
termination device, not part of the semantics. -/
theorem findallArnAux_fuel (fuel : Nat) :
    ∀ s : List Char, s.length ≤ fuel → findallArnAux fuel s = findallArn s := by
  induction fuel using Nat.strong_induction_on with
  | _ fuel ih =>
      intro s hs
      match s with
      | [] => cases fuel <;> rfl
      | c :: rest =>
          match fuel, hs with
          | 0, hs => simp at hs
          | fuel + 1, hs =>
          simp only [List.length_cons] at hs
          have hrest : rest.length ≤ fuel := by omega
          simp only [findallArn, findallArnAux, List.length_cons]
          cases hm : matchArnAt (c :: rest) with
          | some p =>
              obtain ⟨acc, r⟩ := p
              have hr : r.length < rest.length + 1 := by
                simpa using matchArnAt_length hm
              have h1 : findallArnAux fuel r = findallArn r :=
                ih fuel (by omega) r (by omega)
              have h2 : findallArnAux rest.length r = findallArn r :=
                ih rest.length (by omega) r (by omega)
              simp [h1, h2]
          | none =>
              have h1 : findallArnAux fuel rest = findallArn rest :=
                ih fuel (by omega) rest hrest
              have h2 : findallArnAux rest.length rest = findallArn rest :=
                ih rest.length (by omega) rest (by omega)
              simp [h1, h2]

/-- Canonical iteration order for the Python set `unique_accounts`: sorted
order with duplicates removed.  Python iterates a set in an
implementation-defined order; the model fixes one that depends only on the
set's contents. -/
def setOrdered (l : List String) : List String :=
  List.insertionSort (· ≤ ·) l.dedup

/-- `_check_hardcoded_arns` (never raises: it only serializes and scans). -/
def check_hardcoded_arns (doc : JVal) : List String :=
  let ms := findallArn (dumps doc).toList
  if ms.isEmpty then []
  else ["Hardcoded AWS account ID(s) found: " ++
        String.intercalate ", " (setOrdered ms) ++
        " - consider using parameters"]

/-! ## The driver: `validate`, `load`, `report`, and the batch loop -/

/-- The three diagnostic lists one `ASLValidator` accumulates for one file. -/
structure VResult where
  errors : List String
  warnings : List String
  info : List String
deriving DecidableEq, Repr

/-- The eight post-parse stages of `ASLValidator.validate`, in call order,
with every stage's diagnostics concatenated into the per-severity lists. -/
def runChecks (doc : JVal) : Except PyErr VResult := do
  let e1 ← validate_required_fields doc
  let e2 ← validate_start_at doc
  let (e3, w3) ← validate_states doc
  let e4 ← validate_state_references doc
  let e5 ← validate_terminal_states doc
  let w6 ← detect_unreachable_states doc
  let (w7, i7) ← check_cross_account_patterns doc
  let w8 := check_hardcoded_arns doc
  pure { errors := e1 ++ e2 ++ e3 ++ e4 ++ e5
         warnings := w3 ++ w6 ++ w7 ++ w8
         info := i7 }

/-- `ASLValidator.validate` on a successfully parsed document: the diagnostic
lists and the returned boolean `len(self.errors) == 0`. -/
def validateDoc (doc : JVal) : Except PyErr (VResult × Bool) := do
  let r ← runChecks doc
  pure (r, r.errors.isEmpty)

/-- The outcome of `ASLValidator.load`: a parsed document, or one of the
three failure classes with the exception's message. -/
inductive LoadResult where
  | parsed (doc : JVal)
  | jsonError (msg : String)
  | fileNotFound
  | readError (msg : String)

/-- The single error `load` appends on failure. -/
def loadErrors (path : String) : LoadResult → List String
  | .parsed _ => []
  | .jsonError m => ["Invalid JSON syntax: " ++ m]
  | .fileNotFound => ["File not found: " ++ path]
  | .readError m => ["Error reading file: " ++ m]

/-- `ASLValidator.validate` including the initial `load`: on a load failure
the method returns `False` at once with only the load error recorded and no
later stage run. -/
def validateFile (path : String) (lr : LoadResult) : Except PyErr (VResult × Bool) :=
  match lr with
  | .parsed doc => validateDoc doc
  | e => .ok ({ errors := loadErrors path e, warnings := [], info := [] }, false)

/-- One file's pass/fail decision in the batch driver `main`:
`is_valid = validator.validate()`, and under `--strict` additionally
`len(validator.warnings) == 0`. -/
def strictPass (strict : Bool) (path : String) (lr : LoadResult) :
    Except PyErr Bool := do
  let (r, isValid) ← validateFile path lr
  pure (isValid && (!strict || r.warnings.isEmpty))

/-- The lines of `ASLValidator.report`, in order. -/
def reportLines (path : String) (r : VResult) (verbose : Bool) : List String :=
  ["File: " ++ path]
  ++ (if !r.errors.isEmpty then
        ("  ERRORS (" ++ toString r.errors.length ++ "):")
          :: r.errors.map (fun e => "    ✗ " ++ e)
      else [])
  ++ (if !r.warnings.isEmpty && verbose then
        ("  WARNINGS (" ++ toString r.warnings.length ++ "):")
          :: r.warnings.map (fun w => "    ⚠ " ++ w)
      else [])
  ++ (if !r.info.isEmpty && verbose then
        ("  INFO (" ++ toString r.info.length ++ "):")
          :: r.info.map (fun i => "    ℹ " ++ i)
      else [])
  ++ (if r.errors.isEmpty then ["  ✓ Valid"] else [])

/-- `ASLValidator.report`. -/
def report (path : String) (r : VResult) (verbose : Bool) : String :=
  String.intercalate "\n" (reportLines path r verbose)

/-! ## Claim C1: validity is emptiness of the error list; strict mode adds
emptiness of the warning list -/

/-- C1.  For every input file whose validation run returns, the boolean
`ASLValidator.validate` returns is `true` exactly when the validator's error
list is empty after all stages have run, and the batch driver's strict-mode
pass condition for the file holds exactly when both the error list and the
warning list are empty. -/
theorem validate_true_iff_no_errors (path : String) (lr : LoadResult)
    (r : VResult) (b : Bool) (h : validateFile path lr = .ok (r, b)) :
    (b = true ↔ r.errors = []) ∧
    strictPass true path lr = .ok (b && r.warnings.isEmpty) ∧
    ((b && r.warnings.isEmpty) = true ↔ (r.errors = [] ∧ r.warnings = [])) := by
  have hb : b = r.errors.isEmpty := by
    cases lr with
    | parsed doc =>
        simp only [validateFile, validateDoc, bind, Except.bind] at h
        cases hrc : runChecks doc with
        | error e => rw [hrc] at h; simp at h
        | ok r' =>
            rw [hrc] at h
            simp only [pure, Except.pure, Except.ok.injEq, Prod.mk.injEq] at h
            obtain ⟨h1, h2⟩ := h
            rw [← h1, ← h2]
    | jsonError m => simp only [validateFile, Except.ok.injEq, Prod.mk.injEq] at h
                     obtain ⟨h1, h2⟩ := h; rw [← h1, ← h2]; rfl
    | fileNotFound => simp only [validateFile, Except.ok.injEq, Prod.mk.injEq] at h
                      obtain ⟨h1, h2⟩ := h; rw [← h1, ← h2]; rfl
    | readError m => simp only [validateFile, Except.ok.injEq, Prod.mk.injEq] at h
                     obtain ⟨h1, h2⟩ := h; rw [← h1, ← h2]; rfl
  refine ⟨?_, ?_, ?_⟩
  · rw [hb]; simp [List.isEmpty_iff]
  · simp only [strictPass, bind, Except.bind, h]
    simp [pure, Except.pure]
  · rw [hb]; simp [List.isEmpty_iff]

/-- Witness for C1 at a concrete input (a file whose parse failed). -/
theorem validate_true_iff_no_errors_witness :
    ((false = true) ↔
      (["Invalid JSON syntax: boom"] = ([] : List String))) ∧
    strictPass true "x.json" (.jsonError "boom") =
      .ok (false && List.isEmpty ([] : List String)) ∧
    ((false && List.isEmpty ([] : List String)) = true ↔
      ((["Invalid JSON syntax: boom"] = ([] : List String)) ∧ ([] : List String) = [])) :=
  validate_true_iff_no_errors "x.json" (.jsonError "boom")
    { errors := ["Invalid JSON syntax: boom"], warnings := [], info := [] } false rfl

/-! ## Claim C6: a parse failure yields exactly the fatal parse diagnostic -/

/-- C6.  If `load` fails to parse the input text, `validate` returns `False`
without running any later stage, and the file's result holds exactly one
diagnostic — the fatal parse error — with empty warning and info lists, so
the file is invalid. -/
theorem parse_failure_single_diagnostic (path m : String) :
    validateFile path (.jsonError m) =
      .ok ({ errors := ["Invalid JSON syntax: " ++ m],
             warnings := [], info := [] }, false) ∧
    (loadErrors path (.jsonError m)).length = 1 := by
  exact ⟨rfl, rfl⟩

/-! ## Claim C10: the report's structure -/

/-- The ERRORS block of the report, when errors exist. -/
def errorsBlock (errors : List String) : List String :=
  if errors = [] then []
  else ("  ERRORS (" ++ toString errors.length ++ "):")
         :: errors.map (fun e => "    ✗ " ++ e)

/-- The WARNINGS block of the report, shown only under the verbose flag. -/
def warningsBlock (warnings : List String) : List String :=
  if warnings = [] then []
  else ("  WARNINGS (" ++ toString warnings.length ++ "):")
         :: warnings.map (fun w => "    ⚠ " ++ w)

/-- The INFO block of the report, shown only under the verbose flag. -/
def infoBlock (info : List String) : List String :=
  if info = [] then []
  else ("  INFO (" ++ toString info.length ++ "):")
         :: info.map (fun i => "    ℹ " ++ i)

/-- The closing marker: emitted only when there are no errors. -/
def validMarker (errors : List String) : List String :=
  if errors = [] then ["  ✓ Valid"] else []

/-- C10 counterexample.  For an invalid result the report ends on the last
error line: no closing valid/invalid marker line is rendered (the code's only
closing marker is the `✓ Valid` line of valid results). -/
theorem report_no_closing_marker_counterexample :
    reportLines "f.json" { errors := ["e1"], warnings := [], info := [] } false =
      ["File: f.json", "  ERRORS (1):", "    ✗ e1"] ∧
    "  ✓ Valid" ∉
      reportLines "f.json" { errors := ["e1"], warnings := [], info := [] } false := by
  exact ⟨rfl, by decide⟩

/-- C10 (amended).  For every validation result and verbose flag, `report`
renders the file path header first, then an ERRORS block (count plus one line
per error) exactly when errors exist, then WARNINGS and INFO blocks only when
the verbose flag is set and the corresponding list is non-empty, and finally
a closing `✓ Valid` marker line exactly when the errors list is empty (no
closing marker is rendered for an invalid result). -/
theorem report_structure (path : String) (r : VResult) (verbose : Bool) :
    reportLines path r verbose =
      ["File: " ++ path] ++ errorsBlock r.errors
        ++ (if verbose then warningsBlock r.warnings else [])
        ++ (if verbose then infoBlock r.info else [])
        ++ validMarker r.errors ∧
    report path r verbose = String.intercalate "\n" (reportLines path r verbose) := by
  refine ⟨?_, rfl⟩
  obtain ⟨es, ws, is⟩ := r
  simp only [reportLines, errorsBlock, warningsBlock, infoBlock, validMarker]
  cases es <;> cases ws <;> cases is <;> cases verbose <;>
    simp [List.isEmpty]

/-! ## Claim C4: the terminal-state scan -/

/-- Whether a state value has a `Type` equal to the string `Succeed` or
`Fail` (the condition named by the claim). -/
def hasTypeSucceedFail (v : JVal) : Bool :=
  match v with
  | .obj sd =>
      isStrEq (alookup "Type" sd) "Succeed" || isStrEq (alookup "Type" sd) "Fail"
  | _ => false

/-- Whether a state value has `End` equal to the JSON value `true` (the
condition named by the claim; the code instead tests Python truthiness). -/
def hasEndTrue (v : JVal) : Bool :=
  match v with
  | .obj sd =>
      match alookup "End" sd with
      | some (.bool true) => true
      | _ => false
  | _ => false

/-- What one `(name, state)` item contributes to `terminal_states`: object
states whose `Type` tag is `Succeed` or `Fail`, or whose `End` value is
truthy. -/
def isTerminalItem (v : JVal) : Bool :=
  match v with
  | .obj sd =>
      (match alookup "Type" sd with
       | some (.str s) => TERMINAL_STATE_TYPES.contains s
       | _ => false) ||
      pyTruthy ((alookup "End" sd).getD (.bool false))
  | _ => false

/-- The `Type` values on which the terminal scan's set membership does not
raise: everything hashable. -/
def SafeTerminalType (v : JVal) : Bool :=
  match v with
  | .obj sd =>
      match alookup "Type" sd with
      | some (.arr _) => false
      | some (.obj _) => false
      | _ => true
  | _ => true

theorem filter_isEmpty_eq_not_any {α : Type} (p : α → Bool) (l : List α) :
    (l.filter p).isEmpty = !l.any p := by
  induction l with
  | nil => rfl
  | cons a as ih => cases h : p a <;> simp [List.filter_cons, h, ih]

theorem map_isEmpty {α β : Type} (f : α → β) (l : List α) :
    (l.map f).isEmpty = l.isEmpty := by
  cases l <;> rfl

theorem terminalsLoop_eq (fields : List (String × JVal))
    (hs : ∀ p ∈ fields, SafeTerminalType p.2 = true) :
    terminalsLoop fields =
      .ok ((fields.filter (fun p => isTerminalItem p.2)).map Prod.fst) := by
  induction fields with
  | nil => rfl
  | cons p rest ih =>
      have hp := hs p (by simp)
      have hrest : ∀ q ∈ rest, SafeTerminalType q.2 = true :=
        fun q hq => hs q (by simp [hq])
      obtain ⟨name, v⟩ := p
      match v with
      | .null | .bool _ | .num _ | .str _ | .arr _ =>
          simp [terminalsLoop, isTerminalItem, ih hrest, List.filter_cons]
      | .obj sd =>
          simp only [SafeTerminalType] at hp
          cases ht : alookup "Type" sd with
          | none =>
              cases hE : pyTruthy ((alookup "End" sd).getD (.bool false)) <;>
                simp [terminalsLoop, isTerminalItem, ht, hE, ih hrest,
                      List.filter_cons, TERMINAL_STATE_TYPES, bind, Except.bind,
                      pure, Except.pure]
          | some tv =>
              cases tv with
              | str s =>
                  cases hit : (TERMINAL_STATE_TYPES.contains s ||
                      pyTruthy ((alookup "End" sd).getD (.bool false))) <;>
                    simp_all [terminalsLoop, isTerminalItem, ht, ih hrest,
                              List.filter_cons, bind, Except.bind, pure, Except.pure]
              | null =>
                  cases hE : pyTruthy ((alookup "End" sd).getD (.bool false)) <;>
                    simp [terminalsLoop, isTerminalItem, ht, hE, ih hrest,
                          List.filter_cons, bind, Except.bind, pure, Except.pure]
              | bool b =>
                  cases hE : pyTruthy ((alookup "End" sd).getD (.bool false)) <;>
                    simp [terminalsLoop, isTerminalItem, ht, hE, ih hrest,
                          List.filter_cons, bind, Except.bind, pure, Except.pure]
              | num n =>
                  cases hE : pyTruthy ((alookup "End" sd).getD (.bool false)) <;>
                    simp [terminalsLoop, isTerminalItem, ht, hE, ih hrest,
                          List.filter_cons, bind, Except.bind, pure, Except.pure]
              | arr xs => rw [ht] at hp; simp at hp
              | obj fs => rw [ht] at hp; simp at hp

/-- C4 counterexample.  A definition whose single state has the truthy but
non-`true` value `"yes"` under `End` satisfies the claim's condition for the
no-terminal-state error (no `Succeed`/`Fail` type, no `End == true`), yet the
stage appends no error: the code tests Python truthiness of `End`, not
equality with `true`. -/
theorem terminal_truthy_end_counterexample :
    validate_terminal_states
        (.obj [("StartAt", .str "A"),
               ("States", .obj [("A", .obj [("Type", .str "Pass"),
                                            ("End", .str "yes")])])]) =
      .ok [] ∧
    [("A", JVal.obj [("Type", JVal.str "Pass"), ("End", JVal.str "yes")])].all
      (fun p => !hasTypeSucceedFail p.2 && !hasEndTrue p.2) = true := by
  exact ⟨rfl, rfl⟩

/-- C4 (amended).  `_validate_terminal_states` scans every state in `States`,
reachable or not, and appends the single no-terminal-state error exactly when
no object-valued state has `Type` `Succeed` or `Fail` and no state has a
truthy `End` value (Python truthiness of `End`, not equality with `true`); in
particular, for every definition in which some state — even one unreachable
from `StartAt` — is terminal in this sense, no such error is emitted. -/
theorem terminal_scan_characterization (fields sts : List (String × JVal))
    (hst : alookup "States" fields = some (.obj sts))
    (hsafe : ∀ p ∈ sts, SafeTerminalType p.2 = true) :
    validate_terminal_states (.obj fields) =
      .ok (if sts.any (fun p => isTerminalItem p.2) then []
           else ["No terminal state found - workflow will never complete (need 'End: true', 'Succeed', or 'Fail' state)"]) ∧
    (∀ p ∈ sts, isTerminalItem p.2 = true →
      validate_terminal_states (.obj fields) = .ok []) := by
  have hloop := terminalsLoop_eq sts hsafe
  have hmain : validate_terminal_states (.obj fields) =
      .ok (if sts.any (fun p => isTerminalItem p.2) then []
           else ["No terminal state found - workflow will never complete (need 'End: true', 'Succeed', or 'Fail' state)"]) := by
    simp only [validate_terminal_states, pyGet, pyItems, hst, Option.getD,
               bind, Except.bind, hloop, map_isEmpty, filter_isEmpty_eq_not_any]
    cases hany : sts.any (fun p => isTerminalItem p.2) <;> simp [hany]
  refine ⟨hmain, fun p hp hterm => ?_⟩
  rw [hmain]
  have : sts.any (fun p => isTerminalItem p.2) = true :=
    List.any_eq_true.mpr ⟨p, hp, hterm⟩
  simp [this]

/-- Witness for C4's amended characterization at a concrete definition. -/
theorem terminal_scan_characterization_witness :
    validate_terminal_states
        (.obj [("States", .obj [("A", .obj [("Type", .str "Succeed")])])]) =
      .ok (if [("A", JVal.obj [("Type", JVal.str "Succeed")])].any
              (fun p => isTerminalItem p.2) then []
           else ["No terminal state found - workflow will never complete (need 'End: true', 'Succeed', or 'Fail' state)"]) :=
  (terminal_scan_characterization
    [("States", .obj [("A", .obj [("Type", .str "Succeed")])])]
    [("A", .obj [("Type", .str "Succeed")])]
    rfl (by decide)).1

/-! ## Claim C7: the hardcoded-account-id warning depends only on the
distinct set of matched identifiers -/

theorem setOrdered_eq_of_same_mem {l1 l2 : List String}
    (h : ∀ a, a ∈ l1 ↔ a ∈ l2) : setOrdered l1 = setOrdered l2 := by
  refine List.eq_of_perm_of_sorted ?_ (List.sorted_insertionSort _ _)
    (List.sorted_insertionSort _ _)
  have p1 := List.perm_insertionSort (· ≤ ·) l1.dedup
  have p2 := List.perm_insertionSort (· ≤ ·) l2.dedup
  have pd : List.Perm l1.dedup l2.dedup :=
    (List.perm_ext_iff_of_nodup (List.nodup_dedup l1) (List.nodup_dedup l2)).mpr
      (fun a => by simp only [List.mem_dedup]; exact h a)
  exact p1.trans (pd.trans p2.symm)

theorem setOrdered_nodup (l : List String) : (setOrdered l).Nodup :=
  ((List.perm_insertionSort (· ≤ ·) l.dedup).nodup_iff).mpr (List.nodup_dedup l)

theorem mem_setOrdered (a : String) (l : List String) :
    a ∈ setOrdered l ↔ a ∈ l := by
  unfold setOrdered
  rw [(List.perm_insertionSort (· ≤ ·) l.dedup).mem_iff, List.mem_dedup]

/-- A definition whose serialized text embeds the account id `123456789012`
twice, in two `Resource`-style ARN strings. -/
def arnTwiceDoc : JVal :=
  .obj [("StartAt", .str "T"),
        ("States", .obj [
          ("T", .obj [("Type", .str "Task"),
                      ("Resource", .str "arn:aws:lambda:us-east-1:123456789012:function:f"),
                      ("Parameters", .str "arn:aws:states:us-east-1:123456789012:x"),
                      ("End", .bool true)])])]

/-- C7.  The hardcoded-account-id check depends only on the distinct set of
12-digit account identifiers matched inside ARN-shaped substrings of the
serialized definition: two definitions with the same distinct match set get
the same warnings; a definition with no match gets no warning; a definition
with a match gets exactly one warning listing each distinct identifier once;
and the concrete definition embedding `123456789012` twice yields one warning
mentioning it once. -/
theorem hardcoded_arn_depends_on_set (d1 d2 : JVal)
    (hsame : ∀ a, a ∈ findallArn (dumps d1).toList ↔
                  a ∈ findallArn (dumps d2).toList) :
    check_hardcoded_arns d1 = check_hardcoded_arns d2 ∧
    (∀ d : JVal, findallArn (dumps d).toList = [] → check_hardcoded_arns d = []) ∧
    (∀ d : JVal, findallArn (dumps d).toList ≠ [] →
      ∃ l, check_hardcoded_arns d =
          ["Hardcoded AWS account ID(s) found: " ++ String.intercalate ", " l ++
           " - consider using parameters"] ∧
        l.Nodup ∧ (∀ a, a ∈ l ↔ a ∈ findallArn (dumps d).toList)) ∧
    check_hardcoded_arns arnTwiceDoc =
      ["Hardcoded AWS account ID(s) found: 123456789012 - consider using parameters"] := by
  simp only [String.toList] at hsame
  refine ⟨?_, ?_, ?_, by decide⟩
  · by_cases h1 : findallArn (dumps d1).data = []
    · have h2 : findallArn (dumps d2).data = [] := by
        rw [List.eq_nil_iff_forall_not_mem] at h1 ⊢
        intro a ha; exact h1 a ((hsame a).mpr ha)
      simp [check_hardcoded_arns, String.toList, h1, h2]
    · have h2 : findallArn (dumps d2).data ≠ [] := by
        intro h2
        apply h1
        rw [List.eq_nil_iff_forall_not_mem] at h2 ⊢
        intro a ha; exact h2 a ((hsame a).mp ha)
      simp only [check_hardcoded_arns, String.toList]
      rw [if_neg (by simp [List.isEmpty_iff, h1]),
          if_neg (by simp [List.isEmpty_iff, h2]),
          setOrdered_eq_of_same_mem hsame]
  · intro d hd
    simp only [String.toList] at hd
    simp [check_hardcoded_arns, String.toList, hd]
  · intro d hd
    simp only [String.toList] at hd
    refine ⟨setOrdered (findallArn (dumps d).data), ?_, setOrdered_nodup _,
            fun a => mem_setOrdered a _⟩
    simp only [check_hardcoded_arns, String.toList]
    rw [if_neg (by simp [List.isEmpty_iff, hd])]

/-- Witness for C7 at a concrete input. -/
theorem hardcoded_arn_depends_on_set_witness :
    check_hardcoded_arns arnTwiceDoc = check_hardcoded_arns arnTwiceDoc ∧
    (∀ d : JVal, findallArn (dumps d).toList = [] → check_hardcoded_arns d = []) ∧
    (∀ d : JVal, findallArn (dumps d).toList ≠ [] →
      ∃ l, check_hardcoded_arns d =
          ["Hardcoded AWS account ID(s) found: " ++ String.intercalate ", " l ++
           " - consider using parameters"] ∧
        l.Nodup ∧ (∀ a, a ∈ l ↔ a ∈ findallArn (dumps d).toList)) ∧
    check_hardcoded_arns arnTwiceDoc =
      ["Hardcoded AWS account ID(s) found: 123456789012 - consider using parameters"] :=
  hardcoded_arn_depends_on_set arnTwiceDoc arnTwiceDoc (fun a => Iff.rfl)

/-! ## Claim C5: the reference-graph stage -/

/-- One transition edge of the reference graph, as the spec describes it:
the field it comes from (with the rule index for `Choices`/`Catch` entries)
and the target state name. -/
inductive RefEdge where
  | nextE (target : String)
  | choiceE (i : Nat) (target : String)
  | defaultE (target : String)
  | catchE (i : Nat) (target : String)

/-- The target state name of an edge. -/
def edgeTarget : RefEdge → String
  | .nextE t => t
  | .choiceE _ t => t
  | .defaultE t => t
  | .catchE _ t => t

/-- The diagnostic emitted for a dangling edge: it names the source state,
the field, and the missing target. -/
def edgeMsg (name : String) : RefEdge → String
  | .nextE t =>
      "State '" ++ name ++ "' 'Next' references non-existent state: '" ++ t ++ "'"
  | .choiceE i t =>
      "Choice state '" ++ name ++ "' choice[" ++ toString i ++
        "] references non-existent state: '" ++ t ++ "'"
  | .defaultE t =>
      "Choice state '" ++ name ++ "' 'Default' references non-existent state: '" ++
        t ++ "'"
  | .catchE i t =>
      "State '" ++ name ++ "' Catch[" ++ toString i ++
        "] references non-existent state: '" ++ t ++ "'"

/-- The indexed `Next` targets of a `Choices`/`Catch` rule list. -/
def ruleNexts : List JVal → Nat → List (Nat × String)
  | [], _ => []
  | c :: rest, i =>
      (match c with
       | .obj fs =>
           (match alookup "Next" fs with
            | some (.str t) => [(i, t)]
            | _ => [])
       | _ => []) ++ ruleNexts rest (i + 1)

/-- The `Next` edge of a state object. -/
def nextEdges (sd : List (String × JVal)) : List RefEdge :=
  match alookup "Next" sd with
  | some (.str t) => [RefEdge.nextE t]
  | _ => []

/-- The `Choices[i].Next` and `Default` edges of a `Choice`-typed state
object. -/
def choicePartEdges (sd : List (String × JVal)) : List RefEdge :=
  if isStrEq (alookup "Type" sd) "Choice" then
    ((ruleNexts (match alookup "Choices" sd with
                 | some (.arr cs) => cs
                 | _ => []) 0).map (fun p => RefEdge.choiceE p.1 p.2)) ++
    (match alookup "Default" sd with
     | some (.str t) => [RefEdge.defaultE t]
     | _ => [])
  else []

/-- The `Catch[i].Next` edges of a state object. -/
def catchPartEdges (sd : List (String × JVal)) : List RefEdge :=
  (ruleNexts (match alookup "Catch" sd with
              | some (.arr cs) => cs
              | _ => []) 0).map (fun p => RefEdge.catchE p.1 p.2)

/-- The transition edges of one state value.  `Branches` sub-definitions
contribute nothing. -/
def stateEdges (v : JVal) : List RefEdge :=
  match v with
  | .obj sd => nextEdges sd ++ choicePartEdges sd ++ catchPartEdges sd
  | _ => []

/-- The spec-side output of the stage: for every state in order, one
diagnostic per transition edge whose target is not a key of `States`. -/
def danglingRefMsgs (keys : List String) (sts : List (String × JVal)) : List String :=
  (sts.map (fun p =>
    ((stateEdges p.2).filter (fun e => !(keys.contains (edgeTarget e)))).map
      (edgeMsg p.1))).flatten

/-- A `Choices`/`Catch` rule on which the stage cannot raise and whose `Next`
target (if any) is a string. -/
def SafeRefRule (c : JVal) : Bool :=
  match c with
  | .obj fs =>
      (match alookup "Next" fs with
       | some (.str _) => true
       | none => true
       | _ => false)
  | _ => false

/-- A state value on which the reference stage cannot raise and whose edge
targets are strings. -/
def SafeRefState (v : JVal) : Bool :=
  match v with
  | .obj sd =>
      (match alookup "Next" sd with
       | some (.str _) => true
       | none => true
       | _ => false) &&
      (!(isStrEq (alookup "Type" sd) "Choice") ||
        ((match alookup "Choices" sd with
          | some (.arr cs) => cs.all SafeRefRule
          | none => true
          | _ => false) &&
         (match alookup "Default" sd with
          | some (.str _) => true
          | none => true
          | _ => false))) &&
      (match alookup "Catch" sd with
       | some (.arr cs) => cs.all SafeRefRule
       | none => true
       | _ => false)
  | _ => true

/-- Key-presence testing by `any` agrees with `alookup`. -/
theorem alookup_isSome_any (k : String) (fs : List (String × JVal)) :
    fs.any (fun p => p.1 == k) = (alookup k fs).isSome := by
  induction fs with
  | nil => rfl
  | cons p rest ih =>
      by_cases h : p.1 = k <;> simp [alookup, h, ih]

theorem refChoiceErrs_eq (valid : List String) (name : String) :
    ∀ (cs : List JVal) (i : Nat), cs.all SafeRefRule = true →
    refChoiceErrs valid name cs i =
      .ok (((ruleNexts cs i).filter (fun p => !(valid.contains p.2))).map
            (fun p => "Choice state '" ++ name ++ "' choice[" ++ toString p.1 ++
                      "] references non-existent state: '" ++ p.2 ++ "'"))
  | [], _, _ => rfl
  | c :: rest, i, h => by
      simp only [List.all_cons, Bool.and_eq_true] at h
      obtain ⟨hc, hrest⟩ := h
      have ih := refChoiceErrs_eq valid name rest (i + 1) hrest
      match c with
      | .obj fs =>
          simp only [SafeRefRule] at hc
          cases hn : alookup "Next" fs with
          | none =>
              simp [refChoiceErrs, ruleNexts, pyIn, hashableB, alookup_isSome_any,
                    hn, ih, bind, Except.bind, pure, Except.pure]
          | some nv =>
              match nv with
              | .str t =>
                  by_cases hmem : t ∈ valid <;>
                    simp [refChoiceErrs, ruleNexts, pyIn, hashableB,
                          alookup_isSome_any, hn, pySub, pySetIn, hmem, pyStr, ih,
                          bind, Except.bind, pure, Except.pure, List.filter_cons]
              | .null | .bool _ | .num _ | .arr _ | .obj _ =>
                  rw [hn] at hc; simp at hc
      | .null | .bool _ | .num _ | .str _ | .arr _ => simp [SafeRefRule] at hc

theorem refCatchErrs_eq (valid : List String) (name : String) :
    ∀ (cs : List JVal) (i : Nat), cs.all SafeRefRule = true →
    refCatchErrs valid name cs i =
      .ok (((ruleNexts cs i).filter (fun p => !(valid.contains p.2))).map
            (fun p => "State '" ++ name ++ "' Catch[" ++ toString p.1 ++
                      "] references non-existent state: '" ++ p.2 ++ "'"))
  | [], _, _ => rfl
  | c :: rest, i, h => by
      simp only [List.all_cons, Bool.and_eq_true] at h
      obtain ⟨hc, hrest⟩ := h
      have ih := refCatchErrs_eq valid name rest (i + 1) hrest
      match c with
      | .obj fs =>
          simp only [SafeRefRule] at hc
          cases hn : alookup "Next" fs with
          | none =>
              simp [refCatchErrs, ruleNexts, pyIn, hashableB, alookup_isSome_any,
                    hn, ih, bind, Except.bind, pure, Except.pure]
          | some nv =>
              match nv with
              | .str t =>
                  by_cases hmem : t ∈ valid <;>
                    simp [refCatchErrs, ruleNexts, pyIn, hashableB,
                          alookup_isSome_any, hn, pySub, pySetIn, hmem, pyStr, ih,
                          bind, Except.bind, pure, Except.pure, List.filter_cons]
              | .null | .bool _ | .num _ | .arr _ | .obj _ =>
                  rw [hn] at hc; simp at hc
      | .null | .bool _ | .num _ | .str _ | .arr _ => simp [SafeRefRule] at hc

theorem refNextErrs_eq (valid : List String) (name : String)
    (sd : List (String × JVal))
    (h : (match alookup "Next" sd with
          | some (.str _) => true
          | none => true
          | _ => false) = true) :
    refNextErrs valid name sd =
      .ok (((nextEdges sd).filter (fun e => !(valid.contains (edgeTarget e)))).map
            (edgeMsg name)) := by
  cases hn : alookup "Next" sd with
  | none => simp [refNextErrs, nextEdges, hn, pure, Except.pure]
  | some nv =>
      match nv with
      | .str t =>
          by_cases hmem : t ∈ valid <;>
            simp [refNextErrs, nextEdges, hn, pySetIn, hashableB, hmem, pyStr,
                  edgeTarget, edgeMsg, bind, Except.bind, pure, Except.pure,
                  List.filter_cons]
      | .null | .bool _ | .num _ | .arr _ | .obj _ => rw [hn] at h; simp at h

/-- Filtering mapped edges by target and rendering them is filtering the
underlying indexed targets. -/
theorem filter_map_edge (valid : List String) (name : String)
    (mk : Nat × String → RefEdge) (hmk : ∀ p, edgeTarget (mk p) = p.2)
    (l : List (Nat × String)) :
    ((l.map mk).filter (fun e => !(valid.contains (edgeTarget e)))).map (edgeMsg name) =
    (l.filter (fun p => !(valid.contains p.2))).map (fun p => edgeMsg name (mk p)) := by
  induction l with
  | nil => rfl
  | cons p rest ih =>
      by_cases h : p.2 ∈ valid
      · simpa [List.filter_cons, hmk, h] using ih
      · simpa [List.filter_cons, hmk, h] using ih

theorem refChoicePart_eq (valid : List String) (name : String)
    (sd : List (String × JVal))
    (h : (!(isStrEq (alookup "Type" sd) "Choice") ||
        ((match alookup "Choices" sd with
          | some (.arr cs) => cs.all SafeRefRule
          | none => true
          | _ => false) &&
         (match alookup "Default" sd with
          | some (.str _) => true
          | none => true
          | _ => false))) = true) :
    refChoicePart valid name sd =
      .ok (((choicePartEdges sd).filter
              (fun e => !(valid.contains (edgeTarget e)))).map (edgeMsg name)) := by
  by_cases hty : isStrEq (alookup "Type" sd) "Choice"
  · rw [hty] at h
    simp only [Bool.not_true, Bool.false_or, Bool.and_eq_true] at h
    obtain ⟨hcs, hdef⟩ := h
    have hchoices : ∃ cs, pyIterList ((alookup "Choices" sd).getD (.arr [])) = .ok cs ∧
        cs.all SafeRefRule = true ∧
        cs = (match alookup "Choices" sd with
              | some (.arr cs) => cs
              | _ => []) := by
      cases hc : alookup "Choices" sd with
      | none => exact ⟨[], rfl, rfl, by simp [hc]⟩
      | some cv =>
          match cv with
          | .arr cs => exact ⟨cs, rfl, by rw [hc] at hcs; exact hcs, by simp [hc]⟩
          | .null | .bool _ | .num _ | .str _ | .obj _ =>
              rw [hc] at hcs; simp at hcs
    obtain ⟨cs, hiter, hsafe, hcs_eq⟩ := hchoices
    have hce := refChoiceErrs_eq valid name cs 0 hsafe
    have hCE : (((ruleNexts cs 0).map (fun p => RefEdge.choiceE p.1 p.2)).filter
          (fun e => !(valid.contains (edgeTarget e)))).map (edgeMsg name) =
        ((ruleNexts cs 0).filter (fun p => !(valid.contains p.2))).map
          (fun p => "Choice state '" ++ name ++ "' choice[" ++ toString p.1 ++
                    "] references non-existent state: '" ++ p.2 ++ "'") := by
      rw [filter_map_edge valid name (fun p => RefEdge.choiceE p.1 p.2)
            (fun p => rfl)]
      simp [edgeMsg]
    simp only [edgeTarget] at hCE
    simp at hce hCE
    cases hd : alookup "Default" sd with
    | none =>
        simp [refChoicePart, hty, hiter, hce, hd, choicePartEdges, ← hcs_eq,
              bind, Except.bind, pure, Except.pure, List.filter_append,
              List.map_append, hCE, edgeTarget, edgeMsg]
    | some dv =>
        match dv with
        | .str t =>
            by_cases hmem : t ∈ valid
            all_goals
              simp [refChoicePart, hty, hiter, hce, hd, choicePartEdges, ← hcs_eq,
                    pySetIn, hashableB, hmem, pyStr, bind, Except.bind, pure,
                    Except.pure, List.filter_append, List.map_append, hCE,
                    List.filter_cons, edgeTarget, edgeMsg]
        | .null | .bool _ | .num _ | .arr _ | .obj _ =>
            rw [hd] at hdef; simp at hdef
  · simp only [Bool.not_eq_true] at hty
    simp [refChoicePart, choicePartEdges, hty, pure, Except.pure]

theorem refCatchPart_eq (valid : List String) (name : String)
    (sd : List (String × JVal))
    (h : (match alookup "Catch" sd with
          | some (.arr cs) => cs.all SafeRefRule
          | none => true
          | _ => false) = true) :
    refCatchPart valid name sd =
      .ok (((catchPartEdges sd).filter
              (fun e => !(valid.contains (edgeTarget e)))).map (edgeMsg name)) := by
  have hcatches : ∃ cs, pyIterList ((alookup "Catch" sd).getD (.arr [])) = .ok cs ∧
      cs.all SafeRefRule = true ∧
      cs = (match alookup "Catch" sd with
            | some (.arr cs) => cs
            | _ => []) := by
    cases hc : alookup "Catch" sd with
    | none => exact ⟨[], rfl, rfl, by simp [hc]⟩
    | some cv =>
        match cv with
        | .arr cs => exact ⟨cs, rfl, by rw [hc] at h; exact h, by simp [hc]⟩
        | .null | .bool _ | .num _ | .str _ | .obj _ => rw [hc] at h; simp at h
  obtain ⟨cs, hiter, hsafe, hcs_eq⟩ := hcatches
  have hce := refCatchErrs_eq valid name cs 0 hsafe
  have hCE : (((ruleNexts cs 0).map (fun p => RefEdge.catchE p.1 p.2)).filter
        (fun e => !(valid.contains (edgeTarget e)))).map (edgeMsg name) =
      ((ruleNexts cs 0).filter (fun p => !(valid.contains p.2))).map
        (fun p => "State '" ++ name ++ "' Catch[" ++ toString p.1 ++
                  "] references non-existent state: '" ++ p.2 ++ "'") := by
    rw [filter_map_edge valid name (fun p => RefEdge.catchE p.1 p.2)
          (fun p => rfl)]
    simp [edgeMsg]
  simp at hce hCE
  simp [refCatchPart, hiter, hce, catchPartEdges, ← hcs_eq, bind, Except.bind,
        pure, Except.pure, hCE]

theorem refErrsOne_eq (valid : List String) (name : String) (v : JVal)
    (h : SafeRefState v = true) :
    refErrsOne valid name v =
      .ok (((stateEdges v).filter (fun e => !(valid.contains (edgeTarget e)))).map
            (edgeMsg name)) := by
  match v with
  | .null | .bool _ | .num _ | .str _ | .arr _ => rfl
  | .obj sd =>
      simp only [SafeRefState, Bool.and_eq_true] at h
      obtain ⟨⟨hnext, hchoice⟩, hcatch⟩ := h
      rw [refErrsOne]
      simp only [refNextErrs_eq valid name sd hnext,
                 refChoicePart_eq valid name sd hchoice,
                 refCatchPart_eq valid name sd hcatch,
                 bind, Except.bind, pure, Except.pure, stateEdges]
      simp [List.filter_append, List.map_append]

theorem refErrsLoop_eq (valid : List String) :
    ∀ sts : List (String × JVal), (∀ p ∈ sts, SafeRefState p.2 = true) →
    refErrsLoop valid sts = .ok (danglingRefMsgs valid sts)
  | [], _ => rfl
  | (name, v) :: rest, h => by
      have hv := h (name, v) (by simp)
      have hrest : ∀ p ∈ rest, SafeRefState p.2 = true :=
        fun p hp => h p (by simp [hp])
      have ih := refErrsLoop_eq valid rest hrest
      simp [refErrsLoop, refErrsOne_eq valid name v hv, ih, danglingRefMsgs,
            bind, Except.bind, pure, Except.pure]

/-- Replace the value of every `Branches` key of a state object with `b`
(no key is added or removed). -/
def setBranches (sd : List (String × JVal)) (b : JVal) : List (String × JVal) :=
  sd.map (fun p => if p.1 = "Branches" then (p.1, b) else p)

theorem alookup_setBranches (k : String) (sd : List (String × JVal)) (b : JVal)
    (hk : k ≠ "Branches") : alookup k (setBranches sd b) = alookup k sd := by
  induction sd with
  | nil => rfl
  | cons p rest ih =>
      simp only [setBranches, List.map_cons] at ih ⊢
      by_cases hp : p.1 = "Branches"
      · have h1 : ¬("Branches" = k) := fun hh => hk hh.symm
        simp only [hp, if_true, alookup, h1, if_false, ite_false, ih]
      · by_cases hpk : p.1 = k
        · simp [alookup, hp, hpk, hk]
        · simp only [alookup, hp, hpk, if_false, ite_false, ih]

/-- The reference stage never examines `Branches`: replacing a state's
`Branches` value with anything leaves its diagnostics unchanged. -/
theorem refErrsOne_branches_invariant (valid : List String) (name : String)
    (sd : List (String × JVal)) (b : JVal) :
    refErrsOne valid name (.obj (setBranches sd b)) = refErrsOne valid name (.obj sd) := by
  have hN : alookup "Next" (setBranches sd b) = alookup "Next" sd :=
    alookup_setBranches _ _ _ (by decide)
  have hT : alookup "Type" (setBranches sd b) = alookup "Type" sd :=
    alookup_setBranches _ _ _ (by decide)
  have hC : alookup "Choices" (setBranches sd b) = alookup "Choices" sd :=
    alookup_setBranches _ _ _ (by decide)
  have hD : alookup "Default" (setBranches sd b) = alookup "Default" sd :=
    alookup_setBranches _ _ _ (by decide)
  have hK : alookup "Catch" (setBranches sd b) = alookup "Catch" sd :=
    alookup_setBranches _ _ _ (by decide)
  simp only [refErrsOne, refNextErrs, refChoicePart, refCatchPart,
             hN, hT, hC, hD, hK]

/-- C5.  For every definition with a `States` mapping (of shape-conformant
states: string-valued edge targets, array-of-object rule lists),
`_validate_state_references` emits exactly one error per transition edge —
a state's `Next`, each `Choices[i].Next` and the `Default` of a `Choice`
state, and each `Catch[i].Next` — whose target string is not a key of
`States`, each error naming the source state, the field, and the missing
target; and the stage never examines `Branches` values: replacing any
state's `Branches` value with an arbitrary sub-definition leaves the
diagnostics unchanged, so edges inside `Parallel` branches generate no
diagnostics. -/
theorem state_references_characterization (fields sts : List (String × JVal))
    (hst : alookup "States" fields = some (.obj sts))
    (hsafe : ∀ p ∈ sts, SafeRefState p.2 = true) :
    validate_state_references (.obj fields) =
      .ok (danglingRefMsgs (sts.map Prod.fst) sts) ∧
    (∀ (valid : List String) (name : String) (sd : List (String × JVal)) (b : JVal),
      refErrsOne valid name (.obj (setBranches sd b)) =
        refErrsOne valid name (.obj sd)) := by
  constructor
  · simp only [validate_state_references, pyGet, pyKeys, pyItems, hst, Option.getD,
               bind, Except.bind]
    exact refErrsLoop_eq (sts.map Prod.fst) sts hsafe
  · exact fun valid name sd b => refErrsOne_branches_invariant valid name sd b

/-- Witness for C5: a definition whose only out-of-namespace reference sits
inside a `Parallel` state's `Branches` sub-definition; the stage reports
nothing. -/
theorem state_references_characterization_witness :
    validate_state_references
        (.obj [("StartAt", .str "P"),
               ("States", .obj [
                 ("P", .obj [("Type", .str "Parallel"),
                             ("Branches", .arr [
                               .obj [("StartAt", .str "B1"),
                                     ("States", .obj [
                                       ("B1", .obj [("Type", .str "Pass"),
                                                    ("Next", .str "Missing")])])]]),
                             ("End", .bool true)])])]) =
      .ok [] := by
  have h := (state_references_characterization
    [("StartAt", .str "P"),
     ("States", .obj [
       ("P", .obj [("Type", .str "Parallel"),
                   ("Branches", .arr [
                     .obj [("StartAt", .str "B1"),
                           ("States", .obj [
                             ("B1", .obj [("Type", .str "Pass"),
                                          ("Next", .str "Missing")])])]]),
                   ("End", .bool true)])])]
    [("P", .obj [("Type", .str "Parallel"),
                 ("Branches", .arr [
                   .obj [("StartAt", .str "B1"),
                         ("States", .obj [
                           ("B1", .obj [("Type", .str "Pass"),
                                        ("Next", .str "Missing")])])]]),
                 ("End", .bool true)])]
    rfl (by decide)).1
  rw [h]
  rfl

/-! ## Claim C8: a dangling `StartAt` yields exactly one reference error and
reachability still completes -/

/-- The error `_validate_start_at` emits for a dangling string `StartAt`. -/
def startAtMsg (x : String) : String :=
  "'StartAt' references non-existent state: '" ++ x ++ "'"

/-- The apostrophe character that opens `startAtMsg`. -/
def apos : Char := '\''

theorem data_head_append (a b : String) (c : Char) (h : a.data.head? = some c) :
    (a ++ b).data.head? = some c := by
  rw [String.data_append]
  cases hd : a.data with
  | nil => rw [hd] at h; simp at h
  | cons x l => rw [hd] at h; simp at h; simp [hd, h]

theorem ne_of_head_ne {m x : String} {c d : Char}
    (hm : m.data.head? = some c) (hx : x.data.head? = some d) (h : c ≠ d) :
    m ≠ x := by
  intro he; rw [he, hx] at hm; injection hm with hh; exact h hh.symm

theorem startAtMsg_head (x : String) : (startAtMsg x).data.head? = some apos := rfl

theorem head_ne_apos {m : String} {c : Char} (h : m.data.head? = some c)
    (hc : c ≠ apos) : m.data.head? ≠ some apos := by
  rw [h]; intro hh; injection hh with hh; exact hc hh

theorem count_zero_of_all_ne {l : List String} {x : String}
    (h : ∀ m ∈ l, m ≠ x) : l.count x = 0 := by
  rw [List.count_eq_zero]
  intro hx; exact h x hx rfl

/-- Every error of the per-choice `Next`-field loop opens with `C`. -/
theorem choiceNextFieldErrs_mem (name : String) :
    ∀ (cs : List JVal) (i : Nat) (e : List String),
    choiceNextFieldErrs name cs i = .ok e → ∀ m ∈ e, m.data.head? = some 'C'
  | [], _, e, h => by
      simp only [choiceNextFieldErrs, Except.ok.injEq] at h
      subst h; intro m hm; simp at hm
  | c :: rest, i, e, h => by
      rw [choiceNextFieldErrs] at h
      cases hin : pyIn (.str "Next") c with
      | error err => rw [hin] at h; simp [bind, Except.bind] at h
      | ok b =>
          rw [hin] at h
          cases htl : choiceNextFieldErrs name rest (i + 1) with
          | error err => rw [htl] at h; simp [bind, Except.bind] at h
          | ok tl =>
              rw [htl] at h
              simp only [bind, Except.bind, Except.ok.injEq] at h
              subst h
              intro m hm
              have htail := choiceNextFieldErrs_mem name rest (i + 1) tl htl
              cases b with
              | true => simp at hm; exact htail m hm
              | false =>
                  simp at hm
                  cases hm with
                  | inl hm =>
                      subst hm
                      rfl
                  | inr hm => exact htail m hm

/-- Every error of `_validate_choice_state` opens with `C`. -/
theorem validate_choice_state_mem (name : String) (sd : List (String × JVal))
    (e : List String) (w : List String)
    (h : validate_choice_state name sd = .ok (e, w)) :
    ∀ m ∈ e, m.data.head? = some 'C' := by
  unfold validate_choice_state at h
  cases hc : alookup "Choices" sd with
  | none =>
      rw [hc] at h
      simp only [Except.ok.injEq, Prod.mk.injEq] at h
      obtain ⟨h1, -⟩ := h
      subst h1
      intro m hm; simp at hm; subst hm
      rfl
  | some cv =>
      rw [hc] at h
      match cv with
      | .arr cs =>
          cases hne : choiceNextFieldErrs name cs 0 with
          | error err => simp [hne, bind, Except.bind] at h
          | ok nes =>
              simp only [hne, bind, Except.bind, Except.ok.injEq, Prod.mk.injEq] at h
              obtain ⟨h1, -⟩ := h
              subst h1
              intro m hm
              simp at hm
              rcases hm with hm | hm
              · rcases hm with ⟨-, hm⟩
                subst hm
                rfl
              · exact choiceNextFieldErrs_mem name cs 0 nes hne m hm
      | .null | .bool _ | .num _ | .str _ | .obj _ =>
          simp only [Except.ok.injEq, Prod.mk.injEq] at h
          obtain ⟨h1, -⟩ := h
          subst h1
          intro m hm; simp at hm; subst hm
          rfl

/-- No error of the `_validate_states` loop body opens with an apostrophe. -/
theorem validate_one_state_mem (name : String) (v : JVal)
    (e w : List String) (h : validate_one_state name v = .ok (e, w)) :
    ∀ m ∈ e, m.data.head? ≠ some apos := by
  match v with
  | .null | .bool _ | .num _ | .str _ | .arr _ =>
      simp only [validate_one_state, Except.ok.injEq, Prod.mk.injEq] at h
      obtain ⟨h1, -⟩ := h
      subst h1
      intro m hm; simp at hm; subst hm
      exact head_ne_apos rfl (by decide)
  | .obj sd =>
      rw [validate_one_state] at h
      by_cases hty : pyTruthy ((alookup "Type" sd).getD .null)
      all_goals simp only [hty, Bool.not_true, Bool.not_false, if_true, if_false,
                           Bool.false_eq_true, reduceIte] at h
      case neg =>
          simp only [Except.ok.injEq, Prod.mk.injEq] at h
          obtain ⟨h1, -⟩ := h
          subst h1
          intro m hm; simp at hm; subst hm
          exact head_ne_apos rfl (by decide)
      case pos =>
          cases hvt : typeInValid ((alookup "Type" sd).getD .null) with
          | error err => rw [hvt] at h; simp [bind, Except.bind] at h
          | ok tag =>
              rw [hvt] at h
              simp only [bind, Except.bind] at h
              cases tag with
              | none =>
                  simp only [Except.ok.injEq, Prod.mk.injEq] at h
                  obtain ⟨h1, -⟩ := h
                  subst h1
                  intro m hm; simp at hm; subst hm
                  exact head_ne_apos rfl (by decide)
              | some t =>
                  simp only [] at h
                  have htrans : ∀ m ∈ (if !(NO_TRANSITION_TYPES.contains t) then
                      (if !(pyTruthy ((alookup "End" sd).getD (.bool false))) &&
                          !((alookup "Next" sd).isSome) then
                        ["State '" ++ name ++ "' (Type: " ++ t ++
                         ") must have 'End: true' or 'Next'"]
                      else [])
                    else ([] : List String)), m.data.head? ≠ some apos := by
                    intro m hm
                    split at hm
                    · split at hm
                      · simp at hm; subst hm
                        exact head_ne_apos rfl (by decide)
                      · simp at hm
                    · simp at hm
                  by_cases hch : t == "Choice"
                  · rw [if_pos hch] at h
                    cases hcs : validate_choice_state name sd with
                    | error err => rw [hcs] at h; simp [bind, Except.bind] at h
                    | ok p =>
                        obtain ⟨ce, cw⟩ := p
                        rw [hcs] at h
                        simp only [bind, Except.bind, Except.ok.injEq,
                                   Prod.mk.injEq] at h
                        obtain ⟨h1, -⟩ := h
                        subst h1
                        intro m hm
                        rw [List.mem_append] at hm
                        cases hm with
                        | inl hm => exact htrans m hm
                        | inr hm =>
                            rw [validate_choice_state_mem name sd ce cw hcs m hm]
                            decide
                  · rw [if_neg hch] at h
                    by_cases hta : t == "Task"
                    · rw [if_pos hta] at h
                      simp only [Except.ok.injEq, Prod.mk.injEq] at h
                      obtain ⟨h1, -⟩ := h
                      subst h1
                      intro m hm
                      rw [List.mem_append] at hm
                      cases hm with
                      | inl hm => exact htrans m hm
                      | inr hm =>
                          unfold validate_task_state at hm
                          split at hm
                          · simp at hm
                          · simp at hm; subst hm
                            exact head_ne_apos rfl (by decide)
                    · rw [if_neg hta] at h
                      by_cases hw : t == "Wait"
                      · rw [if_pos hw] at h
                        simp only [Except.ok.injEq, Prod.mk.injEq] at h
                        obtain ⟨h1, -⟩ := h
                        subst h1
                        intro m hm
                        rw [List.mem_append] at hm
                        cases hm with
                        | inl hm => exact htrans m hm
                        | inr hm =>
                            unfold validate_wait_state at hm
                            split at hm
                            · simp at hm
                            · simp at hm; subst hm
                              exact head_ne_apos rfl (by decide)
                      · rw [if_neg hw] at h
                        by_cases hmp : t == "Map"
                        · rw [if_pos hmp] at h
                          simp only [Except.ok.injEq, Prod.mk.injEq] at h
                          obtain ⟨h1, -⟩ := h
                          subst h1
                          intro m hm
                          rw [List.mem_append] at hm
                          cases hm with
                          | inl hm => exact htrans m hm
                          | inr hm =>
                              unfold validate_map_state at hm
                              split at hm
                              · simp at hm
                              · simp at hm; subst hm
                                exact head_ne_apos rfl (by decide)
                        · rw [if_neg hmp] at h
                          by_cases hpl : t == "Parallel"
                          · rw [if_pos hpl] at h
                            simp only [Except.ok.injEq, Prod.mk.injEq] at h
                            obtain ⟨h1, -⟩ := h
                            subst h1
                            intro m hm
                            rw [List.mem_append] at hm
                            cases hm with
                            | inl hm => exact htrans m hm
                            | inr hm =>
                                unfold validate_parallel_state at hm
                                split at hm
                                · simp at hm; subst hm
                                  exact head_ne_apos rfl (by decide)
                                · split at hm
                                  · simp at hm; subst hm
                                    exact head_ne_apos rfl (by decide)
                                  · simp at hm
                                · simp at hm; subst hm
                                  exact head_ne_apos rfl (by decide)
                          · rw [if_neg hpl] at h
                            simp only [Except.ok.injEq, Prod.mk.injEq] at h
                            obtain ⟨h1, -⟩ := h
                            subst h1
                            intro m hm
                            exact htrans m hm

/-- No error of `_validate_states` opens with an apostrophe. -/
theorem statesLoop_mem :
    ∀ (fields : List (String × JVal)) (e w : List String),
    statesLoop fields = .ok (e, w) → ∀ m ∈ e, m.data.head? ≠ some apos
  | [], e, w, h => by
      simp only [statesLoop, Except.ok.injEq, Prod.mk.injEq] at h
      obtain ⟨h1, -⟩ := h; subst h1
      intro m hm; simp at hm
  | (name, v) :: rest, e, w, h => by
      rw [statesLoop] at h
      cases hv : validate_one_state name v with
      | error err => rw [hv] at h; simp [bind, Except.bind] at h
      | ok p =>
          obtain ⟨e1, w1⟩ := p
          rw [hv] at h
          cases hrest : statesLoop rest with
          | error err => rw [hrest] at h; simp [bind, Except.bind] at h
          | ok q =>
              obtain ⟨e2, w2⟩ := q
              rw [hrest] at h
              simp only [bind, Except.bind, Except.ok.injEq, Prod.mk.injEq] at h
              obtain ⟨h1, -⟩ := h
              subst h1
              intro m hm
              rw [List.mem_append] at hm
              cases hm with
              | inl hm => exact validate_one_state_mem name v e1 w1 hv m hm
              | inr hm => exact statesLoop_mem rest e2 w2 hrest m hm

/-- Every error of the references `Next` check opens with `S`. -/
theorem refNextErrs_mem (valid : List String) (name : String)
    (sd : List (String × JVal)) (e : List String)
    (h : refNextErrs valid name sd = .ok e) : ∀ m ∈ e, m.data.head? = some 'S' := by
  unfold refNextErrs at h
  cases hn : alookup "Next" sd with
  | none =>
      rw [hn] at h
      simp only [pure, Except.pure, Except.ok.injEq] at h
      subst h; intro m hm; simp at hm
  | some nx =>
      rw [hn] at h
      simp only [] at h
      cases hs : pySetIn nx valid with
      | error err => rw [hs] at h; simp [bind, Except.bind] at h
      | ok b =>
          rw [hs] at h
          simp only [bind, Except.bind] at h
          cases b with
          | true =>
              simp only [if_true, pure, Except.pure, Except.ok.injEq] at h
              subst h; intro m hm; simp at hm
          | false =>
              simp only [Bool.false_eq_true, reduceIte, pure,
                         Except.pure, Except.ok.injEq] at h
              subst h; intro m hm; simp at hm; subst hm; rfl

/-- Every error of the references `Choices` loop opens with `C`. -/
theorem refChoiceErrs_mem (valid : List String) (name : String) :
    ∀ (cs : List JVal) (i : Nat) (e : List String),
    refChoiceErrs valid name cs i = .ok e → ∀ m ∈ e, m.data.head? = some 'C'
  | [], _, e, h => by
      simp only [refChoiceErrs, Except.ok.injEq] at h
      subst h; intro m hm; simp at hm
  | c :: rest, i, e, h => by
      rw [refChoiceErrs] at h
      cases htl : refChoiceErrs valid name rest (i + 1) with
      | error err =>
          rw [htl] at h
          cases hin : pyIn (.str "Next") c with
          | error err2 => rw [hin] at h; simp [bind, Except.bind] at h
          | ok b =>
              rw [hin] at h
              simp only [bind, Except.bind] at h
              cases b with
              | false => simp [bind, Except.bind, pure, Except.pure] at h
              | true =>
                  simp only [if_true] at h
                  cases hsub : pySub c "Next" with
                  | error e2 => rw [hsub] at h; simp at h
                  | ok nx =>
                      rw [hsub] at h
                      simp only [bind, Except.bind] at h
                      cases hs : pySetIn nx valid with
                      | error e3 => rw [hs] at h; simp at h
                      | ok bm =>
                          rw [hs] at h
                          cases bm <;>
                            simp_all [bind, Except.bind, pure, Except.pure]
      | ok tl =>
          rw [htl] at h
          have htail := refChoiceErrs_mem valid name rest (i + 1) tl htl
          cases hin : pyIn (.str "Next") c with
          | error err2 => rw [hin] at h; simp [bind, Except.bind] at h
          | ok b =>
              rw [hin] at h
              simp only [bind, Except.bind] at h
              cases b with
              | false =>
                  simp only [Bool.false_eq_true, reduceIte, pure, Except.pure,
                             bind, Except.bind, List.nil_append,
                             Except.ok.injEq] at h
                  subst h
                  exact htail
              | true =>
                  simp only [if_true] at h
                  cases hsub : pySub c "Next" with
                  | error e2 => rw [hsub] at h; simp at h
                  | ok nx =>
                      rw [hsub] at h
                      simp only [bind, Except.bind] at h
                      cases hs : pySetIn nx valid with
                      | error e3 => rw [hs] at h; simp at h
                      | ok bm =>
                          rw [hs] at h
                          simp only [bind, Except.bind] at h
                          cases bm with
                          | true =>
                              simp only [if_true, pure, Except.pure, bind,
                                         Except.bind, List.nil_append,
                                         Except.ok.injEq] at h
                              subst h; exact htail
                          | false =>
                              simp only [Bool.false_eq_true, reduceIte, pure,
                                         Except.pure, bind, Except.bind,
                                         Except.ok.injEq] at h
                              subst h
                              intro m hm
                              simp at hm
                              rcases hm with hm | hm
                              · subst hm; rfl
                              · exact htail m hm

/-- Every error of the references `Catch` loop opens with `S`. -/
theorem refCatchErrs_mem (valid : List String) (name : String) :
    ∀ (cs : List JVal) (i : Nat) (e : List String),
    refCatchErrs valid name cs i = .ok e → ∀ m ∈ e, m.data.head? = some 'S'
  | [], _, e, h => by
      simp only [refCatchErrs, Except.ok.injEq] at h
      subst h; intro m hm; simp at hm
  | c :: rest, i, e, h => by
      rw [refCatchErrs] at h
      cases htl : refCatchErrs valid name rest (i + 1) with
      | error err =>
          rw [htl] at h
          cases hin : pyIn (.str "Next") c with
          | error err2 => rw [hin] at h; simp [bind, Except.bind] at h
          | ok b =>
              rw [hin] at h
              simp only [bind, Except.bind] at h
              cases b with
              | false => simp [bind, Except.bind, pure, Except.pure] at h
              | true =>
                  simp only [if_true] at h
                  cases hsub : pySub c "Next" with
                  | error e2 => rw [hsub] at h; simp at h
                  | ok nx =>
                      rw [hsub] at h
                      simp only [bind, Except.bind] at h
                      cases hs : pySetIn nx valid with
                      | error e3 => rw [hs] at h; simp at h
                      | ok bm =>
                          rw [hs] at h
                          cases bm <;>
                            simp_all [bind, Except.bind, pure, Except.pure]
      | ok tl =>
          rw [htl] at h
          have htail := refCatchErrs_mem valid name rest (i + 1) tl htl
          cases hin : pyIn (.str "Next") c with
          | error err2 => rw [hin] at h; simp [bind, Except.bind] at h
          | ok b =>
              rw [hin] at h
              simp only [bind, Except.bind] at h
              cases b with
              | false =>
                  simp only [Bool.false_eq_true, reduceIte, pure, Except.pure,
                             bind, Except.bind, List.nil_append,
                             Except.ok.injEq] at h
                  subst h
                  exact htail
              | true =>
                  simp only [if_true] at h
                  cases hsub : pySub c "Next" with
                  | error e2 => rw [hsub] at h; simp at h
                  | ok nx =>
                      rw [hsub] at h
                      simp only [bind, Except.bind] at h
                      cases hs : pySetIn nx valid with
                      | error e3 => rw [hs] at h; simp at h
                      | ok bm =>
                          rw [hs] at h
                          simp only [bind, Except.bind] at h
                          cases bm with
                          | true =>
                              simp only [if_true, pure, Except.pure, bind,
                                         Except.bind, List.nil_append,
                                         Except.ok.injEq] at h
                              subst h; exact htail
                          | false =>
                              simp only [Bool.false_eq_true, reduceIte, pure,
                                         Except.pure, bind, Except.bind,
                                         Except.ok.injEq] at h
                              subst h
                              intro m hm
                              simp at hm
                              rcases hm with hm | hm
                              · subst hm; rfl
                              · exact htail m hm

/-- No error of the per-state reference checks opens with an apostrophe. -/
theorem refErrsOne_mem (valid : List String) (name : String) (v : JVal)
    (e : List String) (h : refErrsOne valid name v = .ok e) :
    ∀ m ∈ e, m.data.head? ≠ some apos := by
  match v with
  | .null | .bool _ | .num _ | .str _ | .arr _ =>
      simp only [refErrsOne, pure, Except.pure, Except.ok.injEq] at h
      subst h; intro m hm; simp at hm
  | .obj sd =>
      rw [refErrsOne] at h
      cases h1 : refNextErrs valid name sd with
      | error err => rw [h1] at h; simp [bind, Except.bind] at h
      | ok e1 =>
      rw [h1] at h
      cases h2 : refChoicePart valid name sd with
      | error err => rw [h2] at h; simp [bind, Except.bind] at h
      | ok e2 =>
      rw [h2] at h
      cases h3 : refCatchPart valid name sd with
      | error err => rw [h3] at h; simp [bind, Except.bind] at h
      | ok e3 =>
      rw [h3] at h
      simp only [bind, Except.bind, pure, Except.pure, Except.ok.injEq] at h
      subst h
      have he1 := refNextErrs_mem valid name sd e1 h1
      have he2 : ∀ m ∈ e2, m.data.head? = some 'C' := by
        unfold refChoicePart at h2
        split at h2
        · cases hit : pyIterList ((alookup "Choices" sd).getD (.arr [])) with
          | error err => rw [hit] at h2; simp [bind, Except.bind] at h2
          | ok cs =>
              rw [hit] at h2
              simp only [bind, Except.bind] at h2
              cases hce : refChoiceErrs valid name cs 0 with
              | error err => rw [hce] at h2; simp at h2
              | ok ces =>
                  rw [hce] at h2
                  simp only [bind, Except.bind] at h2
                  have hces := refChoiceErrs_mem valid name cs 0 ces hce
                  cases hd : alookup "Default" sd with
                  | none =>
                      rw [hd] at h2
                      simp only [pure, Except.pure, bind, Except.bind,
                                 Except.ok.injEq] at h2
                      subst h2
                      intro m hm
                      rw [List.mem_append] at hm
                      rcases hm with hm | hm
                      · exact hces m hm
                      · simp at hm
                  | some d =>
                      rw [hd] at h2
                      simp only [] at h2
                      cases hs : pySetIn d valid with
                      | error err => rw [hs] at h2; simp [bind, Except.bind] at h2
                      | ok bm =>
                          rw [hs] at h2
                          simp only [bind, Except.bind] at h2
                          cases bm with
                          | true =>
                              simp only [if_true, pure, Except.pure, bind,
                                         Except.bind, Except.ok.injEq] at h2
                              subst h2
                              intro m hm
                              rw [List.mem_append] at hm
                              rcases hm with hm | hm
                              · exact hces m hm
                              · simp at hm
                          | false =>
                              simp only [Bool.false_eq_true, reduceIte, pure,
                                         Except.pure, bind, Except.bind,
                                         Except.ok.injEq] at h2
                              subst h2
                              intro m hm
                              rw [List.mem_append] at hm
                              rcases hm with hm | hm
                              · exact hces m hm
                              · simp at hm; subst hm; rfl
        · simp only [pure, Except.pure, Except.ok.injEq] at h2
          subst h2; intro m hm; simp at hm
      have he3 : ∀ m ∈ e3, m.data.head? = some 'S' := by
        unfold refCatchPart at h3
        cases hit : pyIterList ((alookup "Catch" sd).getD (.arr [])) with
        | error err => rw [hit] at h3; simp [bind, Except.bind] at h3
        | ok cs =>
            rw [hit] at h3
            simp only [bind, Except.bind] at h3
            exact refCatchErrs_mem valid name cs 0 e3 h3
      intro m hm
      rw [List.mem_append, List.mem_append] at hm
      rcases hm with (hm | hm) | hm
      · rw [he1 m hm]; decide
      · rw [he2 m hm]; decide
      · rw [he3 m hm]; decide

/-- No error of `_validate_state_references` opens with an apostrophe. -/
theorem refErrsLoop_mem (valid : List String) :
    ∀ (sts : List (String × JVal)) (e : List String),
    refErrsLoop valid sts = .ok e → ∀ m ∈ e, m.data.head? ≠ some apos
  | [], e, h => by
      simp only [refErrsLoop, Except.ok.injEq] at h
      subst h; intro m hm; simp at hm
  | (name, v) :: rest, e, h => by
      rw [refErrsLoop] at h
      cases hv : refErrsOne valid name v with
      | error err => rw [hv] at h; simp [bind, Except.bind] at h
      | ok e1 =>
          rw [hv] at h
          cases hrest : refErrsLoop valid rest with
          | error err => rw [hrest] at h; simp [bind, Except.bind] at h
          | ok e2 =>
              rw [hrest] at h
              simp only [bind, Except.bind, Except.ok.injEq] at h
              subst h
              intro m hm
              rw [List.mem_append] at hm
              cases hm with
              | inl hm => exact refErrsOne_mem valid name v e1 hv m hm
              | inr hm => exact refErrsLoop_mem valid rest e2 hrest m hm

/-- No error of the full `_validate_state_references` stage opens with an
apostrophe. -/
theorem validate_state_references_mem (doc : JVal) (e : List String)
    (h : validate_state_references doc = .ok e) :
    ∀ m ∈ e, m.data.head? ≠ some apos := by
  unfold validate_state_references at h
  cases hg : pyGet doc "States" (.obj []) with
  | error err => rw [hg] at h; simp [bind, Except.bind] at h
  | ok states =>
      rw [hg] at h
      simp only [bind, Except.bind] at h
      cases hk : pyKeys states with
      | error err => rw [hk] at h; simp at h
      | ok valid =>
          rw [hk] at h
          simp only [] at h
          cases hi : pyItems states with
          | error err => rw [hi] at h; simp at h
          | ok fields =>
              rw [hi] at h
              simp only [] at h
              exact refErrsLoop_mem valid fields e h

/-- `_validate_terminal_states` emits nothing or the single no-terminal
message. -/
theorem validate_terminal_states_cases (doc : JVal) (e : List String)
    (h : validate_terminal_states doc = .ok e) :
    e = [] ∨
    e = ["No terminal state found - workflow will never complete (need 'End: true', 'Succeed', or 'Fail' state)"] := by
  unfold validate_terminal_states at h
  cases hg : pyGet doc "States" (.obj []) with
  | error err => rw [hg] at h; simp [bind, Except.bind] at h
  | ok states =>
      rw [hg] at h
      simp only [bind, Except.bind] at h
      cases hi : pyItems states with
      | error err => rw [hi] at h; simp at h
      | ok fields =>
          rw [hi] at h
          simp only [] at h
          cases ht : terminalsLoop fields with
          | error err => rw [ht] at h; simp at h
          | ok terms =>
              rw [ht] at h
              simp only [] at h
              cases hterm : terms.isEmpty with
              | true =>
                  rw [hterm] at h
                  simp only [if_true, Except.ok.injEq] at h
                  right; exact h.symm
              | false =>
                  rw [hterm] at h
                  simp only [Bool.false_eq_true, reduceIte, Except.ok.injEq] at h
                  left; exact h.symm

/-- No error of the full `_validate_states` stage opens with an
apostrophe. -/
theorem validate_states_mem (doc : JVal) (e w : List String)
    (h : validate_states doc = .ok (e, w)) : ∀ m ∈ e, m.data.head? ≠ some apos := by
  unfold validate_states at h
  cases hg : pyGet doc "States" (.obj []) with
  | error err => rw [hg] at h; simp [bind, Except.bind] at h
  | ok states =>
      rw [hg] at h
      simp only [bind, Except.bind] at h
      cases hi : pyItems states with
      | error err => rw [hi] at h; simp at h
      | ok fields =>
          rw [hi] at h
          simp only [] at h
          exact statesLoop_mem fields e w h

theorem any_fst_eq_contains (sts : List (String × JVal)) (x : String) :
    sts.any (fun p => p.1 == x) = (sts.map Prod.fst).contains x := by
  induction sts with
  | nil => rfl
  | cons p rest ih =>
      simp only [List.any_cons, List.map_cons, List.contains_cons, ih]
      by_cases h : p.1 = x
      · simp [h]
      · have h2 : ¬(x = p.1) := fun hh => h hh.symm
        have e1 : (p.1 == x) = false := by simp [h]
        have e2 : (x == p.1) = false := by simp [h2]
        rw [e1, e2]

/-- Under a dangling string `StartAt`, `_validate_start_at` emits exactly the
one reference error. -/
theorem validate_start_at_dangling (fields sts : List (String × JVal)) (X : String)
    (hS : alookup "StartAt" fields = some (.str X))
    (hT : alookup "States" fields = some (.obj sts))
    (hX : (sts.map Prod.fst).contains X = false) :
    validate_start_at (.obj fields) = .ok [startAtMsg X] := by
  have h1 : pyIn (.str "StartAt") (.obj fields) = .ok true := by
    simp [pyIn, hashableB, alookup_isSome_any, hS]
  have h2 : pyIn (.str "States") (.obj fields) = .ok true := by
    simp [pyIn, hashableB, alookup_isSome_any, hT]
  have h3 : pySub (.obj fields) "StartAt" = .ok (.str X) := by simp [pySub, hS]
  have h4 : pyGet (.obj fields) "States" (.obj []) = .ok (.obj sts) := by
    simp [pyGet, hT]
  have h5 : pyIn (.str X) (.obj sts) = .ok false := by
    have hX' : X ∉ sts.map Prod.fst := by simpa using hX
    simp [pyIn, hashableB]
    intro a b hab ha
    subst ha
    exact hX' (List.mem_map.mpr ⟨(a, b), hab, rfl⟩)
  rw [validate_start_at]
  simp [h1, h2, h3, h4, h5, bind, Except.bind, pure, Except.pure, startAtMsg, pyStr]

/-- With both fields present and `States` an object,
`_validate_required_fields` can only flag emptiness. -/
theorem validate_required_fields_present (fields sts : List (String × JVal))
    (hS : alookup "StartAt" fields = some (.str X))
    (hT : alookup "States" fields = some (.obj sts)) :
    validate_required_fields (.obj fields) =
      .ok (if sts.isEmpty then ["'States' cannot be empty"] else []) := by
  have h1 : pyIn (.str "StartAt") (.obj fields) = .ok true := by
    simp [pyIn, hashableB, alookup_isSome_any, hS]
  have h2 : pyIn (.str "States") (.obj fields) = .ok true := by
    simp [pyIn, hashableB, alookup_isSome_any, hT]
  have h3 : pySub (.obj fields) "States" = .ok (.obj sts) := by simp [pySub, hT]
  rw [validate_required_fields]
  simp only [h1, h2, h3, bind, Except.bind, Bool.not_true, Bool.false_eq_true,
             reduceIte]
  cases hse : sts.isEmpty <;> simp [hse, pure, Except.pure]

theorem startAtMsg_length (X : String) : (startAtMsg X).length = 43 + X.length := by
  unfold startAtMsg
  rw [String.length_append, String.length_append]
  have h1 : ("'StartAt' references non-existent state: '").length = 42 := rfl
  have h2 : ("'").length = 1 := rfl
  omega

theorem startAtMsg_ne_cannot_be_empty (X : String) :
    "'States' cannot be empty" ≠ startAtMsg X := by
  intro h
  have hl : ("'States' cannot be empty").length = (startAtMsg X).length := by rw [h]
  rw [startAtMsg_length] at hl
  have h1 : ("'States' cannot be empty").length = 24 := rfl
  omega

theorem startAtMsg_ne_no_terminal (X : String) :
    "No terminal state found - workflow will never complete (need 'End: true', 'Succeed', or 'Fail' state)" ≠ startAtMsg X :=
  ne_of_head_ne rfl (startAtMsg_head X) (by decide)

/-- C8.  For every definition whose `StartAt` is a string `X` that names no
key of its `States` object, any completed validation run records exactly one
error diagnostic about the dangling `StartAt` reference (the one
`_validate_start_at` emits), and the reachability stage runs to completion
without fault. -/
theorem dangling_startat_single_error (fields sts : List (String × JVal))
    (X : String) (r : VResult)
    (hS : alookup "StartAt" fields = some (.str X))
    (hT : alookup "States" fields = some (.obj sts))
    (hX : (sts.map Prod.fst).contains X = false)
    (hr : runChecks (.obj fields) = .ok r) :
    validate_start_at (.obj fields) = .ok [startAtMsg X] ∧
    r.errors.count (startAtMsg X) = 1 ∧
    (detect_unreachable_states (.obj fields)).isOk = true := by
  have h2 := validate_start_at_dangling fields sts X hS hT hX
  have h1 := validate_required_fields_present fields sts hS hT
  rw [runChecks] at hr
  rw [h1] at hr
  simp only [bind, Except.bind] at hr
  rw [h2] at hr
  simp only [] at hr
  cases h3 : validate_states (.obj fields) with
  | error err => rw [h3] at hr; simp at hr
  | ok p3 =>
  obtain ⟨e3, w3⟩ := p3
  rw [h3] at hr
  simp only [] at hr
  cases h4 : validate_state_references (.obj fields) with
  | error err => rw [h4] at hr; simp at hr
  | ok e4 =>
  rw [h4] at hr
  simp only [] at hr
  cases h5 : validate_terminal_states (.obj fields) with
  | error err => rw [h5] at hr; simp at hr
  | ok e5 =>
  rw [h5] at hr
  simp only [] at hr
  cases h6 : detect_unreachable_states (.obj fields) with
  | error err => rw [h6] at hr; simp at hr
  | ok w6 =>
  rw [h6] at hr
  simp only [] at hr
  cases h7 : check_cross_account_patterns (.obj fields) with
  | error err => rw [h7] at hr; simp at hr
  | ok p7 =>
  obtain ⟨w7, i7⟩ := p7
  rw [h7] at hr
  simp only [pure, Except.pure, Except.ok.injEq] at hr
  subst hr
  refine ⟨h2, ?_, by simp [h6, Except.isOk, Except.toBool]⟩
  simp only [List.count_append]
  have c1 : (if sts.isEmpty then ["'States' cannot be empty"] else []).count
      (startAtMsg X) = 0 := by
    cases sts.isEmpty <;>
      simp [List.count_cons, List.count_nil, startAtMsg_ne_cannot_be_empty X]
  have c2 : ([startAtMsg X]).count (startAtMsg X) = 1 := by simp
  have c3 : e3.count (startAtMsg X) = 0 :=
    count_zero_of_all_ne (fun m hm hEq => by
      have := validate_states_mem (.obj fields) e3 w3 h3 m hm
      rw [hEq, startAtMsg_head] at this
      exact this rfl)
  have c4 : e4.count (startAtMsg X) = 0 :=
    count_zero_of_all_ne (fun m hm hEq => by
      have := validate_state_references_mem (.obj fields) e4 h4 m hm
      rw [hEq, startAtMsg_head] at this
      exact this rfl)
  have c5 : e5.count (startAtMsg X) = 0 := by
    rcases validate_terminal_states_cases (.obj fields) e5 h5 with h | h <;>
      subst h
    · simp
    · simp [List.count_cons, startAtMsg_ne_no_terminal X]
  rw [c1, c2, c3, c4, c5]

/-- Witness for C8 at a concrete definition. -/
theorem dangling_startat_single_error_witness :
    validate_start_at
        (.obj [("StartAt", .str "X"),
               ("States", .obj [("A", .obj [("Type", .str "Succeed")])])]) =
      .ok [startAtMsg "X"] ∧
    (VResult.errors
      { errors := ["'StartAt' references non-existent state: 'X'"],
        warnings := ["State 'A' is unreachable from StartAt"],
        info := [] }).count (startAtMsg "X") = 1 ∧
    (detect_unreachable_states
        (.obj [("StartAt", .str "X"),
               ("States", .obj [("A", .obj [("Type", .str "Succeed")])])])).isOk =
      true :=
  dangling_startat_single_error
    [("StartAt", .str "X"), ("States", .obj [("A", .obj [("Type", .str "Succeed")])])]
    [("A", .obj [("Type", .str "Succeed")])] "X"
    { errors := ["'StartAt' references non-existent state: 'X'"],
      warnings := ["State 'A' is unreachable from StartAt"],
      info := [] }
    rfl rfl (by decide) (by rfl)

/-! ## Claim C9: a dangling truthy `StartAt` makes every state unreachable -/

/-- The warning `_detect_unreachable_states` emits for one state. -/
def unreachMsg (s : String) : String :=
  "State '" ++ s ++ "' is unreachable from StartAt"

theorem string_eq_of_data_eq {a b : String} (h : a.data = b.data) : a = b := by
  cases a; cases b; exact congrArg String.mk h

theorem unreachMsg_inj (a b : String) (h : unreachMsg a = unreachMsg b) : a = b := by
  have hd : (unreachMsg a).data = (unreachMsg b).data := by rw [h]
  simp only [unreachMsg, String.data_append, List.append_assoc] at hd
  exact string_eq_of_data_eq
    (List.append_cancel_right (List.append_cancel_left hd))

theorem count_map_inj (keys : List String) (k : String) (f : String → String)
    (hinj : ∀ a b, f a = f b → a = b) :
    (keys.map f).count (f k) = keys.count k := by
  induction keys with
  | nil => rfl
  | cons a rest ih =>
      by_cases h : a = k
      · simp [h, List.count_cons, ih]
      · have hne : ¬(f a = f k) := fun hh => h (hinj _ _ hh)
        simp [List.count_cons, h, hne, ih]

theorem bfsLoop_skip (states : JVal) (fuel : Nat) (cur : JVal) (queue : List JVal)
    (reach : List String)
    (hset : pySetIn cur reach = Except.ok false)
    (hin : pyIn cur states = Except.ok false) :
    bfsLoop states (fuel + 1) (cur :: queue) reach = bfsLoop states fuel queue reach := by
  cases cur
  case str s =>
    rw [bfsLoop]
    simp [hset, hin, bind, Except.bind, pure, Except.pure]
  all_goals
    rw [bfsLoop]
    simp [hset, hin, bind, Except.bind, pure, Except.pure]
    exact fun s h => JVal.noConfusion h

/-- C9 counterexample.  The claim fails for a present but falsy `StartAt`:
the stage is skipped entirely (the code tests `not start_at`, Python
truthiness, not presence), so no key is warned although `StartAt` names no
key of the non-empty `States`. -/
theorem unreachable_falsy_startat_counterexample :
    detect_unreachable_states
        (.obj [("StartAt", .bool false),
               ("States", .obj [("A", .obj [("Type", .str "Succeed")])])]) =
      .ok [] ∧
    alookup "StartAt" [("StartAt", JVal.bool false),
        ("States", .obj [("A", .obj [("Type", .str "Succeed")])])] =
      some (.bool false) ∧
    [("A", JVal.obj [("Type", JVal.str "Succeed")])] ≠ [] := by
  refine ⟨rfl, rfl, by simp⟩

/-- C9 (amended).  If `States` is a non-empty mapping and `StartAt` is
present with a truthy, hashable value that names no key of `States`, the
breadth-first traversal visits no state, so the stage warns about every key;
with unique keys, each key receives exactly one unreachable warning. -/
theorem unreachable_all_when_startat_dangling (fields sts : List (String × JVal))
    (startV : JVal)
    (hS : alookup "StartAt" fields = some startV)
    (hT : alookup "States" fields = some (.obj sts))
    (hne : sts ≠ [])
    (htruthy : pyTruthy startV = true)
    (hhash : hashableB startV = true)
    (hnokey : ∀ s, startV = .str s → (sts.map Prod.fst).contains s = false) :
    detect_unreachable_states (.obj fields) =
      .ok ((sts.map Prod.fst).map unreachMsg) ∧
    ((sts.map Prod.fst).Nodup →
      ∀ k ∈ sts.map Prod.fst,
        ((sts.map Prod.fst).map unreachMsg).count (unreachMsg k) = 1) := by
  constructor
  · have hget1 : pyGet (.obj fields) "States" (.obj []) = .ok (.obj sts) := by
      simp [pyGet, hT]
    have hget2 : pyGet (.obj fields) "StartAt" .null = .ok startV := by
      simp [pyGet, hS]
    have htr : pyTruthy (.obj sts) = true := by
      simp [pyTruthy, List.isEmpty_iff, hne]
    have hsetin : pySetIn startV [] = .ok false := by
      cases hsv : startV with
      | str s => simp [pySetIn, hashableB]
      | null => simp [pySetIn, hashableB]
      | bool b => simp [pySetIn, hashableB]
      | num n => simp [pySetIn, hashableB]
      | arr xs => rw [hsv] at hhash; simp [hashableB] at hhash
      | obj fs => rw [hsv] at hhash; simp [hashableB] at hhash
    have hin : pyIn startV (.obj sts) = .ok false := by
      cases hsv : startV with
      | str s =>
          have hc : s ∉ sts.map Prod.fst := by simpa using hnokey s hsv
          simp [pyIn, hashableB]
          intro a b hab ha
          subst ha
          exact hc (List.mem_map.mpr ⟨(a, b), hab, rfl⟩)
      | null => simp [pyIn, hashableB]
      | bool b => simp [pyIn, hashableB]
      | num n => simp [pyIn, hashableB]
      | arr xs => rw [hsv] at hhash; simp [hashableB] at hhash
      | obj fs => rw [hsv] at hhash; simp [hashableB] at hhash
    obtain ⟨f, hf⟩ : ∃ f, bfsFuel (.obj sts) = f + 1 :=
      ⟨(sts.map (fun p => 1 + succBound p.2)).sum, by simp only [bfsFuel]; omega⟩
    have hbfs : bfsLoop (.obj sts) (bfsFuel (.obj sts)) [startV] [] = .ok [] := by
      rw [hf, bfsLoop_skip _ _ _ _ _ hsetin hin]
      cases f <;> rfl
    rw [detect_unreachable_states]
    simp only [hget1, hget2, htr, htruthy, Bool.not_true, Bool.false_or,
               bind, Except.bind, Bool.or_self, Bool.false_eq_true, reduceIte,
               hbfs, pyKeys, pure, Except.pure]
    simp [unreachMsg]
  · intro hnodup k hk
    rw [count_map_inj _ _ _ unreachMsg_inj]
    exact List.count_eq_one_of_mem hnodup hk

/-- Witness for C9's amended theorem at a concrete definition. -/
theorem unreachable_all_when_startat_dangling_witness :
    detect_unreachable_states
        (.obj [("StartAt", .str "X"),
               ("States", .obj [("A", .obj [("Type", .str "Succeed")]),
                                ("B", .obj [("Type", .str "Succeed")])])]) =
      .ok ((([("A", JVal.obj [("Type", JVal.str "Succeed")]),
              ("B", JVal.obj [("Type", JVal.str "Succeed")])].map Prod.fst)).map
           unreachMsg) ∧
    (([("A", JVal.obj [("Type", JVal.str "Succeed")]),
       ("B", JVal.obj [("Type", JVal.str "Succeed")])].map Prod.fst).Nodup →
      ∀ k ∈ [("A", JVal.obj [("Type", JVal.str "Succeed")]),
             ("B", JVal.obj [("Type", JVal.str "Succeed")])].map Prod.fst,
        (([("A", JVal.obj [("Type", JVal.str "Succeed")]),
           ("B", JVal.obj [("Type", JVal.str "Succeed")])].map Prod.fst).map
            unreachMsg).count (unreachMsg k) = 1) :=
  unreachable_all_when_startat_dangling
    [("StartAt", .str "X"),
     ("States", .obj [("A", .obj [("Type", .str "Succeed")]),
                      ("B", .obj [("Type", .str "Succeed")])])]
    [("A", .obj [("Type", .str "Succeed")]), ("B", .obj [("Type", .str "Succeed")])]
    (.str "X") rfl rfl (by simp) rfl rfl
    (by intro s hs; injection hs with hs; subst hs; decide)

/-! ## Declarative reachability for the BFS stage -/

/-- A state value over which the BFS expansion is total: if it is an object,
its successor collection succeeds and every collected successor is hashable. -/
def stateSafeB (v : JVal) : Bool :=
  match v with
  | .obj sd =>
      match succsOfState sd with
      | .ok ns => ns.all hashableB
      | .error _ => false
  | _ => true

/-- The successor values of the state named `k`, exactly as the BFS enqueues
them: empty unless `k` names an object state whose collection succeeds. -/
def succListD (sts : List (String × JVal)) (k : String) : List JVal :=
  match alookup k sts with
  | some (.obj sd) =>
      match succsOfState sd with
      | .ok ns => ns
      | .error _ => []
  | _ => []

/-- The transition-edge relation the BFS explores: the state named `b` is a
successor of the state named `a` via `Next`, `Choices[i].Next`, `Default`, or
`Catch[i].Next`. -/
def EdgeB (sts : List (String × JVal)) (a b : String) : Prop :=
  JVal.str b ∈ succListD sts a

/-- The loop potential: pending queue entries plus room for every not yet
reached state and everything it can enqueue. -/
def phiBFS (sts : List (String × JVal)) (queue : List JVal) (reach : List String) : Nat :=
  queue.length +
    ((sts.filter (fun p => !(reach.contains p.1))).map (fun p => 1 + succBound p.2)).sum

theorem bfsLoop_skip_inreach (states : JVal) (fuel : Nat) (cur : JVal)
    (queue : List JVal) (reach : List String)
    (hset : pySetIn cur reach = Except.ok true) :
    bfsLoop states (fuel + 1) (cur :: queue) reach = bfsLoop states fuel queue reach := by
  cases cur
  case str s =>
    rw [bfsLoop]
    simp [hset, bind, Except.bind, pure, Except.pure]
  all_goals
    rw [bfsLoop]
    simp [hset, bind, Except.bind, pure, Except.pure]
    exact fun s h => JVal.noConfusion h

theorem bfsLoop_visit_obj (states : JVal) (fuel : Nat) (s : String)
    (queue : List JVal) (reach : List String) (sd : List (String × JVal))
    (ns : List JVal)
    (hset : pySetIn (.str s) reach = Except.ok false)
    (hin : pyIn (.str s) states = Except.ok true)
    (hsub : pySubV states (.str s) = Except.ok (.obj sd))
    (hsucc : succsOfState sd = Except.ok ns) :
    bfsLoop states (fuel + 1) (.str s :: queue) reach =
      bfsLoop states fuel (queue ++ ns) (reach ++ [s]) := by
  rw [bfsLoop]
  simp [hset, hin, hsub, hsucc, bind, Except.bind, pure, Except.pure]

theorem bfsLoop_visit_other (states : JVal) (fuel : Nat) (s : String)
    (queue : List JVal) (reach : List String) (v : JVal)
    (hset : pySetIn (.str s) reach = Except.ok false)
    (hin : pyIn (.str s) states = Except.ok true)
    (hsub : pySubV states (.str s) = Except.ok v)
    (hnobj : ∀ sd, v ≠ JVal.obj sd) :
    bfsLoop states (fuel + 1) (.str s :: queue) reach =
      bfsLoop states fuel queue (reach ++ [s]) := by
  cases v
  case obj sd => exact absurd rfl (hnobj sd)
  all_goals
    rw [bfsLoop]
    simp [hset, hin, hsub, bind, Except.bind, pure, Except.pure]

theorem contains_eq_decide_mem (l : List String) (s : String) :
    l.contains s = decide (s ∈ l) := by
  induction l with
  | nil => rfl
  | cons a as ih =>
      simp [List.contains_cons, ih, List.mem_cons]

theorem alookup_mem_keys {a : String} {sts : List (String × JVal)} {v : JVal}
    (h : alookup a sts = some v) : a ∈ sts.map Prod.fst := by
  induction sts with
  | nil => simp [alookup] at h
  | cons p rest ih =>
      rw [alookup] at h
      by_cases hp : p.1 = a
      · simp [hp]
      · rw [if_neg hp] at h
        simpa using Or.inr (ih h)

theorem alookup_mem_pair {a : String} {sts : List (String × JVal)} {v : JVal}
    (h : alookup a sts = some v) : (a, v) ∈ sts := by
  induction sts with
  | nil => simp [alookup] at h
  | cons p rest ih =>
      rw [alookup] at h
      by_cases hp : p.1 = a
      · rw [if_pos hp] at h
        injection h with h2
        have hp2 : p = (a, v) := by
          obtain ⟨x, y⟩ := p
          simp only at hp h2
          rw [hp, h2]
        rw [hp2]
        exact List.mem_cons_self _ _
      · rw [if_neg hp] at h
        exact List.mem_cons_of_mem _ (ih h)

theorem mem_keys_alookup {a : String} {sts : List (String × JVal)}
    (h : a ∈ sts.map Prod.fst) : ∃ v, alookup a sts = some v := by
  induction sts with
  | nil => simp at h
  | cons p rest ih =>
      rw [alookup]
      by_cases hp : p.1 = a
      · exact ⟨p.2, if_pos hp⟩
      · rw [if_neg hp]
        apply ih
        simp only [List.map_cons, List.mem_cons] at h
        cases h with
        | inl h => exact absurd h.symm hp
        | inr h => exact h

theorem edge_src_key {sts : List (String × JVal)} {a b : String}
    (h : EdgeB sts a b) : a ∈ sts.map Prod.fst := by
  rw [EdgeB, succListD] at h
  cases hal : alookup a sts with
  | none => rw [hal] at h; simp at h
  | some v => exact alookup_mem_keys hal

theorem collectNexts_length (cs : List JVal) (ns : List JVal)
    (h : collectNexts cs = Except.ok ns) : ns.length ≤ cs.length := by
  induction cs generalizing ns with
  | nil =>
      rw [collectNexts] at h
      cases h
      simp
  | cons c rest ih =>
      rw [collectNexts] at h
      simp only [bind, Except.bind] at h
      cases h1 : pyIn (.str "Next") c with
      | error e => rw [h1] at h; exact absurd h (by simp)
      | ok hasN =>
          rw [h1] at h
          simp only [] at h
          cases hasN with
          | false =>
              simp only [Bool.false_eq_true, if_false, pure, Except.pure] at h
              cases h2 : collectNexts rest with
              | error e => rw [h2] at h; exact absurd h (by simp)
              | ok tl =>
                  rw [h2] at h
                  simp only [] at h
                  injection h with h3
                  subst h3
                  simpa using Nat.le_succ_of_le (ih tl h2)
          | true =>
              simp only [if_true, bind, Except.bind] at h
              cases h2 : pySub c "Next" with
              | error e => rw [h2] at h; exact absurd h (by simp)
              | ok nx =>
                  rw [h2] at h
                  simp only [pure, Except.pure] at h
                  cases h3 : collectNexts rest with
                  | error e => rw [h3] at h; exact absurd h (by simp)
                  | ok tl =>
                      rw [h3] at h
                      simp only [] at h
                      injection h with h4
                      subst h4
                      simpa using ih tl h3

/-- The length bound `succBound` uses for one optional collection value,
matching `pyIterList` of `o.getD (.arr [])`. -/
def iterBound (o : Option JVal) : Nat :=
  match o with
  | some (.arr ys) => ys.length
  | some (.obj fs) => fs.length
  | some (.str s) => s.length
  | _ => 0

theorem iterListD_length (o : Option JVal) (xs : List JVal)
    (h : pyIterList (o.getD (JVal.arr [])) = Except.ok xs) :
    xs.length ≤ iterBound o := by
  cases o with
  | none =>
      simp only [Option.getD, pyIterList] at h
      cases h
      simp [iterBound]
  | some v =>
      cases v with
      | arr ys =>
          simp only [Option.getD, pyIterList] at h
          cases h
          simp [iterBound]
      | obj fs =>
          simp only [Option.getD, pyIterList] at h
          cases h
          simp [iterBound]
      | str s =>
          simp only [Option.getD, pyIterList] at h
          cases h
          simp only [List.length_map, iterBound]
          exact Nat.le_of_eq rfl
      | null => exact absurd h (by simp [pyIterList])
      | bool b => exact absurd h (by simp [pyIterList])
      | num n => exact absurd h (by simp [pyIterList])

theorem succBound_obj (sd : List (String × JVal)) :
    succBound (JVal.obj sd) =
      2 + iterBound (alookup "Choices" sd) + iterBound (alookup "Catch" sd) := by
  cases hc : alookup "Choices" sd with
  | none =>
      cases hk : alookup "Catch" sd with
      | none => simp [succBound, iterBound, hc, hk]
      | some vk => cases vk <;> simp [succBound, iterBound, hc, hk]
  | some vc =>
      cases hk : alookup "Catch" sd with
      | none => cases vc <;> simp [succBound, iterBound, hc, hk]
      | some vk => cases vc <;> cases vk <;> simp [succBound, iterBound, hc, hk]

theorem succsOfState_length (sd : List (String × JVal)) (ns : List JVal)
    (h : succsOfState sd = Except.ok ns) : ns.length ≤ succBound (JVal.obj sd) := by
  rw [succsOfState] at h
  simp only [bind, Except.bind] at h
  rw [succBound_obj]
  have hn1 : (match alookup "Next" sd with
      | some nx => [nx] | none => ([] : List JVal)).length ≤ 1 := by
    cases alookup "Next" sd <;> simp
  cases hch : isStrEq (alookup "Type" sd) "Choice" with
  | true =>
      rw [hch] at h
      simp only [if_true] at h
      cases h1 : pyIterList ((alookup "Choices" sd).getD (JVal.arr [])) with
      | error e => rw [h1] at h; exact absurd h (by simp)
      | ok choices =>
          rw [h1] at h
          simp only [] at h
          cases h2 : collectNexts choices with
          | error e => rw [h2] at h; exact absurd h (by simp)
          | ok cn =>
              rw [h2] at h
              simp only [pure, Except.pure] at h
              cases h3 : pyIterList ((alookup "Catch" sd).getD (JVal.arr [])) with
              | error e => rw [h3] at h; exact absurd h (by simp)
              | ok catches =>
                  rw [h3] at h
                  simp only [] at h
                  cases h4 : collectNexts catches with
                  | error e => rw [h4] at h; exact absurd h (by simp)
                  | ok n3 =>
                      rw [h4] at h
                      simp only [] at h
                      cases h5 : pyIterList ((alookup "Branches" sd).getD (JVal.arr [])) with
                      | error e => rw [h5] at h; exact absurd h (by simp)
                      | ok br =>
                          rw [h5] at h
                          simp only [] at h
                          injection h with h6
                          subst h6
                          have hcn : cn.length ≤ iterBound (alookup "Choices" sd) :=
                            le_trans (collectNexts_length _ _ h2) (iterListD_length _ _ h1)
                          have hn3 : n3.length ≤ iterBound (alookup "Catch" sd) :=
                            le_trans (collectNexts_length _ _ h4) (iterListD_length _ _ h3)
                          have hdn : (match alookup "Default" sd with
                              | some d => [d] | none => ([] : List JVal)).length ≤ 1 := by
                            cases alookup "Default" sd <;> simp
                          simp only [List.length_append]
                          omega
  | false =>
      rw [hch] at h
      simp only [Bool.false_eq_true, if_false, pure, Except.pure] at h
      cases h3 : pyIterList ((alookup "Catch" sd).getD (JVal.arr [])) with
      | error e => rw [h3] at h; exact absurd h (by simp)
      | ok catches =>
          rw [h3] at h
          simp only [] at h
          cases h4 : collectNexts catches with
          | error e => rw [h4] at h; exact absurd h (by simp)
          | ok n3 =>
              rw [h4] at h
              simp only [] at h
              cases h5 : pyIterList ((alookup "Branches" sd).getD (JVal.arr [])) with
              | error e => rw [h5] at h; exact absurd h (by simp)
              | ok br =>
                  rw [h5] at h
                  simp only [] at h
                  injection h with h6
                  subst h6
                  have hn3 : n3.length ≤ iterBound (alookup "Catch" sd) :=
                    le_trans (collectNexts_length _ _ h4) (iterListD_length _ _ h3)
                  simp only [List.length_append, List.length_nil]
                  omega

theorem filter_congr_contains (sts : List (String × JVal)) (reach : List String)
    (s : String) (hno : s ∉ sts.map Prod.fst) :
    sts.filter (fun p => !((reach ++ [s]).contains p.1)) =
      sts.filter (fun p => !(reach.contains p.1)) := by
  apply List.filter_congr
  intro p hp
  have hps : p.1 ≠ s := by
    intro he
    exact hno (he ▸ List.mem_map.mpr ⟨p, hp, rfl⟩)
  rw [contains_eq_decide_mem, contains_eq_decide_mem]
  simp [List.mem_append, hps]

theorem phi_filter_step (sts : List (String × JVal)) (reach : List String)
    (s : String) (v : JVal)
    (hal : alookup s sts = some v) (hs : s ∉ reach)
    (hnodup : (sts.map Prod.fst).Nodup) :
    ((sts.filter (fun p => !((reach ++ [s]).contains p.1))).map
        (fun p => 1 + succBound p.2)).sum + (1 + succBound v)
      = ((sts.filter (fun p => !(reach.contains p.1))).map
          (fun p => 1 + succBound p.2)).sum := by
  induction sts with
  | nil => simp [alookup] at hal
  | cons p rest ih =>
      rw [alookup] at hal
      simp only [List.map_cons, List.nodup_cons] at hnodup
      by_cases hp : p.1 = s
      · rw [if_pos hp] at hal
        injection hal with hal
        have hd1 : ((reach ++ [s]).contains p.1) = true := by
          rw [contains_eq_decide_mem]
          simp [hp]
        have hd2 : (reach.contains p.1) = false := by
          rw [contains_eq_decide_mem]
          simp [hp, hs]
        rw [List.filter_cons, List.filter_cons, hd1, hd2]
        simp only [Bool.not_true, Bool.not_false, Bool.false_eq_true, if_true, reduceIte]
        have hrest : rest.filter (fun q => !((reach ++ [s]).contains q.1)) =
            rest.filter (fun q => !(reach.contains q.1)) := by
          apply filter_congr_contains
          rw [hp] at hnodup
          exact hnodup.1
        rw [hrest]
        simp only [List.map_cons, List.sum_cons, hal]
        omega
      · rw [if_neg hp] at hal
        have heq : ((reach ++ [s]).contains p.1) = (reach.contains p.1) := by
          rw [contains_eq_decide_mem, contains_eq_decide_mem]
          simp [List.mem_append, hp]
        rw [List.filter_cons, List.filter_cons, heq]
        cases hr : reach.contains p.1 with
        | true =>
            simp only [Bool.not_true, if_false]
            exact ih hal hnodup.2
        | false =>
            simp only [Bool.not_false, if_true, List.map_cons, List.sum_cons]
            have := ih hal hnodup.2
            omega

theorem reach_cover (sts : List (String × JVal)) (queue : List JVal)
    (reach : List String)
    (hcl : ∀ r ∈ reach, ∀ b, EdgeB sts r b → b ∈ sts.map Prod.fst →
        b ∈ reach ∨ JVal.str b ∈ queue) :
    ∀ a x, Relation.ReflTransGen (EdgeB sts) a x → a ∈ reach →
      x ∈ sts.map Prod.fst →
      x ∈ reach ∨ ∃ u, JVal.str u ∈ queue ∧ Relation.ReflTransGen (EdgeB sts) u x := by
  intro a x hrtg
  induction hrtg using Relation.ReflTransGen.head_induction_on with
  | refl => exact fun ha _ => Or.inl ha
  | head hedge hrtg2 ih =>
      intro ha hx
      rename_i a' c
      have hck : c ∈ sts.map Prod.fst := by
        cases Relation.ReflTransGen.cases_head hrtg2 with
        | inl he => exact he ▸ hx
        | inr he =>
            obtain ⟨b2, he2, -⟩ := he
            exact edge_src_key he2
      cases hcl a' ha c hedge hck with
      | inl hcr => exact ih hcr hx
      | inr hq => exact Or.inr ⟨c, hq, hrtg2⟩

theorem succListD_eq_obj {sts : List (String × JVal)} {s : String}
    {sd : List (String × JVal)} {ns : List JVal}
    (hv : alookup s sts = some (JVal.obj sd))
    (hns : succsOfState sd = Except.ok ns) : succListD sts s = ns := by
  rw [succListD, hv]
  simp only [hns]

theorem succListD_eq_nil_of_nonobj {sts : List (String × JVal)} {s : String}
    {v : JVal} (hv : alookup s sts = some v)
    (hnobj : ∀ sd, v ≠ JVal.obj sd) : succListD sts s = [] := by
  rw [succListD, hv]
  cases v
  case obj sd => exact absurd rfl (hnobj sd)
  all_goals rfl

theorem bfsLoop_closure (sts : List (String × JVal))
    (hsafe : ∀ p ∈ sts, stateSafeB p.2 = true)
    (hnodup : (sts.map Prod.fst).Nodup) :
    ∀ (fuel : Nat) (queue : List JVal) (reach : List String),
      (∀ q ∈ queue, hashableB q = true) →
      (∀ r ∈ reach, ∀ b, EdgeB sts r b → b ∈ sts.map Prod.fst →
          b ∈ reach ∨ JVal.str b ∈ queue) →
      phiBFS sts queue reach ≤ fuel →
      ∃ rfin, bfsLoop (JVal.obj sts) fuel queue reach = Except.ok rfin ∧
        (∀ x, x ∈ rfin ↔ (x ∈ reach ∨ (x ∈ sts.map Prod.fst ∧
          ∃ u, JVal.str u ∈ queue ∧ Relation.ReflTransGen (EdgeB sts) u x))) := by
  intro fuel
  induction fuel with
  | zero =>
      intro queue reach hh hcl hphi
      have hq : queue = [] := by
        cases queue with
        | nil => rfl
        | cons a as => simp [phiBFS] at hphi
      subst hq
      refine ⟨reach, rfl, ?_⟩
      intro x
      simp
  | succ fuel ih =>
      intro queue reach hh hcl hphi
      cases queue with
      | nil =>
          refine ⟨reach, rfl, ?_⟩
          intro x
          simp
      | cons cur qs =>
          have hhc : hashableB cur = true := hh cur (List.mem_cons_self _ _)
          have hh' : ∀ q ∈ qs, hashableB q = true :=
            fun q hq => hh q (List.mem_cons_of_mem _ hq)
          have hphi1 : phiBFS sts qs reach ≤ fuel := by
            simp only [phiBFS, List.length_cons] at hphi ⊢
            omega
          cases cur with
          | arr xs => simp [hashableB] at hhc
          | obj fs => simp [hashableB] at hhc
          | null =>
              have hset : pySetIn JVal.null reach = Except.ok false := by
                simp [pySetIn, hashableB]
              have hin : pyIn JVal.null (JVal.obj sts) = Except.ok false := by
                simp [pyIn, hashableB]
              rw [bfsLoop_skip _ _ _ _ _ hset hin]
              have hcl' : ∀ r ∈ reach, ∀ b, EdgeB sts r b → b ∈ sts.map Prod.fst →
                  b ∈ reach ∨ JVal.str b ∈ qs := by
                intro r hr b he hb
                rcases hcl r hr b he hb with h | h
                · exact Or.inl h
                · rcases List.mem_cons.mp h with h2 | h2
                  · exact absurd h2 (by simp)
                  · exact Or.inr h2
              obtain ⟨rfin, heq, hch⟩ := ih qs reach hh' hcl' hphi1
              refine ⟨rfin, heq, ?_⟩
              intro x
              rw [hch x]
              constructor
              · rintro (h | ⟨hk, u, hu, hr⟩)
                · exact Or.inl h
                · exact Or.inr ⟨hk, u, List.mem_cons_of_mem _ hu, hr⟩
              · rintro (h | ⟨hk, u, hu, hr⟩)
                · exact Or.inl h
                · rcases List.mem_cons.mp hu with h2 | h2
                  · exact absurd h2 (by simp)
                  · exact Or.inr ⟨hk, u, h2, hr⟩
          | bool b0 =>
              have hset : pySetIn (JVal.bool b0) reach = Except.ok false := by
                simp [pySetIn, hashableB]
              have hin : pyIn (JVal.bool b0) (JVal.obj sts) = Except.ok false := by
                simp [pyIn, hashableB]
              rw [bfsLoop_skip _ _ _ _ _ hset hin]
              have hcl' : ∀ r ∈ reach, ∀ b, EdgeB sts r b → b ∈ sts.map Prod.fst →
                  b ∈ reach ∨ JVal.str b ∈ qs := by
                intro r hr b he hb
                rcases hcl r hr b he hb with h | h
                · exact Or.inl h
                · rcases List.mem_cons.mp h with h2 | h2
                  · exact absurd h2 (by simp)
                  · exact Or.inr h2
              obtain ⟨rfin, heq, hch⟩ := ih qs reach hh' hcl' hphi1
              refine ⟨rfin, heq, ?_⟩
              intro x
              rw [hch x]
              constructor
              · rintro (h | ⟨hk, u, hu, hr⟩)
                · exact Or.inl h
                · exact Or.inr ⟨hk, u, List.mem_cons_of_mem _ hu, hr⟩
              · rintro (h | ⟨hk, u, hu, hr⟩)
                · exact Or.inl h
                · rcases List.mem_cons.mp hu with h2 | h2
                  · exact absurd h2 (by simp)
                  · exact Or.inr ⟨hk, u, h2, hr⟩
          | num n0 =>
              have hset : pySetIn (JVal.num n0) reach = Except.ok false := by
                simp [pySetIn, hashableB]
              have hin : pyIn (JVal.num n0) (JVal.obj sts) = Except.ok false := by
                simp [pyIn, hashableB]
              rw [bfsLoop_skip _ _ _ _ _ hset hin]
              have hcl' : ∀ r ∈ reach, ∀ b, EdgeB sts r b → b ∈ sts.map Prod.fst →
                  b ∈ reach ∨ JVal.str b ∈ qs := by
                intro r hr b he hb
                rcases hcl r hr b he hb with h | h
                · exact Or.inl h
                · rcases List.mem_cons.mp h with h2 | h2
                  · exact absurd h2 (by simp)
                  · exact Or.inr h2
              obtain ⟨rfin, heq, hch⟩ := ih qs reach hh' hcl' hphi1
              refine ⟨rfin, heq, ?_⟩
              intro x
              rw [hch x]
              constructor
              · rintro (h | ⟨hk, u, hu, hr⟩)
                · exact Or.inl h
                · exact Or.inr ⟨hk, u, List.mem_cons_of_mem _ hu, hr⟩
              · rintro (h | ⟨hk, u, hu, hr⟩)
                · exact Or.inl h
                · rcases List.mem_cons.mp hu with h2 | h2
                  · exact absurd h2 (by simp)
                  · exact Or.inr ⟨hk, u, h2, hr⟩
          | str s =>
              by_cases hsr : s ∈ reach
              · have hset : pySetIn (JVal.str s) reach = Except.ok true := by
                  simp [pySetIn, hashableB, contains_eq_decide_mem, hsr]
                rw [bfsLoop_skip_inreach _ _ _ _ _ hset]
                have hcl' : ∀ r ∈ reach, ∀ b, EdgeB sts r b → b ∈ sts.map Prod.fst →
                    b ∈ reach ∨ JVal.str b ∈ qs := by
                  intro r hr b he hb
                  rcases hcl r hr b he hb with h | h
                  · exact Or.inl h
                  · rcases List.mem_cons.mp h with h2 | h2
                    · injection h2 with h3
                      exact Or.inl (h3 ▸ hsr)
                    · exact Or.inr h2
                obtain ⟨rfin, heq, hch⟩ := ih qs reach hh' hcl' hphi1
                refine ⟨rfin, heq, ?_⟩
                intro x
                rw [hch x]
                constructor
                · rintro (h | ⟨hk, u, hu, hr⟩)
                  · exact Or.inl h
                  · exact Or.inr ⟨hk, u, List.mem_cons_of_mem _ hu, hr⟩
                · rintro (h | ⟨hk, u, hu, hr⟩)
                  · exact Or.inl h
                  · rcases List.mem_cons.mp hu with h2 | h2
                    · injection h2 with h3
                      subst h3
                      rcases reach_cover sts qs reach hcl' u x hr hsr hk with hxr | ⟨w, hw, hrw⟩
                      · exact Or.inl hxr
                      · exact Or.inr ⟨hk, w, hw, hrw⟩
                    · exact Or.inr ⟨hk, u, h2, hr⟩
              · have hset : pySetIn (JVal.str s) reach = Except.ok false := by
                  simp [pySetIn, hashableB, contains_eq_decide_mem, hsr]
                by_cases hsk : s ∈ sts.map Prod.fst
                · -- the state is newly visited
                  have hin : pyIn (JVal.str s) (JVal.obj sts) = Except.ok true := by
                    simp only [pyIn, hashableB, if_true]
                    rw [any_fst_eq_contains, contains_eq_decide_mem]
                    simp [hsk]
                  obtain ⟨v, hv⟩ := mem_keys_alookup hsk
                  have hsafe_v : stateSafeB v = true := hsafe (s, v) (alookup_mem_pair hv)
                  cases v with
                  | obj sd =>
                      obtain ⟨ns, hns, hnsh⟩ : ∃ ns, succsOfState sd = Except.ok ns ∧
                          ns.all hashableB = true := by
                        revert hsafe_v
                        rw [stateSafeB]
                        cases hsc : succsOfState sd with
                        | error e => simp
                        | ok ms => exact fun h => ⟨ms, rfl, h⟩
                      have hsub : pySubV (JVal.obj sts) (JVal.str s) =
                          Except.ok (JVal.obj sd) := by
                        simp [pySubV, hv]
                      rw [bfsLoop_visit_obj _ _ _ _ _ _ _ hset hin hsub hns]
                      have hsl : succListD sts s = ns := succListD_eq_obj hv hns
                      have hh2 : ∀ q ∈ qs ++ ns, hashableB q = true := by
                        intro q hq
                        rcases List.mem_append.mp hq with h2 | h2
                        · exact hh' q h2
                        · exact List.all_eq_true.mp hnsh q h2
                      have hcl2 : ∀ r ∈ reach ++ [s], ∀ b, EdgeB sts r b →
                          b ∈ sts.map Prod.fst →
                          b ∈ reach ++ [s] ∨ JVal.str b ∈ qs ++ ns := by
                        intro r hr b he hb
                        rcases List.mem_append.mp hr with h2 | h2
                        · rcases hcl r h2 b he hb with h3 | h3
                          · exact Or.inl (List.mem_append.mpr (Or.inl h3))
                          · rcases List.mem_cons.mp h3 with h4 | h4
                            · injection h4 with h5
                              exact Or.inl (List.mem_append.mpr (Or.inr (by simp [h5])))
                            · exact Or.inr (List.mem_append.mpr (Or.inl h4))
                        · have hrs : r = s := by simpa using h2
                          subst hrs
                          rw [EdgeB, hsl] at he
                          exact Or.inr (List.mem_append.mpr (Or.inr he))
                      have hphi2 : phiBFS sts (qs ++ ns) (reach ++ [s]) ≤ fuel := by
                        have hstep := phi_filter_step sts reach s (JVal.obj sd) hv hsr hnodup
                        have hlen := succsOfState_length sd ns hns
                        simp only [phiBFS, List.length_cons, List.length_append] at hphi ⊢
                        omega
                      obtain ⟨rfin, heq, hch⟩ := ih (qs ++ ns) (reach ++ [s]) hh2 hcl2 hphi2
                      refine ⟨rfin, heq, ?_⟩
                      intro x
                      rw [hch x]
                      constructor
                      · rintro (hx | ⟨hk, u, hu, hr⟩)
                        · rcases List.mem_append.mp hx with hx2 | hx2
                          · exact Or.inl hx2
                          · have hxs : x = s := by simpa using hx2
                            subst hxs
                            exact Or.inr ⟨hsk, x, List.mem_cons_self _ _,
                              Relation.ReflTransGen.refl⟩
                        · rcases List.mem_append.mp hu with hu2 | hu2
                          · exact Or.inr ⟨hk, u, List.mem_cons_of_mem _ hu2, hr⟩
                          · have hedge : EdgeB sts s u := by
                              rw [EdgeB, hsl]
                              exact hu2
                            exact Or.inr ⟨hk, s, List.mem_cons_self _ _,
                              Relation.ReflTransGen.head hedge hr⟩
                      · rintro (hx | ⟨hk, u, hu, hr⟩)
                        · exact Or.inl (List.mem_append.mpr (Or.inl hx))
                        · rcases List.mem_cons.mp hu with he | hu2
                          · injection he with he2
                            subst he2
                            rcases Relation.ReflTransGen.cases_head hr with he3 | ⟨c, hc, hr2⟩
                            · exact Or.inl (List.mem_append.mpr (Or.inr (by simp [he3])))
                            · rw [EdgeB, hsl] at hc
                              exact Or.inr ⟨hk, c, List.mem_append.mpr (Or.inr hc), hr2⟩
                          · exact Or.inr ⟨hk, u, List.mem_append.mpr (Or.inl hu2), hr⟩
                  | null =>
                      have hsub : pySubV (JVal.obj sts) (JVal.str s) = Except.ok JVal.null := by
                        simp [pySubV, hv]
                      rw [bfsLoop_visit_other _ _ _ _ _ _ hset hin hsub
                        (fun sd h => JVal.noConfusion h)]
                      have hsl : succListD sts s = [] :=
                        succListD_eq_nil_of_nonobj hv (fun sd h => JVal.noConfusion h)
                      have hcl2 : ∀ r ∈ reach ++ [s], ∀ b, EdgeB sts r b →
                          b ∈ sts.map Prod.fst →
                          b ∈ reach ++ [s] ∨ JVal.str b ∈ qs := by
                        intro r hr b he hb
                        rcases List.mem_append.mp hr with h2 | h2
                        · rcases hcl r h2 b he hb with h3 | h3
                          · exact Or.inl (List.mem_append.mpr (Or.inl h3))
                          · rcases List.mem_cons.mp h3 with h4 | h4
                            · injection h4 with h5
                              exact Or.inl (List.mem_append.mpr (Or.inr (by simp [h5])))
                            · exact Or.inr h4
                        · have hrs : r = s := by simpa using h2
                          subst hrs
                          rw [EdgeB, hsl] at he
                          exact absurd he (by simp)
                      have hphi2 : phiBFS sts qs (reach ++ [s]) ≤ fuel := by
                        have hstep := phi_filter_step sts reach s JVal.null hv hsr hnodup
                        simp only [phiBFS, List.length_cons] at hphi ⊢
                        omega
                      obtain ⟨rfin, heq, hch⟩ := ih qs (reach ++ [s]) hh' hcl2 hphi2
                      refine ⟨rfin, heq, ?_⟩
                      intro x
                      rw [hch x]
                      constructor
                      · rintro (hx | ⟨hk, u, hu, hr⟩)
                        · rcases List.mem_append.mp hx with hx2 | hx2
                          · exact Or.inl hx2
                          · have hxs : x = s := by simpa using hx2
                            subst hxs
                            exact Or.inr ⟨hsk, x, List.mem_cons_self _ _,
                              Relation.ReflTransGen.refl⟩
                        · exact Or.inr ⟨hk, u, List.mem_cons_of_mem _ hu, hr⟩
                      · rintro (hx | ⟨hk, u, hu, hr⟩)
                        · exact Or.inl (List.mem_append.mpr (Or.inl hx))
                        · rcases List.mem_cons.mp hu with he | hu2
                          · injection he with he2
                            subst he2
                            rcases Relation.ReflTransGen.cases_head hr with he3 | ⟨c, hc, hr2⟩
                            · exact Or.inl (List.mem_append.mpr (Or.inr (by simp [he3])))
                            · rw [EdgeB, hsl] at hc
                              exact absurd hc (by simp)
                          · exact Or.inr ⟨hk, u, hu2, hr⟩
                  | bool b0 =>
                      have hsub : pySubV (JVal.obj sts) (JVal.str s) =
                          Except.ok (JVal.bool b0) := by
                        simp [pySubV, hv]
                      rw [bfsLoop_visit_other _ _ _ _ _ _ hset hin hsub
                        (fun sd h => JVal.noConfusion h)]
                      have hsl : succListD sts s = [] :=
                        succListD_eq_nil_of_nonobj hv (fun sd h => JVal.noConfusion h)
                      have hcl2 : ∀ r ∈ reach ++ [s], ∀ b, EdgeB sts r b →
                          b ∈ sts.map Prod.fst →
                          b ∈ reach ++ [s] ∨ JVal.str b ∈ qs := by
                        intro r hr b he hb
                        rcases List.mem_append.mp hr with h2 | h2
                        · rcases hcl r h2 b he hb with h3 | h3
                          · exact Or.inl (List.mem_append.mpr (Or.inl h3))
                          · rcases List.mem_cons.mp h3 with h4 | h4
                            · injection h4 with h5
                              exact Or.inl (List.mem_append.mpr (Or.inr (by simp [h5])))
                            · exact Or.inr h4
                        · have hrs : r = s := by simpa using h2
                          subst hrs
                          rw [EdgeB, hsl] at he
                          exact absurd he (by simp)
                      have hphi2 : phiBFS sts qs (reach ++ [s]) ≤ fuel := by
                        have hstep := phi_filter_step sts reach s (JVal.bool b0) hv hsr hnodup
                        simp only [phiBFS, List.length_cons] at hphi ⊢
                        omega
                      obtain ⟨rfin, heq, hch⟩ := ih qs (reach ++ [s]) hh' hcl2 hphi2
                      refine ⟨rfin, heq, ?_⟩
                      intro x
                      rw [hch x]
                      constructor
                      · rintro (hx | ⟨hk, u, hu, hr⟩)
                        · rcases List.mem_append.mp hx with hx2 | hx2
                          · exact Or.inl hx2
                          · have hxs : x = s := by simpa using hx2
                            subst hxs
                            exact Or.inr ⟨hsk, x, List.mem_cons_self _ _,
                              Relation.ReflTransGen.refl⟩
                        · exact Or.inr ⟨hk, u, List.mem_cons_of_mem _ hu, hr⟩
                      · rintro (hx | ⟨hk, u, hu, hr⟩)
                        · exact Or.inl (List.mem_append.mpr (Or.inl hx))
                        · rcases List.mem_cons.mp hu with he | hu2
                          · injection he with he2
                            subst he2
                            rcases Relation.ReflTransGen.cases_head hr with he3 | ⟨c, hc, hr2⟩
                            · exact Or.inl (List.mem_append.mpr (Or.inr (by simp [he3])))
                            · rw [EdgeB, hsl] at hc
                              exact absurd hc (by simp)
                          · exact Or.inr ⟨hk, u, hu2, hr⟩
                  | num n0 =>
                      have hsub : pySubV (JVal.obj sts) (JVal.str s) =
                          Except.ok (JVal.num n0) := by
                        simp [pySubV, hv]
                      rw [bfsLoop_visit_other _ _ _ _ _ _ hset hin hsub
                        (fun sd h => JVal.noConfusion h)]
                      have hsl : succListD sts s = [] :=
                        succListD_eq_nil_of_nonobj hv (fun sd h => JVal.noConfusion h)
                      have hcl2 : ∀ r ∈ reach ++ [s], ∀ b, EdgeB sts r b →
                          b ∈ sts.map Prod.fst →
                          b ∈ reach ++ [s] ∨ JVal.str b ∈ qs := by
                        intro r hr b he hb
                        rcases List.mem_append.mp hr with h2 | h2
                        · rcases hcl r h2 b he hb with h3 | h3
                          · exact Or.inl (List.mem_append.mpr (Or.inl h3))
                          · rcases List.mem_cons.mp h3 with h4 | h4
                            · injection h4 with h5
                              exact Or.inl (List.mem_append.mpr (Or.inr (by simp [h5])))
                            · exact Or.inr h4
                        · have hrs : r = s := by simpa using h2
                          subst hrs
                          rw [EdgeB, hsl] at he
                          exact absurd he (by simp)
                      have hphi2 : phiBFS sts qs (reach ++ [s]) ≤ fuel := by
                        have hstep := phi_filter_step sts reach s (JVal.num n0) hv hsr hnodup
                        simp only [phiBFS, List.length_cons] at hphi ⊢
                        omega
                      obtain ⟨rfin, heq, hch⟩ := ih qs (reach ++ [s]) hh' hcl2 hphi2
                      refine ⟨rfin, heq, ?_⟩
                      intro x
                      rw [hch x]
                      constructor
                      · rintro (hx | ⟨hk, u, hu, hr⟩)
                        · rcases List.mem_append.mp hx with hx2 | hx2
                          · exact Or.inl hx2
                          · have hxs : x = s := by simpa using hx2
                            subst hxs
                            exact Or.inr ⟨hsk, x, List.mem_cons_self _ _,
                              Relation.ReflTransGen.refl⟩
                        · exact Or.inr ⟨hk, u, List.mem_cons_of_mem _ hu, hr⟩
                      · rintro (hx | ⟨hk, u, hu, hr⟩)
                        · exact Or.inl (List.mem_append.mpr (Or.inl hx))
                        · rcases List.mem_cons.mp hu with he | hu2
                          · injection he with he2
                            subst he2
                            rcases Relation.ReflTransGen.cases_head hr with he3 | ⟨c, hc, hr2⟩
                            · exact Or.inl (List.mem_append.mpr (Or.inr (by simp [he3])))
                            · rw [EdgeB, hsl] at hc
                              exact absurd hc (by simp)
                          · exact Or.inr ⟨hk, u, hu2, hr⟩
                  | str t =>
                      have hsub : pySubV (JVal.obj sts) (JVal.str s) =
                          Except.ok (JVal.str t) := by
                        simp [pySubV, hv]
                      rw [bfsLoop_visit_other _ _ _ _ _ _ hset hin hsub
                        (fun sd h => JVal.noConfusion h)]
                      have hsl : succListD sts s = [] :=
                        succListD_eq_nil_of_nonobj hv (fun sd h => JVal.noConfusion h)
                      have hcl2 : ∀ r ∈ reach ++ [s], ∀ b, EdgeB sts r b →
                          b ∈ sts.map Prod.fst →
                          b ∈ reach ++ [s] ∨ JVal.str b ∈ qs := by
                        intro r hr b he hb
                        rcases List.mem_append.mp hr with h2 | h2
                        · rcases hcl r h2 b he hb with h3 | h3
                          · exact Or.inl (List.mem_append.mpr (Or.inl h3))
                          · rcases List.mem_cons.mp h3 with h4 | h4
                            · injection h4 with h5
                              exact Or.inl (List.mem_append.mpr (Or.inr (by simp [h5])))
                            · exact Or.inr h4
                        · have hrs : r = s := by simpa using h2
                          subst hrs
                          rw [EdgeB, hsl] at he
                          exact absurd he (by simp)
                      have hphi2 : phiBFS sts qs (reach ++ [s]) ≤ fuel := by
                        have hstep := phi_filter_step sts reach s (JVal.str t) hv hsr hnodup
                        simp only [phiBFS, List.length_cons] at hphi ⊢
                        omega
                      obtain ⟨rfin, heq, hch⟩ := ih qs (reach ++ [s]) hh' hcl2 hphi2
                      refine ⟨rfin, heq, ?_⟩
                      intro x
                      rw [hch x]
                      constructor
                      · rintro (hx | ⟨hk, u, hu, hr⟩)
                        · rcases List.mem_append.mp hx with hx2 | hx2
                          · exact Or.inl hx2
                          · have hxs : x = s := by simpa using hx2
                            subst hxs
                            exact Or.inr ⟨hsk, x, List.mem_cons_self _ _,
                              Relation.ReflTransGen.refl⟩
                        · exact Or.inr ⟨hk, u, List.mem_cons_of_mem _ hu, hr⟩
                      · rintro (hx | ⟨hk, u, hu, hr⟩)
                        · exact Or.inl (List.mem_append.mpr (Or.inl hx))
                        · rcases List.mem_cons.mp hu with he | hu2
                          · injection he with he2
                            subst he2
                            rcases Relation.ReflTransGen.cases_head hr with he3 | ⟨c, hc, hr2⟩
                            · exact Or.inl (List.mem_append.mpr (Or.inr (by simp [he3])))
                            · rw [EdgeB, hsl] at hc
                              exact absurd hc (by simp)
                          · exact Or.inr ⟨hk, u, hu2, hr⟩
                  | arr xs0 =>
                      have hsub : pySubV (JVal.obj sts) (JVal.str s) =
                          Except.ok (JVal.arr xs0) := by
                        simp [pySubV, hv]
                      rw [bfsLoop_visit_other _ _ _ _ _ _ hset hin hsub
                        (fun sd h => JVal.noConfusion h)]
                      have hsl : succListD sts s = [] :=
                        succListD_eq_nil_of_nonobj hv (fun sd h => JVal.noConfusion h)
                      have hcl2 : ∀ r ∈ reach ++ [s], ∀ b, EdgeB sts r b →
                          b ∈ sts.map Prod.fst →
                          b ∈ reach ++ [s] ∨ JVal.str b ∈ qs := by
                        intro r hr b he hb
                        rcases List.mem_append.mp hr with h2 | h2
                        · rcases hcl r h2 b he hb with h3 | h3
                          · exact Or.inl (List.mem_append.mpr (Or.inl h3))
                          · rcases List.mem_cons.mp h3 with h4 | h4
                            · injection h4 with h5
                              exact Or.inl (List.mem_append.mpr (Or.inr (by simp [h5])))
                            · exact Or.inr h4
                        · have hrs : r = s := by simpa using h2
                          subst hrs
                          rw [EdgeB, hsl] at he
                          exact absurd he (by simp)
                      have hphi2 : phiBFS sts qs (reach ++ [s]) ≤ fuel := by
                        have hstep := phi_filter_step sts reach s (JVal.arr xs0) hv hsr hnodup
                        simp only [phiBFS, List.length_cons] at hphi ⊢
                        omega
                      obtain ⟨rfin, heq, hch⟩ := ih qs (reach ++ [s]) hh' hcl2 hphi2
                      refine ⟨rfin, heq, ?_⟩
                      intro x
                      rw [hch x]
                      constructor
                      · rintro (hx | ⟨hk, u, hu, hr⟩)
                        · rcases List.mem_append.mp hx with hx2 | hx2
                          · exact Or.inl hx2
                          · have hxs : x = s := by simpa using hx2
                            subst hxs
                            exact Or.inr ⟨hsk, x, List.mem_cons_self _ _,
                              Relation.ReflTransGen.refl⟩
                        · exact Or.inr ⟨hk, u, List.mem_cons_of_mem _ hu, hr⟩
                      · rintro (hx | ⟨hk, u, hu, hr⟩)
                        · exact Or.inl (List.mem_append.mpr (Or.inl hx))
                        · rcases List.mem_cons.mp hu with he | hu2
                          · injection he with he2
                            subst he2
                            rcases Relation.ReflTransGen.cases_head hr with he3 | ⟨c, hc, hr2⟩
                            · exact Or.inl (List.mem_append.mpr (Or.inr (by simp [he3])))
                            · rw [EdgeB, hsl] at hc
                              exact absurd hc (by simp)
                          · exact Or.inr ⟨hk, u, hu2, hr⟩
                · -- `s` is not a key of `States`: skipped
                  have hin : pyIn (JVal.str s) (JVal.obj sts) = Except.ok false := by
                    simp only [pyIn, hashableB, if_true]
                    rw [any_fst_eq_contains, contains_eq_decide_mem]
                    simp [hsk]
                  rw [bfsLoop_skip _ _ _ _ _ hset hin]
                  have hcl' : ∀ r ∈ reach, ∀ b, EdgeB sts r b → b ∈ sts.map Prod.fst →
                      b ∈ reach ∨ JVal.str b ∈ qs := by
                    intro r hr b he hb
                    rcases hcl r hr b he hb with h | h
                    · exact Or.inl h
                    · rcases List.mem_cons.mp h with h2 | h2
                      · injection h2 with h3
                        exact absurd (h3 ▸ hb) hsk
                      · exact Or.inr h2
                  obtain ⟨rfin, heq, hch⟩ := ih qs reach hh' hcl' hphi1
                  refine ⟨rfin, heq, ?_⟩
                  intro x
                  rw [hch x]
                  constructor
                  · rintro (h | ⟨hk, u, hu, hr⟩)
                    · exact Or.inl h
                    · exact Or.inr ⟨hk, u, List.mem_cons_of_mem _ hu, hr⟩
                  · rintro (h | ⟨hk, u, hu, hr⟩)
                    · exact Or.inl h
                    · rcases List.mem_cons.mp hu with h2 | h2
                      · injection h2 with h3
                        subst h3
                        rcases Relation.ReflTransGen.cases_head hr with he3 | ⟨c, hc, hr2⟩
                        · exact absurd (he3 ▸ hk) hsk
                        · exact absurd (edge_src_key hc) hsk
                      · exact Or.inr ⟨hk, u, h2, hr⟩

theorem phi_init (sts : List (String × JVal)) (q : JVal) :
    phiBFS sts [q] [] = bfsFuel (JVal.obj sts) := by
  simp [phiBFS, bfsFuel, List.contains]

theorem detect_unreachable_closure (fields sts : List (String × JVal)) (start : String)
    (hT : alookup "States" fields = some (JVal.obj sts))
    (hS : alookup "StartAt" fields = some (JVal.str start))
    (hne : sts ≠ []) (hst : start ≠ "")
    (hsafe : ∀ p ∈ sts, stateSafeB p.2 = true)
    (hnodup : (sts.map Prod.fst).Nodup) :
    ∃ reach : List String,
      detect_unreachable_states (JVal.obj fields) =
        Except.ok (((sts.map Prod.fst).filter (fun k => !(reach.contains k))).map
          unreachMsg) ∧
      (∀ x, x ∈ reach ↔ (x ∈ sts.map Prod.fst ∧
        Relation.ReflTransGen (EdgeB sts) start x)) ∧
      (∀ k ∈ sts.map Prod.fst, ¬ Relation.ReflTransGen (EdgeB sts) start k →
        (((sts.map Prod.fst).filter (fun j => !(reach.contains j))).map
          unreachMsg).count (unreachMsg k) = 1) ∧
      (∀ k, Relation.ReflTransGen (EdgeB sts) start k →
        unreachMsg k ∉ ((sts.map Prod.fst).filter (fun j => !(reach.contains j))).map
          unreachMsg) := by
  obtain ⟨rfin, hbfs, hch⟩ := bfsLoop_closure sts hsafe hnodup (bfsFuel (JVal.obj sts))
      [JVal.str start] []
      (by
        intro q hq
        rcases List.mem_cons.mp hq with h | h
        · rw [h]; rfl
        · simp at h)
      (by intro r hr; simp at hr)
      (le_of_eq (phi_init sts _))
  have hchs : ∀ x, x ∈ rfin ↔ (x ∈ sts.map Prod.fst ∧
      Relation.ReflTransGen (EdgeB sts) start x) := by
    intro x
    rw [hch x]
    simp
  refine ⟨rfin, ?_, hchs, ?_, ?_⟩
  · have hget1 : pyGet (JVal.obj fields) "States" (JVal.obj []) =
        Except.ok (JVal.obj sts) := by
      simp [pyGet, hT]
    have hget2 : pyGet (JVal.obj fields) "StartAt" JVal.null =
        Except.ok (JVal.str start) := by
      simp [pyGet, hS]
    have htr : pyTruthy (JVal.obj sts) = true := by
      simp [pyTruthy, List.isEmpty_iff, hne]
    have hstt : pyTruthy (JVal.str start) = true := by
      simp [pyTruthy, hst]
    rw [detect_unreachable_states]
    simp only [hget1, hget2, htr, hstt, Bool.not_true, Bool.or_self,
               Bool.false_eq_true, bind, Except.bind, reduceIte, hbfs,
               pyKeys, pure, Except.pure]
    rfl
  · intro k hk hnr
    have hkf : k ∈ (sts.map Prod.fst).filter (fun j => !(rfin.contains j)) := by
      rw [List.mem_filter]
      refine ⟨hk, ?_⟩
      rw [contains_eq_decide_mem]
      simp only [Bool.not_eq_true', decide_eq_false_iff_not]
      exact fun hm => hnr ((hchs k).mp hm).2
    rw [count_map_inj _ _ _ unreachMsg_inj]
    exact List.count_eq_one_of_mem (hnodup.filter _) hkf
  · intro k hr hmem
    obtain ⟨j, hjf, hje⟩ := List.mem_map.mp hmem
    have hjk : j = k := unreachMsg_inj _ _ hje
    subst hjk
    obtain ⟨hjkeys, hjc⟩ := List.mem_filter.mp hjf
    rw [contains_eq_decide_mem] at hjc
    simp only [Bool.not_eq_true', decide_eq_false_iff_not] at hjc
    exact hjc ((hchs j).mpr ⟨hjkeys, hr⟩)

theorem detect_skip_no_startat (fields : List (String × JVal))
    (h : alookup "StartAt" fields = none) :
    detect_unreachable_states (JVal.obj fields) = Except.ok [] := by
  rw [detect_unreachable_states]
  have h0 : pyGet (JVal.obj fields) "StartAt" JVal.null = Except.ok JVal.null := by
    simp [pyGet, h]
  have h1 : pyGet (JVal.obj fields) "States" (JVal.obj []) =
      Except.ok ((alookup "States" fields).getD (JVal.obj [])) := by
    simp [pyGet]
  have h2 : pyTruthy JVal.null = false := rfl
  simp only [h0, h1, h2, bind, Except.bind, Bool.not_false, Bool.or_true,
             if_true, pure, Except.pure]

theorem detect_skip_no_states (fields : List (String × JVal))
    (h : alookup "States" fields = none) :
    detect_unreachable_states (JVal.obj fields) = Except.ok [] := by
  rw [detect_unreachable_states]
  have h1 : pyGet (JVal.obj fields) "States" (JVal.obj []) =
      Except.ok (JVal.obj []) := by
    simp [pyGet, h]
  have h0 : pyGet (JVal.obj fields) "StartAt" JVal.null =
      Except.ok ((alookup "StartAt" fields).getD JVal.null) := by
    simp [pyGet]
  have h2 : pyTruthy (JVal.obj []) = false := rfl
  simp only [h1, h0, h2, bind, Except.bind, Bool.not_false, Bool.true_or,
             if_true, pure, Except.pure]

theorem c3_example_detect :
    detect_unreachable_states
        (JVal.obj [("StartAt", JVal.str "A"),
          ("States", JVal.obj
            [("A", JVal.obj [("Type", JVal.str "Pass"), ("Next", JVal.str "B"),
                             ("End", JVal.bool false)]),
             ("B", JVal.obj [("Type", JVal.str "Succeed")]),
             ("C", JVal.obj [("Type", JVal.str "Succeed")])])]) =
      Except.ok [unreachMsg "C"] := by
  rfl

theorem c3_example_valid :
    validateDoc
        (JVal.obj [("StartAt", JVal.str "A"),
          ("States", JVal.obj
            [("A", JVal.obj [("Type", JVal.str "Pass"), ("Next", JVal.str "B"),
                             ("End", JVal.bool false)]),
             ("B", JVal.obj [("Type", JVal.str "Succeed")]),
             ("C", JVal.obj [("Type", JVal.str "Succeed")])])]) =
      Except.ok (⟨[], [unreachMsg "C"], []⟩, true) := by
  rfl

/-- C3 counterexample.  The claim fails for a present but falsy `StartAt`:
with `StartAt` the empty string (present) and a non-empty `States`, the stage
returns no warnings at all although no state is visited, because the guard
tests `not start_at` (Python truthiness), not presence. -/
theorem unreachable_present_empty_startat_counterexample :
    detect_unreachable_states
        (JVal.obj [("StartAt", JVal.str ""),
          ("States", JVal.obj [("A", JVal.obj [("Type", JVal.str "Succeed")])])]) =
      Except.ok [] ∧
    alookup "StartAt" [("StartAt", JVal.str ""),
        ("States", JVal.obj [("A", JVal.obj [("Type", JVal.str "Succeed")])])] =
      some (JVal.str "") ∧
    [("A", JVal.obj [("Type", JVal.str "Succeed")])] ≠ [] :=
  ⟨rfl, rfl, by simp⟩

/-- C3 (amended).  When `States` is a non-empty mapping and `StartAt` is a
non-empty string, `_detect_unreachable_states` runs its breadth-first
work-list traversal from `StartAt` over the `Next`, `Choices[i].Next`,
`Default` and `Catch[i].Next` edges; for definitions with distinct state
names whose successor collections succeed with hashable successors, the
visited set equals the declarative reachability closure of that edge
relation, each unreached state key is warned exactly once, and no reachable
key is warned — so the warning set is independent of traversal order.  The
stage is skipped when `States` or `StartAt` is absent (or, more generally,
falsy).  On the three-state example, exactly `C` is warned unreachable and
the overall result is valid. -/
theorem unreachable_stage_bfs_closure :
    (∀ fields : List (String × JVal), alookup "StartAt" fields = none →
        detect_unreachable_states (JVal.obj fields) = Except.ok []) ∧
    (∀ fields : List (String × JVal), alookup "States" fields = none →
        detect_unreachable_states (JVal.obj fields) = Except.ok []) ∧
    (∀ (fields sts : List (String × JVal)) (start : String),
      alookup "States" fields = some (JVal.obj sts) →
      alookup "StartAt" fields = some (JVal.str start) →
      sts ≠ [] → start ≠ "" →
      (∀ p ∈ sts, stateSafeB p.2 = true) →
      (sts.map Prod.fst).Nodup →
      ∃ reach : List String,
        detect_unreachable_states (JVal.obj fields) =
          Except.ok (((sts.map Prod.fst).filter (fun k => !(reach.contains k))).map
            unreachMsg) ∧
        (∀ x, x ∈ reach ↔ (x ∈ sts.map Prod.fst ∧
          Relation.ReflTransGen (EdgeB sts) start x)) ∧
        (∀ k ∈ sts.map Prod.fst, ¬ Relation.ReflTransGen (EdgeB sts) start k →
          (((sts.map Prod.fst).filter (fun j => !(reach.contains j))).map
            unreachMsg).count (unreachMsg k) = 1) ∧
        (∀ k, Relation.ReflTransGen (EdgeB sts) start k →
          unreachMsg k ∉ ((sts.map Prod.fst).filter (fun j => !(reach.contains j))).map
            unreachMsg)) ∧
    (detect_unreachable_states
        (JVal.obj [("StartAt", JVal.str "A"),
          ("States", JVal.obj
            [("A", JVal.obj [("Type", JVal.str "Pass"), ("Next", JVal.str "B"),
                             ("End", JVal.bool false)]),
             ("B", JVal.obj [("Type", JVal.str "Succeed")]),
             ("C", JVal.obj [("Type", JVal.str "Succeed")])])]) =
      Except.ok [unreachMsg "C"] ∧
     validateDoc
        (JVal.obj [("StartAt", JVal.str "A"),
          ("States", JVal.obj
            [("A", JVal.obj [("Type", JVal.str "Pass"), ("Next", JVal.str "B"),
                             ("End", JVal.bool false)]),
             ("B", JVal.obj [("Type", JVal.str "Succeed")]),
             ("C", JVal.obj [("Type", JVal.str "Succeed")])])]) =
      Except.ok (⟨[], [unreachMsg "C"], []⟩, true)) :=
  ⟨detect_skip_no_startat, detect_skip_no_states,
   fun fields sts start hT hS hne hst hsafe hnodup =>
     detect_unreachable_closure fields sts start hT hS hne hst hsafe hnodup,
   c3_example_detect, c3_example_valid⟩

/-- Witness for C3's amended theorem at a concrete definition. -/
theorem unreachable_stage_bfs_closure_witness :
    ∃ reach : List String,
      detect_unreachable_states
          (JVal.obj [("StartAt", JVal.str "A"),
            ("States", JVal.obj [("A", JVal.obj [("Type", JVal.str "Succeed")]),
                                 ("B", JVal.obj [("Type", JVal.str "Succeed")])])]) =
        Except.ok ((([("A", JVal.obj [("Type", JVal.str "Succeed")]),
            ("B", JVal.obj [("Type", JVal.str "Succeed")])].map Prod.fst).filter
              (fun k => !(reach.contains k))).map unreachMsg) ∧
      (∀ x, x ∈ reach ↔ (x ∈ [("A", JVal.obj [("Type", JVal.str "Succeed")]),
            ("B", JVal.obj [("Type", JVal.str "Succeed")])].map Prod.fst ∧
        Relation.ReflTransGen
          (EdgeB [("A", JVal.obj [("Type", JVal.str "Succeed")]),
                  ("B", JVal.obj [("Type", JVal.str "Succeed")])]) "A" x)) ∧
      (∀ k ∈ [("A", JVal.obj [("Type", JVal.str "Succeed")]),
              ("B", JVal.obj [("Type", JVal.str "Succeed")])].map Prod.fst,
        ¬ Relation.ReflTransGen
            (EdgeB [("A", JVal.obj [("Type", JVal.str "Succeed")]),
                    ("B", JVal.obj [("Type", JVal.str "Succeed")])]) "A" k →
        ((([("A", JVal.obj [("Type", JVal.str "Succeed")]),
            ("B", JVal.obj [("Type", JVal.str "Succeed")])].map Prod.fst).filter
              (fun j => !(reach.contains j))).map unreachMsg).count (unreachMsg k) = 1) ∧
      (∀ k, Relation.ReflTransGen
            (EdgeB [("A", JVal.obj [("Type", JVal.str "Succeed")]),
                    ("B", JVal.obj [("Type", JVal.str "Succeed")])]) "A" k →
        unreachMsg k ∉ ((([("A", JVal.obj [("Type", JVal.str "Succeed")]),
            ("B", JVal.obj [("Type", JVal.str "Succeed")])].map Prod.fst).filter
              (fun j => !(reach.contains j))).map unreachMsg)) :=
  unreachable_stage_bfs_closure.2.2.1
    [("StartAt", JVal.str "A"),
     ("States", JVal.obj [("A", JVal.obj [("Type", JVal.str "Succeed")]),
                          ("B", JVal.obj [("Type", JVal.str "Succeed")])])]
    [("A", JVal.obj [("Type", JVal.str "Succeed")]),
     ("B", JVal.obj [("Type", JVal.str "Succeed")])]
    "A" rfl rfl (by simp) (by decide) (by decide) (by decide)



/-! ## Totality of the post-parse stages on shape-safe documents -/

/-- Values Python's `x in v` accepts as the container with a string probe:
dicts, lists and strings; numbers, booleans and `None` raise `TypeError`. -/
def canInB (v : JVal) : Bool :=
  match v with
  | .obj _ => true
  | .arr _ => true
  | .str _ => true
  | _ => false

/-- One element of a `Choices`/`Catch` iteration is processed by every loop
over it without fault: the `"Next" in elem` test must be legal, and whenever
that test succeeds the element must be a dict (so `elem["Next"]` subscripts)
whose `Next` value is hashable (it is probed against the `valid_states` and
`reachable` sets). -/
def refElemSafeB (c : JVal) : Bool :=
  match c with
  | .obj cd =>
      (match alookup "Next" cd with
       | some nx => hashableB nx
       | none => true)
  | .arr xs => !(xs.any (fun v => pyEq (.str "Next") v))
  | .str s => !(strIn "Next" s)
  | _ => false

/-- An optional `Choices`/`Catch` value (`state_def.get(k, [])`) that is
iterable and all of whose iterated elements are safe. -/
def iterElemsSafeB (o : Option JVal) : Bool :=
  match o with
  | none => true
  | some v =>
      match pyIterList v with
      | .ok elems => elems.all refElemSafeB
      | .error _ => false

/-- One state value every stage processes without fault. -/
def stateTotalSafeB (v : JVal) : Bool :=
  match v with
  | .obj sd =>
      hashableB ((alookup "Type" sd).getD (.str "")) &&
      (match alookup "Next" sd with | some nx => hashableB nx | none => true) &&
      (if isStrEq (alookup "Type" sd) "Choice" then
         iterElemsSafeB (alookup "Choices" sd) &&
         (match alookup "Default" sd with | some d => hashableB d | none => true)
       else true) &&
      iterElemsSafeB (alookup "Catch" sd) &&
      (match alookup "Branches" sd with | some b => canInB b | none => true) &&
      (match alookup "Credentials" sd with | some c => canInB c | none => true)
  | _ => true

/-- A parsed document every post-parse stage processes to completion: the
root is a dict, `States` (when present) is a dict of safe states, and
`StartAt` (when present) is hashable. -/
def docTotalSafeB (doc : JVal) : Bool :=
  match doc with
  | .obj fields =>
      (match alookup "StartAt" fields with
       | some sv => hashableB sv
       | none => true) &&
      (match alookup "States" fields with
       | some (.obj sts) => sts.all (fun p => stateTotalSafeB p.2)
       | some _ => false
       | none => true)
  | _ => false

theorem pySetIn_ok_of_hashable (x : JVal) (l : List String) (h : hashableB x = true) :
    ∃ b, pySetIn x l = Except.ok b := by
  cases x
  case arr xs => simp [hashableB] at h
  case obj fs => simp [hashableB] at h
  all_goals exact ⟨_, rfl⟩

theorem pyIn_probe_ok (p : String) (v : JVal) (h : canInB v = true) :
    ∃ b, pyIn (JVal.str p) v = Except.ok b := by
  cases v with
  | obj fs => exact ⟨_, rfl⟩
  | arr xs => exact ⟨_, rfl⟩
  | str s => exact ⟨_, rfl⟩
  | null => simp [canInB] at h
  | bool b => simp [canInB] at h
  | num n => simp [canInB] at h

theorem pyIn_obj_ok_of_hashable (x : JVal) (fs : List (String × JVal))
    (h : hashableB x = true) :
    ∃ b, pyIn x (JVal.obj fs) = Except.ok b := by
  cases x
  case arr xs => simp [hashableB] at h
  case obj fs2 => simp [hashableB] at h
  all_goals exact ⟨_, rfl⟩

theorem iterElemsSafe_some (v : JVal) (h : iterElemsSafeB (some v) = true) :
    ∃ elems, pyIterList v = Except.ok elems ∧ elems.all refElemSafeB = true := by
  rw [iterElemsSafeB] at h
  cases hi : pyIterList v with
  | error e => rw [hi] at h; simp at h
  | ok elems =>
      rw [hi] at h
      simp only [] at h
      exact ⟨elems, rfl, h⟩

theorem iterElemsSafe_getD (o : Option JVal) (h : iterElemsSafeB o = true) :
    ∃ elems, pyIterList (o.getD (JVal.arr [])) = Except.ok elems ∧
      elems.all refElemSafeB = true := by
  cases o with
  | none => exact ⟨[], rfl, rfl⟩
  | some v => exact iterElemsSafe_some v h

theorem collectNexts_total (cs : List JVal) (hcs : cs.all refElemSafeB = true) :
    ∃ ns, collectNexts cs = Except.ok ns ∧ ns.all hashableB = true := by
  induction cs with
  | nil => exact ⟨[], rfl, rfl⟩
  | cons c rest ih =>
      simp only [List.all_cons, Bool.and_eq_true] at hcs
      obtain ⟨hc, hrest⟩ := hcs
      obtain ⟨tl, htl, htlh⟩ := ih hrest
      rw [collectNexts]
      simp only [bind, Except.bind]
      cases c with
      | obj cd =>
          have hpi : pyIn (JVal.str "Next") (JVal.obj cd) =
              Except.ok (cd.any (fun p => p.1 == "Next")) := rfl
          rw [hpi]
          simp only []
          cases hany : cd.any (fun p => p.1 == "Next") with
          | false =>
              simp only [Bool.false_eq_true, if_false, pure, Except.pure, htl]
              exact ⟨tl, rfl, htlh⟩
          | true =>
              have hsome : (alookup "Next" cd).isSome := by
                rw [← alookup_isSome_any]
                exact hany
              obtain ⟨nx, hnx⟩ := Option.isSome_iff_exists.mp hsome
              have hps : pySub (JVal.obj cd) "Next" = Except.ok nx := by
                rw [pySub, hnx]
              simp only [if_true, bind, Except.bind, hps, pure, Except.pure, htl]
              refine ⟨nx :: tl, rfl, ?_⟩
              rw [refElemSafeB, hnx] at hc
              simp only [List.all_cons, Bool.and_eq_true]
              exact ⟨hc, htlh⟩
      | arr xs =>
          have hpi : pyIn (JVal.str "Next") (JVal.arr xs) =
              Except.ok (xs.any (fun v => pyEq (JVal.str "Next") v)) := rfl
          rw [hpi]
          simp only []
          rw [refElemSafeB] at hc
          simp only [Bool.not_eq_true'] at hc
          rw [hc]
          simp only [Bool.false_eq_true, if_false, pure, Except.pure, htl]
          exact ⟨tl, rfl, htlh⟩
      | str s =>
          have hpi : pyIn (JVal.str "Next") (JVal.str s) =
              Except.ok (strIn "Next" s) := rfl
          rw [hpi]
          simp only []
          rw [refElemSafeB] at hc
          simp only [Bool.not_eq_true'] at hc
          rw [hc]
          simp only [Bool.false_eq_true, if_false, pure, Except.pure, htl]
          exact ⟨tl, rfl, htlh⟩
      | null => simp [refElemSafeB] at hc
      | bool b => simp [refElemSafeB] at hc
      | num n => simp [refElemSafeB] at hc

theorem succsOfState_total (sd : List (String × JVal))
    (h : stateTotalSafeB (JVal.obj sd) = true) :
    ∃ ns, succsOfState sd = Except.ok ns ∧ ns.all hashableB = true := by
  rw [stateTotalSafeB] at h
  simp only [Bool.and_eq_true] at h
  obtain ⟨⟨⟨⟨⟨hty, hnx⟩, hcho⟩, hcat⟩, hbr⟩, hcred⟩ := h
  obtain ⟨catches, hcat1, hcat2⟩ := iterElemsSafe_getD _ hcat
  obtain ⟨n3, hn3, hn3h⟩ := collectNexts_total catches hcat2
  have hbr2 : ∃ brs, pyIterList ((alookup "Branches" sd).getD (JVal.arr [])) =
      Except.ok brs := by
    cases hb : alookup "Branches" sd with
    | none => exact ⟨[], rfl⟩
    | some b =>
        rw [hb] at hbr
        simp only [Option.getD]
        cases b with
        | arr xs => exact ⟨_, rfl⟩
        | obj fs => exact ⟨_, rfl⟩
        | str s => exact ⟨_, rfl⟩
        | null => simp [canInB] at hbr
        | bool b2 => simp [canInB] at hbr
        | num n2 => simp [canInB] at hbr
  obtain ⟨brs, hbrs⟩ := hbr2
  have hn1 : (match alookup "Next" sd with
      | some nx => [nx] | none => ([] : List JVal)).all hashableB = true := by
    cases hx : alookup "Next" sd with
    | none => rfl
    | some nx =>
        rw [hx] at hnx
        simp only [] at hnx
        simp [hnx]
  rw [succsOfState]
  simp only [bind, Except.bind]
  cases hch : isStrEq (alookup "Type" sd) "Choice" with
  | true =>
      rw [hch] at hcho
      simp only [reduceIte] at hcho ⊢
      simp only [Bool.and_eq_true] at hcho
      obtain ⟨hchoices, hdef⟩ := hcho
      obtain ⟨choices, hch1, hch2⟩ := iterElemsSafe_getD _ hchoices
      obtain ⟨cn, hcn, hcnh⟩ := collectNexts_total choices hch2
      have hdn : (match alookup "Default" sd with
          | some d => [d] | none => ([] : List JVal)).all hashableB = true := by
        cases hx : alookup "Default" sd with
        | none => rfl
        | some d =>
            rw [hx] at hdef
            simp only [] at hdef
            simp [hdef]
      rw [hch1]
      simp only []
      rw [hcn]
      simp only [pure, Except.pure]
      rw [hcat1]
      simp only []
      rw [hn3]
      simp only []
      rw [hbrs]
      simp only []
      refine ⟨_, rfl, ?_⟩
      simp only [List.all_append, Bool.and_eq_true]
      exact ⟨⟨hn1, hcnh, hdn⟩, hn3h⟩
  | false =>
      simp only [Bool.false_eq_true, reduceIte, pure, Except.pure]
      rw [hcat1]
      simp only []
      rw [hn3]
      simp only []
      rw [hbrs]
      simp only []
      refine ⟨_, rfl, ?_⟩
      simp only [List.all_append, Bool.and_eq_true]
      exact ⟨⟨hn1, rfl⟩, hn3h⟩

theorem stateTotalSafe_implies_bfs_safe (v : JVal)
    (h : stateTotalSafeB v = true) : stateSafeB v = true := by
  cases v with
  | obj sd =>
      obtain ⟨ns, hns, hnsh⟩ := succsOfState_total sd h
      rw [stateSafeB, hns]
      simp only []
      exact hnsh
  | null => rfl
  | bool b => rfl
  | num n => rfl
  | str s => rfl
  | arr xs => rfl

theorem bfsLoop_total (sts : List (String × JVal))
    (hsafe : ∀ p ∈ sts, stateSafeB p.2 = true) :
    ∀ (fuel : Nat) (queue : List JVal) (reach : List String),
      (∀ q ∈ queue, hashableB q = true) →
      ∃ r, bfsLoop (JVal.obj sts) fuel queue reach = Except.ok r := by
  intro fuel
  induction fuel with
  | zero =>
      intro queue reach hh
      cases queue with
      | nil => exact ⟨reach, rfl⟩
      | cons a as => exact ⟨reach, rfl⟩
  | succ fuel ih =>
      intro queue reach hh
      cases queue with
      | nil => exact ⟨reach, rfl⟩
      | cons cur qs =>
          have hhc : hashableB cur = true := hh cur (List.mem_cons_self _ _)
          have hh' : ∀ q ∈ qs, hashableB q = true :=
            fun q hq => hh q (List.mem_cons_of_mem _ hq)
          cases cur with
          | arr xs => simp [hashableB] at hhc
          | obj fs => simp [hashableB] at hhc
          | null =>
              rw [bfsLoop_skip _ _ _ _ _ (by simp [pySetIn, hashableB])
                    (by simp [pyIn, hashableB])]
              exact ih qs reach hh'
          | bool b0 =>
              rw [bfsLoop_skip _ _ _ _ _ (by simp [pySetIn, hashableB])
                    (by simp [pyIn, hashableB])]
              exact ih qs reach hh'
          | num n0 =>
              rw [bfsLoop_skip _ _ _ _ _ (by simp [pySetIn, hashableB])
                    (by simp [pyIn, hashableB])]
              exact ih qs reach hh'
          | str s =>
              by_cases hsr : s ∈ reach
              · rw [bfsLoop_skip_inreach _ _ _ _ _
                      (by simp [pySetIn, hashableB, contains_eq_decide_mem, hsr])]
                exact ih qs reach hh'
              · have hset : pySetIn (JVal.str s) reach = Except.ok false := by
                  simp [pySetIn, hashableB, contains_eq_decide_mem, hsr]
                by_cases hsk : s ∈ sts.map Prod.fst
                · have hin : pyIn (JVal.str s) (JVal.obj sts) = Except.ok true := by
                    simp only [pyIn, hashableB, if_true]
                    rw [any_fst_eq_contains, contains_eq_decide_mem]
                    simp [hsk]
                  obtain ⟨v, hv⟩ := mem_keys_alookup hsk
                  have hsafe_v : stateSafeB v = true := hsafe (s, v) (alookup_mem_pair hv)
                  cases v with
                  | obj sd =>
                      obtain ⟨ns, hns, hnsh⟩ : ∃ ns, succsOfState sd = Except.ok ns ∧
                          ns.all hashableB = true := by
                        revert hsafe_v
                        rw [stateSafeB]
                        cases hsc : succsOfState sd with
                        | error e => simp
                        | ok ms => exact fun h2 => ⟨ms, rfl, h2⟩
                      rw [bfsLoop_visit_obj _ _ _ _ _ _ _ hset hin
                            (by simp [pySubV, hv]) hns]
                      apply ih
                      intro q hq
                      rcases List.mem_append.mp hq with h2 | h2
                      · exact hh' q h2
                      · exact List.all_eq_true.mp hnsh q h2
                  | null =>
                      rw [bfsLoop_visit_other _ _ _ _ _ JVal.null hset hin
                            (by simp [pySubV, hv]) (fun sd2 h2 => JVal.noConfusion h2)]
                      exact ih qs (reach ++ [s]) hh'
                  | bool b0 =>
                      rw [bfsLoop_visit_other _ _ _ _ _ (JVal.bool b0) hset hin
                            (by simp [pySubV, hv]) (fun sd2 h2 => JVal.noConfusion h2)]
                      exact ih qs (reach ++ [s]) hh'
                  | num n0 =>
                      rw [bfsLoop_visit_other _ _ _ _ _ (JVal.num n0) hset hin
                            (by simp [pySubV, hv]) (fun sd2 h2 => JVal.noConfusion h2)]
                      exact ih qs (reach ++ [s]) hh'
                  | str t =>
                      rw [bfsLoop_visit_other _ _ _ _ _ (JVal.str t) hset hin
                            (by simp [pySubV, hv]) (fun sd2 h2 => JVal.noConfusion h2)]
                      exact ih qs (reach ++ [s]) hh'
                  | arr xs0 =>
                      rw [bfsLoop_visit_other _ _ _ _ _ (JVal.arr xs0) hset hin
                            (by simp [pySubV, hv]) (fun sd2 h2 => JVal.noConfusion h2)]
                      exact ih qs (reach ++ [s]) hh'
                · have hin : pyIn (JVal.str s) (JVal.obj sts) = Except.ok false := by
                    simp only [pyIn, hashableB, if_true]
                    rw [any_fst_eq_contains, contains_eq_decide_mem]
                    simp [hsk]
                  rw [bfsLoop_skip _ _ _ _ _ hset hin]
                  exact ih qs reach hh'

theorem refElemSafe_canIn (c : JVal) (h : refElemSafeB c = true) : canInB c = true := by
  cases c with
  | obj cd => rfl
  | arr xs => rfl
  | str s => rfl
  | null => simp [refElemSafeB] at h
  | bool b => simp [refElemSafeB] at h
  | num n => simp [refElemSafeB] at h

theorem pySub_ok_of_any (fields : List (String × JVal)) (k : String)
    (h : fields.any (fun p => p.1 == k) = true) :
    ∃ v, pySub (JVal.obj fields) k = Except.ok v ∧ alookup k fields = some v := by
  rw [alookup_isSome_any] at h
  obtain ⟨v, hv⟩ := Option.isSome_iff_exists.mp h
  exact ⟨v, by rw [pySub, hv], hv⟩

theorem validate_required_fields_ok (fields : List (String × JVal)) :
    ∃ r, validate_required_fields (JVal.obj fields) = Except.ok r := by
  rw [validate_required_fields]
  simp only [bind, Except.bind]
  have h1 : pyIn (JVal.str "StartAt") (JVal.obj fields) =
      Except.ok (fields.any (fun p => p.1 == "StartAt")) := rfl
  rw [h1]
  simp only []
  have h2 : pyIn (JVal.str "States") (JVal.obj fields) =
      Except.ok (fields.any (fun p => p.1 == "States")) := rfl
  rw [h2]
  simp only []
  cases hst : fields.any (fun p => p.1 == "States") with
  | false =>
      simp only [Bool.not_false, reduceIte, pure, Except.pure]
      exact ⟨_, rfl⟩
  | true =>
      simp only [Bool.not_true, Bool.false_eq_true, reduceIte]
      obtain ⟨v, hv, -⟩ := pySub_ok_of_any fields "States" hst
      rw [hv]
      simp only []
      cases v with
      | obj fs =>
          simp only []
          cases hemp : fs.isEmpty with
          | true => exact ⟨_, rfl⟩
          | false => exact ⟨_, rfl⟩
      | null => exact ⟨_, rfl⟩
      | bool b => exact ⟨_, rfl⟩
      | num n => exact ⟨_, rfl⟩
      | str s => exact ⟨_, rfl⟩
      | arr xs => exact ⟨_, rfl⟩

theorem validate_start_at_ok (fields : List (String × JVal))
    (h : docTotalSafeB (JVal.obj fields) = true) :
    ∃ r, validate_start_at (JVal.obj fields) = Except.ok r := by
  rw [docTotalSafeB] at h
  simp only [Bool.and_eq_true] at h
  obtain ⟨hsa, hsts⟩ := h
  rw [validate_start_at]
  simp only [bind, Except.bind]
  have h1 : pyIn (JVal.str "StartAt") (JVal.obj fields) =
      Except.ok (fields.any (fun p => p.1 == "StartAt")) := rfl
  rw [h1]
  simp only []
  cases hst1 : fields.any (fun p => p.1 == "StartAt") with
  | false =>
      simp only [Bool.not_false, reduceIte, pure, Except.pure]
      exact ⟨_, rfl⟩
  | true =>
      simp only [Bool.not_true, Bool.false_eq_true, reduceIte]
      have h2 : pyIn (JVal.str "States") (JVal.obj fields) =
          Except.ok (fields.any (fun p => p.1 == "States")) := rfl
      rw [h2]
      simp only []
      cases hst2 : fields.any (fun p => p.1 == "States") with
      | false =>
          simp only [Bool.not_false, reduceIte, pure, Except.pure]
          exact ⟨_, rfl⟩
      | true =>
          simp only [Bool.not_true, Bool.false_eq_true, reduceIte]
          obtain ⟨sv, hsv, hsv2⟩ := pySub_ok_of_any fields "StartAt" hst1
          rw [hsv]
          simp only []
          have hsa2 : hashableB sv = true := by
            rw [hsv2] at hsa
            simpa using hsa
          rw [alookup_isSome_any] at hst2
          obtain ⟨w, hw⟩ := Option.isSome_iff_exists.mp hst2
          have h3 : pyGet (JVal.obj fields) "States" (JVal.obj []) =
              Except.ok w := by
            rw [pyGet, hw]
            rfl
          rw [h3]
          simp only []
          rw [hw] at hsts
          cases w with
          | obj sts =>
              obtain ⟨b, hb⟩ := pyIn_obj_ok_of_hashable sv sts hsa2
              rw [hb]
              simp only []
              cases b with
              | true => exact ⟨_, rfl⟩
              | false => exact ⟨_, rfl⟩
          | null => simp at hsts
          | bool b2 => simp at hsts
          | num n2 => simp at hsts
          | str s2 => simp at hsts
          | arr xs2 => simp at hsts

theorem ite_ok_ok {A : Type} {e1 e2 : Except PyErr A} (c : Prop) [Decidable c]
    (h1 : ∃ r, e1 = Except.ok r) (h2 : ∃ r, e2 = Except.ok r) :
    ∃ r, (if c then e1 else e2) = Except.ok r := by
  by_cases hc : c
  · rw [if_pos hc]; exact h1
  · rw [if_neg hc]; exact h2

theorem bind_ok {A B : Type} {e : Except PyErr A} {f : A → Except PyErr B}
    (he : ∃ a, e = Except.ok a) (hf : ∀ a, ∃ b, f a = Except.ok b) :
    ∃ b, (e >>= f) = Except.ok b := by
  obtain ⟨a, ha⟩ := he
  obtain ⟨b, hb⟩ := hf a
  refine ⟨b, ?_⟩
  simp only [bind, Except.bind]
  rw [ha]
  simp only []
  exact hb

theorem choiceNextFieldErrs_ok (name : String) :
    ∀ (cs : List JVal) (i : Nat), cs.all refElemSafeB = true →
    ∃ r, choiceNextFieldErrs name cs i = Except.ok r := by
  intro cs
  induction cs with
  | nil => exact fun i h => ⟨[], rfl⟩
  | cons c rest ih =>
      intro i h
      simp only [List.all_cons, Bool.and_eq_true] at h
      obtain ⟨hc, hrest⟩ := h
      obtain ⟨tl, htl⟩ := ih (i + 1) hrest
      rw [choiceNextFieldErrs]
      simp only [bind, Except.bind]
      obtain ⟨b, hb⟩ := pyIn_probe_ok "Next" c (refElemSafe_canIn c hc)
      rw [hb]
      simp only []
      rw [htl]
      simp only []
      exact ⟨_, rfl⟩

theorem validate_choice_state_ok (name : String) (sd : List (String × JVal))
    (h : iterElemsSafeB (alookup "Choices" sd) = true) :
    ∃ r, validate_choice_state name sd = Except.ok r := by
  rw [validate_choice_state]
  cases hch : alookup "Choices" sd with
  | none => exact ⟨_, rfl⟩
  | some choices =>
      rw [hch] at h
      cases choices with
      | arr cs =>
          have hcs : cs.all refElemSafeB = true := by
            obtain ⟨elems, he1, he2⟩ := iterElemsSafe_some _ h
            have h2b : pyIterList (JVal.arr cs) = Except.ok cs := rfl
            rw [h2b] at he1
            have h3 : cs = elems := (Except.ok.injEq _ _).mp he1
            rw [h3]
            exact he2
          simp only [bind, Except.bind]
          obtain ⟨ne, hne⟩ := choiceNextFieldErrs_ok name cs 0 hcs
          rw [hne]
          simp only []
          exact ⟨_, rfl⟩
      | obj fs => exact ⟨_, rfl⟩
      | str s => exact ⟨_, rfl⟩
      | null => exact ⟨_, rfl⟩
      | bool b => exact ⟨_, rfl⟩
      | num n => exact ⟨_, rfl⟩

theorem validate_one_state_ok (name : String) (v : JVal)
    (h : stateTotalSafeB v = true) :
    ∃ r, validate_one_state name v = Except.ok r := by
  cases v with
  | null => exact ⟨_, rfl⟩
  | bool b => exact ⟨_, rfl⟩
  | num n => exact ⟨_, rfl⟩
  | str s => exact ⟨_, rfl⟩
  | arr xs => exact ⟨_, rfl⟩
  | obj sd =>
      rw [stateTotalSafeB] at h
      simp only [Bool.and_eq_true] at h
      obtain ⟨⟨⟨⟨⟨hty, hnx⟩, hcho⟩, hcat⟩, hbr⟩, hcred⟩ := h
      rw [validate_one_state]
      cases halT : alookup "Type" sd with
      | none =>
          simp only [Option.getD]
          exact ⟨_, rfl⟩
      | some tv =>
          rw [halT] at hty
          have hty2 : hashableB tv = true := by simpa using hty
          simp only [Option.getD]
          cases htr : pyTruthy tv with
          | false =>
              simp only [htr, Bool.not_false, reduceIte]
              exact ⟨_, rfl⟩
          | true =>
              simp only [htr, Bool.not_true, Bool.false_eq_true, reduceIte,
                         bind, Except.bind]
              cases tv with
              | arr xs => simp [hashableB] at hty2
              | obj fs => simp [hashableB] at hty2
              | null => exact ⟨_, rfl⟩
              | bool b => exact ⟨_, rfl⟩
              | num n => exact ⟨_, rfl⟩
              | str s =>
                  have h4 : typeInValid (JVal.str s) =
                      Except.ok (if VALID_STATE_TYPES.contains s then some s
                                 else none) := rfl
                  rw [h4]
                  simp only []
                  cases hcont : VALID_STATE_TYPES.contains s with
                  | false =>
                      simp only [hcont, Bool.false_eq_true, reduceIte]
                      exact ⟨_, rfl⟩
                  | true =>
                      simp only [hcont, reduceIte]
                      cases hsc : s == "Choice" with
                      | true =>
                          have hise : isStrEq (alookup "Type" sd) "Choice" = true := by
                            rw [halT, isStrEq]
                            exact hsc
                          rw [hise] at hcho
                          simp only [reduceIte, Bool.and_eq_true] at hcho
                          obtain ⟨hchoices, hdef⟩ := hcho
                          simp only [hsc, reduceIte]
                          exact bind_ok (validate_choice_state_ok name sd hchoices)
                            (fun a => ⟨_, rfl⟩)
                      | false =>
                          simp only [hsc, Bool.false_eq_true, reduceIte]
                          refine ite_ok_ok _ ⟨_, rfl⟩ ?_
                          refine ite_ok_ok _ ⟨_, rfl⟩ ?_
                          refine ite_ok_ok _ ⟨_, rfl⟩ ?_
                          exact ite_ok_ok _ ⟨_, rfl⟩ ⟨_, rfl⟩

theorem statesLoop_ok (sts : List (String × JVal))
    (h : ∀ p ∈ sts, stateTotalSafeB p.2 = true) :
    ∃ r, statesLoop sts = Except.ok r := by
  induction sts with
  | nil => exact ⟨_, rfl⟩
  | cons p rest ih =>
      obtain ⟨name, v⟩ := p
      rw [statesLoop]
      simp only [bind, Except.bind]
      obtain ⟨r1, hr1⟩ := validate_one_state_ok name v (h (name, v) (List.mem_cons_self _ _))
      rw [hr1]
      simp only []
      obtain ⟨r2, hr2⟩ := ih (fun q hq => h q (List.mem_cons_of_mem _ hq))
      rw [hr2]
      simp only []
      obtain ⟨e, w⟩ := r1
      obtain ⟨re, rw2⟩ := r2
      exact ⟨_, rfl⟩

theorem validate_states_ok (fields : List (String × JVal))
    (h : docTotalSafeB (JVal.obj fields) = true) :
    ∃ r, validate_states (JVal.obj fields) = Except.ok r := by
  rw [docTotalSafeB] at h
  simp only [Bool.and_eq_true] at h
  obtain ⟨hsa, hsts⟩ := h
  rw [validate_states]
  simp only [bind, Except.bind]
  have h1 : pyGet (JVal.obj fields) "States" (JVal.obj []) =
      Except.ok ((alookup "States" fields).getD (JVal.obj [])) := rfl
  rw [h1]
  simp only []
  cases hst : alookup "States" fields with
  | none =>
      simp only [Option.getD]
      exact statesLoop_ok [] (by intro p hp; simp at hp)
  | some w =>
      rw [hst] at hsts
      simp only [Option.getD]
      cases w with
      | obj sts =>
          have h5 : ∀ (a : String) (b : JVal), (a, b) ∈ sts →
              stateTotalSafeB b = true := by
            simpa using hsts
          have hall : ∀ p ∈ sts, stateTotalSafeB p.2 = true := by
            intro p hp
            obtain ⟨a, b⟩ := p
            exact h5 a b hp
          exact statesLoop_ok sts hall
      | null => simp at hsts
      | bool b => simp at hsts
      | num n => simp at hsts
      | str s => simp at hsts
      | arr xs => simp at hsts

theorem refChoiceErrs_ok (valid : List String) (name : String) :
    ∀ (cs : List JVal) (i : Nat), cs.all refElemSafeB = true →
    ∃ r, refChoiceErrs valid name cs i = Except.ok r := by
  intro cs
  induction cs with
  | nil => exact fun i h => ⟨[], rfl⟩
  | cons c rest ih =>
      intro i h
      simp only [List.all_cons, Bool.and_eq_true] at h
      obtain ⟨hc, hrest⟩ := h
      obtain ⟨tl, htl⟩ := ih (i + 1) hrest
      rw [refChoiceErrs]
      simp only [bind, Except.bind]
      cases c with
      | obj cd =>
          have hpi : pyIn (JVal.str "Next") (JVal.obj cd) =
              Except.ok (cd.any (fun p => p.1 == "Next")) := rfl
          rw [hpi]
          simp only []
          cases hany : cd.any (fun p => p.1 == "Next") with
          | false =>
              simp only [Bool.false_eq_true, reduceIte, pure, Except.pure]
              rw [htl]
              simp only []
              exact ⟨_, rfl⟩
          | true =>
              obtain ⟨nx, hnx, hnx2⟩ := pySub_ok_of_any cd "Next" hany
              simp only [reduceIte, bind, Except.bind]
              rw [hnx]
              simp only []
              have hh : hashableB nx = true := by
                rw [refElemSafeB, hnx2] at hc
                simpa using hc
              obtain ⟨b, hb⟩ := pySetIn_ok_of_hashable nx valid hh
              rw [hb]
              simp only []
              cases b with
              | true =>
                  simp only [reduceIte, pure, Except.pure]
                  rw [htl]
                  simp only []
                  exact ⟨_, rfl⟩
              | false =>
                  simp only [Bool.false_eq_true, reduceIte, pure, Except.pure]
                  rw [htl]
                  simp only []
                  exact ⟨_, rfl⟩
      | arr xs =>
          have hpi : pyIn (JVal.str "Next") (JVal.arr xs) =
              Except.ok (xs.any (fun v => pyEq (JVal.str "Next") v)) := rfl
          rw [hpi]
          simp only []
          rw [refElemSafeB] at hc
          simp only [Bool.not_eq_true'] at hc
          rw [hc]
          simp only [Bool.false_eq_true, reduceIte, pure, Except.pure]
          rw [htl]
          simp only []
          exact ⟨_, rfl⟩
      | str s =>
          have hpi : pyIn (JVal.str "Next") (JVal.str s) =
              Except.ok (strIn "Next" s) := rfl
          rw [hpi]
          simp only []
          rw [refElemSafeB] at hc
          simp only [Bool.not_eq_true'] at hc
          rw [hc]
          simp only [Bool.false_eq_true, reduceIte, pure, Except.pure]
          rw [htl]
          simp only []
          exact ⟨_, rfl⟩
      | null => simp [refElemSafeB] at hc
      | bool b => simp [refElemSafeB] at hc
      | num n => simp [refElemSafeB] at hc

theorem refCatchErrs_ok (valid : List String) (name : String) :
    ∀ (cs : List JVal) (i : Nat), cs.all refElemSafeB = true →
    ∃ r, refCatchErrs valid name cs i = Except.ok r := by
  intro cs
  induction cs with
  | nil => exact fun i h => ⟨[], rfl⟩
  | cons c rest ih =>
      intro i h
      simp only [List.all_cons, Bool.and_eq_true] at h
      obtain ⟨hc, hrest⟩ := h
      obtain ⟨tl, htl⟩ := ih (i + 1) hrest
      rw [refCatchErrs]
      simp only [bind, Except.bind]
      cases c with
      | obj cd =>
          have hpi : pyIn (JVal.str "Next") (JVal.obj cd) =
              Except.ok (cd.any (fun p => p.1 == "Next")) := rfl
          rw [hpi]
          simp only []
          cases hany : cd.any (fun p => p.1 == "Next") with
          | false =>
              simp only [Bool.false_eq_true, reduceIte, pure, Except.pure]
              rw [htl]
              simp only []
              exact ⟨_, rfl⟩
          | true =>
              obtain ⟨nx, hnx, hnx2⟩ := pySub_ok_of_any cd "Next" hany
              simp only [reduceIte, bind, Except.bind]
              rw [hnx]
              simp only []
              have hh : hashableB nx = true := by
                rw [refElemSafeB, hnx2] at hc
                simpa using hc
              obtain ⟨b, hb⟩ := pySetIn_ok_of_hashable nx valid hh
              rw [hb]
              simp only []
              cases b with
              | true =>
                  simp only [reduceIte, pure, Except.pure]
                  rw [htl]
                  simp only []
                  exact ⟨_, rfl⟩
              | false =>
                  simp only [Bool.false_eq_true, reduceIte, pure, Except.pure]
                  rw [htl]
                  simp only []
                  exact ⟨_, rfl⟩
      | arr xs =>
          have hpi : pyIn (JVal.str "Next") (JVal.arr xs) =
              Except.ok (xs.any (fun v => pyEq (JVal.str "Next") v)) := rfl
          rw [hpi]
          simp only []
          rw [refElemSafeB] at hc
          simp only [Bool.not_eq_true'] at hc
          rw [hc]
          simp only [Bool.false_eq_true, reduceIte, pure, Except.pure]
          rw [htl]
          simp only []
          exact ⟨_, rfl⟩
      | str s =>
          have hpi : pyIn (JVal.str "Next") (JVal.str s) =
              Except.ok (strIn "Next" s) := rfl
          rw [hpi]
          simp only []
          rw [refElemSafeB] at hc
          simp only [Bool.not_eq_true'] at hc
          rw [hc]
          simp only [Bool.false_eq_true, reduceIte, pure, Except.pure]
          rw [htl]
          simp only []
          exact ⟨_, rfl⟩
      | null => simp [refElemSafeB] at hc
      | bool b => simp [refElemSafeB] at hc
      | num n => simp [refElemSafeB] at hc

theorem refErrsOne_ok (valid : List String) (name : String) (v : JVal)
    (h : stateTotalSafeB v = true) :
    ∃ r, refErrsOne valid name v = Except.ok r := by
  cases v with
  | null => exact ⟨_, rfl⟩
  | bool b => exact ⟨_, rfl⟩
  | num n => exact ⟨_, rfl⟩
  | str s => exact ⟨_, rfl⟩
  | arr xs => exact ⟨_, rfl⟩
  | obj sd =>
      rw [stateTotalSafeB] at h
      simp only [Bool.and_eq_true] at h
      obtain ⟨⟨⟨⟨⟨hty, hnx⟩, hcho⟩, hcat⟩, hbr⟩, hcred⟩ := h
      rw [refErrsOne]
      simp only [bind, Except.bind]
      have hnext : ∃ r, refNextErrs valid name sd = Except.ok r := by
        rw [refNextErrs]
        cases hx : alookup "Next" sd with
        | none => exact ⟨_, rfl⟩
        | some nx =>
            rw [hx] at hnx
            have hh2 : hashableB nx = true := by simpa using hnx
            simp only [bind, Except.bind]
            obtain ⟨b, hb⟩ := pySetIn_ok_of_hashable nx valid hh2
            rw [hb]
            simp only []
            cases b with
            | true => exact ⟨_, rfl⟩
            | false => exact ⟨_, rfl⟩
      obtain ⟨r1, hr1⟩ := hnext
      rw [hr1]
      simp only []
      have hchoice : ∃ r, refChoicePart valid name sd = Except.ok r := by
        rw [refChoicePart]
        cases hise : isStrEq (alookup "Type" sd) "Choice" with
        | false =>
            simp only [Bool.false_eq_true, reduceIte]
            exact ⟨_, rfl⟩
        | true =>
            rw [hise] at hcho
            simp only [reduceIte, Bool.and_eq_true] at hcho
            obtain ⟨hchoices, hdef⟩ := hcho
            simp only [reduceIte, bind, Except.bind]
            obtain ⟨choices, hch1, hch2⟩ := iterElemsSafe_getD _ hchoices
            rw [hch1]
            simp only []
            obtain ⟨ce, hce⟩ := refChoiceErrs_ok valid name choices 0 hch2
            rw [hce]
            simp only []
            cases hx : alookup "Default" sd with
            | none =>
                simp only [pure, Except.pure]
                exact ⟨_, rfl⟩
            | some d =>
                rw [hx] at hdef
                have hh2 : hashableB d = true := by simpa using hdef
                simp only [bind, Except.bind]
                obtain ⟨b, hb⟩ := pySetIn_ok_of_hashable d valid hh2
                rw [hb]
                simp only []
                cases b with
                | true => exact ⟨_, rfl⟩
                | false => exact ⟨_, rfl⟩
      obtain ⟨r2, hr2⟩ := hchoice
      rw [hr2]
      simp only []
      have hcatch : ∃ r, refCatchPart valid name sd = Except.ok r := by
        rw [refCatchPart]
        simp only [bind, Except.bind]
        obtain ⟨catches, hcat1, hcat2⟩ := iterElemsSafe_getD _ hcat
        rw [hcat1]
        simp only []
        exact refCatchErrs_ok valid name catches 0 hcat2
      obtain ⟨r3, hr3⟩ := hcatch
      rw [hr3]
      simp only []
      exact ⟨_, rfl⟩

theorem refErrsLoop_ok (valid : List String) (sts : List (String × JVal))
    (h : ∀ p ∈ sts, stateTotalSafeB p.2 = true) :
    ∃ r, refErrsLoop valid sts = Except.ok r := by
  induction sts with
  | nil => exact ⟨_, rfl⟩
  | cons p rest ih =>
      obtain ⟨name, v⟩ := p
      rw [refErrsLoop]
      simp only [bind, Except.bind]
      obtain ⟨r1, hr1⟩ := refErrsOne_ok valid name v (h (name, v) (List.mem_cons_self _ _))
      rw [hr1]
      simp only []
      obtain ⟨r2, hr2⟩ := ih (fun q hq => h q (List.mem_cons_of_mem _ hq))
      rw [hr2]
      simp only []
      exact ⟨_, rfl⟩

theorem validate_state_references_ok (fields : List (String × JVal))
    (h : docTotalSafeB (JVal.obj fields) = true) :
    ∃ r, validate_state_references (JVal.obj fields) = Except.ok r := by
  rw [docTotalSafeB] at h
  simp only [Bool.and_eq_true] at h
  obtain ⟨hsa, hsts⟩ := h
  rw [validate_state_references]
  simp only [bind, Except.bind]
  have h1 : pyGet (JVal.obj fields) "States" (JVal.obj []) =
      Except.ok ((alookup "States" fields).getD (JVal.obj [])) := rfl
  rw [h1]
  simp only []
  cases hst : alookup "States" fields with
  | none =>
      simp only [Option.getD]
      exact refErrsLoop_ok [] [] (by intro p hp; simp at hp)
  | some w =>
      rw [hst] at hsts
      simp only [Option.getD]
      cases w with
      | obj sts =>
          have h5 : ∀ (a : String) (b : JVal), (a, b) ∈ sts →
              stateTotalSafeB b = true := by
            simpa using hsts
          have hall : ∀ p ∈ sts, stateTotalSafeB p.2 = true := by
            intro p hp
            obtain ⟨a, b⟩ := p
            exact h5 a b hp
          exact refErrsLoop_ok (sts.map Prod.fst) sts hall
      | null => simp at hsts
      | bool b => simp at hsts
      | num n => simp at hsts
      | str s => simp at hsts
      | arr xs => simp at hsts

theorem terminalsLoop_ok (sts : List (String × JVal))
    (h : ∀ p ∈ sts, stateTotalSafeB p.2 = true) :
    ∃ r, terminalsLoop sts = Except.ok r := by
  induction sts with
  | nil => exact ⟨_, rfl⟩
  | cons p rest ih =>
      obtain ⟨name, v⟩ := p
      obtain ⟨r2, hr2⟩ := ih (fun q hq => h q (List.mem_cons_of_mem _ hq))
      have hv := h (name, v) (List.mem_cons_self _ _)
      cases v with
      | null => exact ⟨r2, hr2⟩
      | bool b => exact ⟨r2, hr2⟩
      | num n => exact ⟨r2, hr2⟩
      | str s => exact ⟨r2, hr2⟩
      | arr xs => exact ⟨r2, hr2⟩
      | obj sd =>
          rw [stateTotalSafeB] at hv
          simp only [Bool.and_eq_true] at hv
          obtain ⟨⟨⟨⟨⟨hty, hnx⟩, hcho⟩, hcat⟩, hbr⟩, hcred⟩ := hv
          rw [terminalsLoop]
          simp only [bind, Except.bind]
          cases hx : alookup "Type" sd with
          | none =>
              simp only [Option.getD]
              rw [hr2]
              simp only []
              exact ⟨_, rfl⟩
          | some tv =>
              rw [hx] at hty
              have hty2 : hashableB tv = true := by simpa using hty
              simp only [Option.getD]
              cases tv with
              | arr xs => simp [hashableB] at hty2
              | obj fs => simp [hashableB] at hty2
              | null =>
                  rw [hr2]
                  simp only []
                  exact ⟨_, rfl⟩
              | bool b =>
                  rw [hr2]
                  simp only []
                  exact ⟨_, rfl⟩
              | num n =>
                  rw [hr2]
                  simp only []
                  exact ⟨_, rfl⟩
              | str s =>
                  rw [hr2]
                  simp only []
                  exact ⟨_, rfl⟩

theorem validate_terminal_states_ok (fields : List (String × JVal))
    (h : docTotalSafeB (JVal.obj fields) = true) :
    ∃ r, validate_terminal_states (JVal.obj fields) = Except.ok r := by
  rw [docTotalSafeB] at h
  simp only [Bool.and_eq_true] at h
  obtain ⟨hsa, hsts⟩ := h
  rw [validate_terminal_states]
  simp only [bind, Except.bind]
  have h1 : pyGet (JVal.obj fields) "States" (JVal.obj []) =
      Except.ok ((alookup "States" fields).getD (JVal.obj [])) := rfl
  rw [h1]
  simp only []
  cases hst : alookup "States" fields with
  | none =>
      simp only [Option.getD]
      exact ⟨_, rfl⟩
  | some w =>
      rw [hst] at hsts
      simp only [Option.getD]
      cases w with
      | obj sts =>
          have h5 : ∀ (a : String) (b : JVal), (a, b) ∈ sts →
              stateTotalSafeB b = true := by
            simpa using hsts
          have hall : ∀ p ∈ sts, stateTotalSafeB p.2 = true := by
            intro p hp
            obtain ⟨a, b⟩ := p
            exact h5 a b hp
          simp only [pyItems]
          obtain ⟨terms, hterms⟩ := terminalsLoop_ok sts hall
          rw [hterms]
          simp only []
          cases hemp : terms.isEmpty with
          | true => exact ⟨_, rfl⟩
          | false => exact ⟨_, rfl⟩
      | null => simp at hsts
      | bool b => simp at hsts
      | num n => simp at hsts
      | str s => simp at hsts
      | arr xs => simp at hsts

theorem crossAccountLoop_ok (sts : List (String × JVal))
    (h : ∀ p ∈ sts, stateTotalSafeB p.2 = true) :
    ∃ r, crossAccountLoop sts = Except.ok r := by
  induction sts with
  | nil => exact ⟨_, rfl⟩
  | cons p rest ih =>
      obtain ⟨name, v⟩ := p
      obtain ⟨r2, hr2⟩ := ih (fun q hq => h q (List.mem_cons_of_mem _ hq))
      have hv := h (name, v) (List.mem_cons_self _ _)
      cases v with
      | null => exact ⟨r2, hr2⟩
      | bool b => exact ⟨r2, hr2⟩
      | num n => exact ⟨r2, hr2⟩
      | str s => exact ⟨r2, hr2⟩
      | arr xs => exact ⟨r2, hr2⟩
      | obj sd =>
          rw [stateTotalSafeB] at hv
          simp only [Bool.and_eq_true] at hv
          obtain ⟨⟨⟨⟨⟨hty, hnx⟩, hcho⟩, hcat⟩, hbr⟩, hcred⟩ := hv
          rw [crossAccountLoop]
          cases hx : alookup "Credentials" sd with
          | none => exact ⟨r2, hr2⟩
          | some creds =>
              rw [hx] at hcred
              have hci : canInB creds = true := by simpa using hcred
              simp only [bind, Except.bind]
              obtain ⟨b1, hb1⟩ := pyIn_probe_ok "RoleArn" creds hci
              rw [hb1]
              simp only []
              cases b1 with
              | true =>
                  simp only [Bool.not_true, Bool.false_eq_true, reduceIte,
                             pure, Except.pure]
                  rw [hr2]
                  simp only []
                  obtain ⟨rc, rw2⟩ := r2
                  exact ⟨_, rfl⟩
              | false =>
                  simp only [Bool.not_false, reduceIte, bind, Except.bind]
                  obtain ⟨b2, hb2⟩ := pyIn_probe_ok "RoleArn.$" creds hci
                  rw [hb2]
                  simp only []
                  rw [hr2]
                  simp only []
                  obtain ⟨rc, rw2⟩ := r2
                  exact ⟨_, rfl⟩

theorem check_cross_account_patterns_ok (fields : List (String × JVal))
    (h : docTotalSafeB (JVal.obj fields) = true) :
    ∃ r, check_cross_account_patterns (JVal.obj fields) = Except.ok r := by
  rw [docTotalSafeB] at h
  simp only [Bool.and_eq_true] at h
  obtain ⟨hsa, hsts⟩ := h
  rw [check_cross_account_patterns]
  simp only [bind, Except.bind]
  have h1 : pyGet (JVal.obj fields) "States" (JVal.obj []) =
      Except.ok ((alookup "States" fields).getD (JVal.obj [])) := rfl
  rw [h1]
  simp only []
  cases hst : alookup "States" fields with
  | none =>
      simp only [Option.getD]
      exact ⟨_, rfl⟩
  | some w =>
      rw [hst] at hsts
      simp only [Option.getD]
      cases w with
      | obj sts =>
          have h5 : ∀ (a : String) (b : JVal), (a, b) ∈ sts →
              stateTotalSafeB b = true := by
            simpa using hsts
          have hall : ∀ p ∈ sts, stateTotalSafeB p.2 = true := by
            intro p hp
            obtain ⟨a, b⟩ := p
            exact h5 a b hp
          simp only [pyItems]
          obtain ⟨r2, hr2⟩ := crossAccountLoop_ok sts hall
          rw [hr2]
          simp only []
          obtain ⟨count, warns⟩ := r2
          exact ⟨_, rfl⟩
      | null => simp at hsts
      | bool b => simp at hsts
      | num n => simp at hsts
      | str s => simp at hsts
      | arr xs => simp at hsts

theorem detect_unreachable_states_ok (fields : List (String × JVal))
    (h : docTotalSafeB (JVal.obj fields) = true) :
    ∃ r, detect_unreachable_states (JVal.obj fields) = Except.ok r := by
  rw [docTotalSafeB] at h
  simp only [Bool.and_eq_true] at h
  obtain ⟨hsa, hsts⟩ := h
  rw [detect_unreachable_states]
  simp only [bind, Except.bind]
  have h1 : pyGet (JVal.obj fields) "States" (JVal.obj []) =
      Except.ok ((alookup "States" fields).getD (JVal.obj [])) := rfl
  rw [h1]
  simp only []
  have h2 : pyGet (JVal.obj fields) "StartAt" JVal.null =
      Except.ok ((alookup "StartAt" fields).getD JVal.null) := rfl
  rw [h2]
  simp only []
  have hstart : hashableB ((alookup "StartAt" fields).getD JVal.null) = true := by
    cases hx : alookup "StartAt" fields with
    | none => rfl
    | some sv =>
        rw [hx] at hsa
        simpa using hsa
  have hbody : ∀ (sts : List (String × JVal)), (∀ p ∈ sts, stateSafeB p.2 = true) →
      ∃ r, (if (!pyTruthy (JVal.obj sts) || !pyTruthy ((alookup "StartAt" fields).getD JVal.null)) = true then
              (pure [] : Except PyErr (List String))
            else do
              let reach ← bfsLoop (JVal.obj sts) (bfsFuel (JVal.obj sts))
                  [(alookup "StartAt" fields).getD JVal.null] []
              let keys ← pyKeys (JVal.obj sts)
              pure ((keys.filter (fun k => !(reach.contains k))).map
                    (fun s => "State '" ++ s ++ "' is unreachable from StartAt"))) =
        Except.ok r := by
    intro sts hall
    cases hc : (!pyTruthy (JVal.obj sts) || !pyTruthy ((alookup "StartAt" fields).getD JVal.null)) with
    | true => exact ⟨_, rfl⟩
    | false =>
        simp only [Bool.false_eq_true, reduceIte, bind, Except.bind]
        obtain ⟨reach, hreach⟩ := bfsLoop_total sts hall (bfsFuel (JVal.obj sts))
            [(alookup "StartAt" fields).getD JVal.null] []
            (by
              intro q hq
              rcases List.mem_cons.mp hq with h3 | h3
              · rw [h3]; exact hstart
              · simp at h3)
        rw [hreach]
        simp only [pyKeys]
        exact ⟨_, rfl⟩
  cases hst : alookup "States" fields with
  | none =>
      simp only [Option.getD]
      exact hbody [] (by intro p hp; simp at hp)
  | some w =>
      rw [hst] at hsts
      simp only [Option.getD]
      cases w with
      | obj sts =>
          have h5 : ∀ (a : String) (b : JVal), (a, b) ∈ sts →
              stateTotalSafeB b = true := by
            simpa using hsts
          have hall : ∀ p ∈ sts, stateSafeB p.2 = true := by
            intro p hp
            obtain ⟨a, b⟩ := p
            exact stateTotalSafe_implies_bfs_safe b (h5 a b hp)
          exact hbody sts hall
      | null => simp at hsts
      | bool b => simp at hsts
      | num n => simp at hsts
      | str s => simp at hsts
      | arr xs => simp at hsts

theorem runChecks_ok (fields : List (String × JVal))
    (h : docTotalSafeB (JVal.obj fields) = true) :
    ∃ r, runChecks (JVal.obj fields) = Except.ok r := by
  rw [runChecks]
  simp only [bind, Except.bind]
  obtain ⟨r1, hr1⟩ := validate_required_fields_ok fields
  rw [hr1]
  simp only []
  obtain ⟨r2, hr2⟩ := validate_start_at_ok fields h
  rw [hr2]
  simp only []
  obtain ⟨r3, hr3⟩ := validate_states_ok fields h
  rw [hr3]
  simp only []
  obtain ⟨e3, w3⟩ := r3
  obtain ⟨r4, hr4⟩ := validate_state_references_ok fields h
  rw [hr4]
  simp only []
  obtain ⟨r5, hr5⟩ := validate_terminal_states_ok fields h
  rw [hr5]
  simp only []
  obtain ⟨r6, hr6⟩ := detect_unreachable_states_ok fields h
  rw [hr6]
  simp only []
  obtain ⟨r7, hr7⟩ := check_cross_account_patterns_ok fields h
  rw [hr7]
  simp only []
  obtain ⟨w7, i7⟩ := r7
  exact ⟨_, rfl⟩

theorem validateDoc_ok_vb (doc : JVal) (h : docTotalSafeB doc = true) :
    ∃ r : VResult × Bool, validateDoc doc = Except.ok r ∧
      r.2 = r.1.errors.isEmpty := by
  cases doc with
  | obj fields =>
      rw [validateDoc]
      simp only [bind, Except.bind]
      obtain ⟨r, hr⟩ := runChecks_ok fields h
      rw [hr]
      simp only [pure, Except.pure]
      exact ⟨(r, r.errors.isEmpty), rfl, rfl⟩
  | null => simp [docTotalSafeB] at h
  | bool b => simp [docTotalSafeB] at h
  | num n => simp [docTotalSafeB] at h
  | str s => simp [docTotalSafeB] at h
  | arr xs => simp [docTotalSafeB] at h

/-- C2 counterexample.  A successfully parsed document whose root is a JSON
array crashes the third stage (`_validate_states` calls
`self.definition.get`, and a list has no `.get`), so validation does not run
every post-parse check to completion. -/
theorem validate_nonobject_root_counterexample :
    validateDoc (JVal.arr []) = Except.error PyErr.attributeError := rfl

/-- C2 (amended).  For every successfully parsed document whose root is an
object, whose `States` value (when present) is an object, whose `StartAt`
value (when present) is hashable, and whose states are shape-safe in the
sense of `stateTotalSafeB` — in particular states whose value is not an
object at all are always shape-safe — `ASLValidator.validate` runs every
post-parse check to completion and returns the boolean `len(errors) == 0`
without any exception propagating; the second and third conjuncts exercise
this on a document with non-object state values, which only produce
diagnostics. -/
theorem validate_runs_all_checks_on_safe_docs :
    (∀ doc : JVal, docTotalSafeB doc = true →
      ∃ r : VResult × Bool, validateDoc doc = Except.ok r ∧
        r.2 = r.1.errors.isEmpty) ∧
    docTotalSafeB
      (JVal.obj [("StartAt", JVal.str "A"),
        ("States", JVal.obj
          [("A", JVal.obj [("Type", JVal.str "Pass"), ("Next", JVal.str "B")]),
           ("B", JVal.str "oops"),
           ("C", JVal.num 3)])]) = true ∧
    (∃ r : VResult × Bool,
      validateDoc
        (JVal.obj [("StartAt", JVal.str "A"),
          ("States", JVal.obj
            [("A", JVal.obj [("Type", JVal.str "Pass"), ("Next", JVal.str "B")]),
             ("B", JVal.str "oops"),
             ("C", JVal.num 3)])]) = Except.ok r ∧ r.2 = false) :=
  ⟨validateDoc_ok_vb, by decide, ⟨_, rfl, rfl⟩⟩

/-- Witness for C2's amended theorem at a concrete document with a non-object
state value. -/
theorem validate_runs_all_checks_on_safe_docs_witness :
    docTotalSafeB
      (JVal.obj [("StartAt", JVal.str "S"),
        ("States", JVal.obj
          [("S", JVal.obj [("Type", JVal.str "Succeed")]),
           ("T", JVal.arr [JVal.num 1])])]) = true ∧
    (∃ r : VResult × Bool,
      validateDoc
        (JVal.obj [("StartAt", JVal.str "S"),
          ("States", JVal.obj
            [("S", JVal.obj [("Type", JVal.str "Succeed")]),
             ("T", JVal.arr [JVal.num 1])])]) = Except.ok r ∧
      r.2 = r.1.errors.isEmpty) :=
  ⟨by decide,
   validate_runs_all_checks_on_safe_docs.1
     (JVal.obj [("StartAt", JVal.str "S"),
       ("States", JVal.obj
         [("S", JVal.obj [("Type", JVal.str "Succeed")]),
          ("T", JVal.arr [JVal.num 1])])]) (by decide)⟩


end ASLV
